import Mathlib

/-!
# Path-matching trie of `tree.go`: insertion (`add`, `addChain`) and lookup (`findRoute`)

A Go `string` is an immutable byte sequence.  It is embedded as a list whose
elements stand for the bytes of the string.  The three structural bytes
`'/'`, `':'` and `'*'` are ASCII, so the rune iteration `for end, c = range path`
of `add` meets them at exactly the byte offsets at which the byte iteration
of `findRoute` meets them; both loops are embedded as a search for the first
offset holding the byte.

Pointers to nodes are embedded as the route from the node a function was
called on down to the node pointed to (`Ptr`); each node of the trie is
created by `&node{}` and stored in exactly one place, so routes and pointers
correspond one to one.  A panic leaves the mutations made before it in place,
so `add` always yields the mutated node together with how the call ended.
-/

namespace Lars

/-- Go `string`, as the sequence of its bytes. -/
abbrev Str := List Char

/-- Modelled from the spec: the constant `blank` is declared outside `tree.go`;
it is the empty string. -/
def blank : Str := []

/-- Modelled from the spec: the constant `slash` (and its byte twin
`slashByte`) is declared outside `tree.go`; it is the separator `'/'`. -/
def slash : Char := '/'

/-- Modelled from the spec: the constant `colon` is declared outside `tree.go`;
it is the parameter sigil `':'`. -/
def colon : Char := ':'

/-- Modelled from the spec: the constant `star` is declared outside `tree.go`;
it is the catch-all sigil `'*'`. -/
def star : Char := '*'

/-- Modelled from the spec: the type `HandlersChain` is declared outside
`tree.go`; the trie never looks inside a chain, so a chain is the ordered
sequence of the identifiers of its handlers.  The nil chain and the empty chain
are both `[]`. -/
abbrev HandlersChain := List Nat

/-- Go `m[k]` with the comma-ok form, on a map kept as an association list. -/
def mapGet {α : Type} (k : Str) : List (Str × α) → Option α
  | [] => none
  | (k', v) :: rest => if k' = k then some v else mapGet k rest

/-- Go `m[k] = v`: overwrite the entry of `k`, or add one. -/
def mapSet {α : Type} (k : Str) (v : α) : List (Str × α) → List (Str × α)
  | [] => [(k, v)]
  | (k', v') :: rest => if k' = k then (k, v) :: rest else (k', v') :: mapSet k v rest

/-- The struct `node`: static children, param child, wild child, chains, param name. -/
inductive Node where
  | mk (static : List (Str × Node)) (params : Option Node) (wild : Option Node)
      (chains : List (Str × HandlersChain)) (param : Str) : Node

namespace Node

/-- Field `static`. -/
def static : Node → List (Str × Node)
  | mk s _ _ _ _ => s

/-- Field `params`. -/
def params : Node → Option Node
  | mk _ p _ _ _ => p

/-- Field `wild`. -/
def wild : Node → Option Node
  | mk _ _ w _ _ => w

/-- Field `chains`. -/
def chains : Node → List (Str × HandlersChain)
  | mk _ _ _ c _ => c

/-- Field `param`. -/
def param : Node → Str
  | mk _ _ _ _ p => p

/-- The zero value `&node{}`. -/
def empty : Node := mk [] none none [] []

/-- The literal `&node{param: param}`. -/
def newParam (param : Str) : Node := mk [] none none [] param

/-- Assignment `n.static[chunk] = nn`. -/
def setStatic (n : Node) (chunk : Str) (nn : Node) : Node :=
  mk (mapSet chunk nn n.static) n.params n.wild n.chains n.param

/-- Assignment `n.params = nn`. -/
def setParams (n : Node) (nn : Node) : Node :=
  mk n.static (some nn) n.wild n.chains n.param

/-- Assignment `n.wild = nn`. -/
def setWild (n : Node) (nn : Node) : Node :=
  mk n.static n.params (some nn) n.chains n.param

/-- Method `addChain`: `n.chains[method] = chain` (the map is made first when nil). -/
def addChain (n : Node) (method : Str) (chain : HandlersChain) : Node :=
  mk n.static n.params n.wild (mapSet method chain n.chains) n.param

/-- Expression `n.chains[method]`: the chain stored for the method, the nil chain
when the map is nil or has no such key. -/
def chainFor (n : Node) (method : Str) : HandlersChain :=
  (mapGet method n.chains).getD []

end Node

/-- One edge of the trie: which field of a node leads to the child. -/
inductive Step where
  | static (chunk : Str) : Step
  | params : Step
  | wild : Step
  deriving DecidableEq, Repr

/-- A `*node` value, as the route to the node from the node a call started on. -/
abbrev Ptr := List Step

namespace Node

/-- The child of a node along one edge. -/
def child (n : Node) : Step → Option Node
  | .static chunk => mapGet chunk n.static
  | .params => n.params
  | .wild => n.wild

/-- Store a node as the child along one edge. -/
def setChild (n : Node) : Step → Node → Node
  | .static chunk, nn => n.setStatic chunk nn
  | .params, nn => n.setParams nn
  | .wild, nn => n.setWild nn

/-- Dereference a pointer. -/
def at? (n : Node) : Ptr → Option Node
  | [] => some n
  | s :: rest =>
    match n.child s with
    | some c => c.at? rest
    | none => none

/-- Apply a mutation to the node a pointer points to. -/
def modifyAt (f : Node → Node) (n : Node) : Ptr → Node
  | [] => f n
  | s :: rest =>
    match n.child s with
    | some c => n.setChild s (c.modifyAt f rest)
    | none => n

end Node

/-- The panics of `add`: the five explicit `panic` calls and the run-time
panic of the slice expression `path[start : end+1]`. -/
inductive Panic where
  | differentParamNames : Panic
  | paramWildExists (param : Str) : Panic
  | charAfterStar : Panic
  | wildExists : Panic
  | wildParamExists : Panic
  | sliceBounds : Panic
  deriving DecidableEq, Repr

/-- How a call of `add` ended. -/
inductive Status where
  | returned (p : Ptr) : Status
  | panicked (why : Panic) : Status
  | outOfFuel : Status
  deriving DecidableEq, Repr

/-- State after a call of `add`: the node it was called on with the mutations
made, the counter `*pCount`, and how the call ended. -/
structure AddResult where
  node : Node
  pCount : Nat
  status : Status

/-- Pass the result of a recursive call on a child up to the caller: the child
hangs under edge `s` of `n`, a returned pointer goes through that edge. -/
def AddResult.under (n : Node) (s : Step) (r : AddResult) : AddResult :=
  { node := n.setChild s r.node
    pCount := r.pCount
    status := match r.status with
      | .returned p => .returned (s :: p)
      | .panicked why => .panicked why
      | .outOfFuel => .outOfFuel }

/-- First offset of a byte satisfying `p`, as found by a `for` loop over the string. -/
def indexWhere (p : Char → Bool) : Str → Option Nat
  | [] => none
  | c :: cs => if p c then some 0 else (indexWhere p cs).map (· + 1)

/-- The offset and the byte at which the outer loop of `add` leaves its
`continue` path: the first `'/'`, `':'` or `'*'`. -/
def firstStructural : Str → Option (Nat × Char)
  | [] => none
  | c :: cs =>
    if c = slash ∨ c = colon ∨ c = star then some (0, c)
    else (firstStructural cs).map (fun r => (r.1 + 1, r.2))

/-- The increment `*pCount++` on a `uint8`. -/
def incr (pCount : Nat) : Nat := (pCount + 1) % 256

/-- Function `add`, with a bound on the depth of the recursion. -/
def addAux : Nat → Str → Nat → Node → AddResult
  | 0, _, pCount, n => ⟨n, pCount, .outOfFuel⟩
  | fuel + 1, path, pCount, n =>
    if path = blank then ⟨n, pCount, .returned []⟩
    else
      match firstStructural path with
      | some (e, c) =>
        if c = slash then
          let chunk := path.take (e + 1)
          match mapGet chunk n.static with
          | some charNode =>
            AddResult.under n (.static chunk) (addAux fuel (path.drop (e + 1)) pCount charNode)
          | none =>
            AddResult.under n (.static chunk) (addAux fuel (path.drop (e + 1)) pCount Node.empty)
        else if c = colon then
          let start := e + 1
          match indexWhere (· = slash) (path.drop start) with
          | some e2 =>
            if start > e2 + 1 then ⟨n, pCount, .panicked .sliceBounds⟩
            else
              let param := (path.take (e2 + 1)).drop start
              match n.params with
              | some pn =>
                if pn.param ≠ param then ⟨n, pCount, .panicked .differentParamNames⟩
                else AddResult.under n .params (addAux fuel (path.drop (e2 + 2)) (incr pCount) pn)
              | none =>
                match n.wild with
                | some _ => ⟨n, pCount, .panicked (.paramWildExists param)⟩
                | none =>
                  AddResult.under n .params
                    (addAux fuel (path.drop (e2 + 2)) (incr pCount) (Node.newParam param))
          | none =>
            let param := path.drop start
            match n.params with
            | some pn =>
              if pn.param ≠ param then ⟨n, incr pCount, .panicked .differentParamNames⟩
              else ⟨n, incr pCount, .returned [.params]⟩
            | none =>
              match n.wild with
              | some _ => ⟨n, incr pCount, .panicked (.paramWildExists param)⟩
              | none => ⟨n.setParams (Node.newParam param), incr pCount, .returned [.params]⟩
        else
          if path.drop (e + 1) ≠ blank then ⟨n, pCount, .panicked .charAfterStar⟩
          else
            match n.wild with
            | some _ => ⟨n, pCount, .panicked .wildExists⟩
            | none =>
              match n.params with
              | some _ => ⟨n, pCount, .panicked .wildParamExists⟩
              | none => ⟨n.setWild Node.empty, pCount, .returned [.wild]⟩
      | none =>
        match mapGet path n.static with
        | some _ => ⟨n, pCount, .returned [.static path]⟩
        | none => ⟨n.setStatic path Node.empty, pCount, .returned [.static path]⟩

/-- Function `add`: every recursive call is on a strictly shorter path, so a
depth of one more than the length of the path is never exhausted. -/
def add (path : Str) (pCount : Nat) (n : Node) : AddResult :=
  addAux (path.length + 1) path pCount n

/-- Modelled from the spec: the struct `Param` of a binding is declared outside
`tree.go`; `findRoute` writes its fields `Key` and `Value`. -/
structure Param where
  Key : Str
  Value : Str
  deriving DecidableEq, Repr

/-- Modelled from the spec: the struct `ctx` is declared outside `tree.go`;
`findRoute` uses its slice `params` (length and capacity) and its field
`handlers`. -/
structure Ctx where
  params : List Param
  cap : Nat
  handlers : HandlersChain
  deriving DecidableEq, Repr

/-- How a call of `findRoute` ended: it returned leaving the context as given,
it panicked on the slice extension `context.params[:i+1]`, or the bound of
the model ran out. -/
inductive Outcome where
  | returned (context : Ctx) : Outcome
  | panicked : Outcome
  | outOfFuel : Outcome
  deriving DecidableEq, Repr

/-- The three statements that append a binding: `i = len(context.params)`,
`context.params = context.params[:i+1]`, then the stores to `Key` and `Value`. -/
def Ctx.bind (context : Ctx) (key value : Str) : Ctx :=
  { context with params := context.params ++ [⟨key, value⟩] }

/-- Function `findRoute`, with a bound on the number of passes through `START`. -/
def findRouteAux : Nat → Ctx → Node → Str → Str → Outcome
  | 0, _, _, _, _ => .outOfFuel
  | fuel + 1, context, n, method, path =>
    match indexWhere (· = slash) path with
    | some e =>
      let chunk := path.take (e + 1)
      match mapGet chunk n.static with
      | some node => findRouteAux fuel context node method (path.drop (e + 1))
      | none =>
        match n.params with
        | some pn =>
          if context.params.length + 1 > context.cap then .panicked
          else findRouteAux fuel (context.bind pn.param (path.take e)) pn method (path.drop (e + 1))
        | none =>
          match n.wild with
          | some w => .returned { context with handlers := w.chainFor method }
          | none => .returned context
    | none =>
      match mapGet path n.static with
      | some node => .returned { context with handlers := node.chainFor method }
      | none =>
        match n.params with
        | some pn =>
          if context.params.length + 1 > context.cap then .panicked
          else .returned ({ context with handlers := pn.chainFor method }.bind pn.param path)
        | none =>
          match n.wild with
          | some w => .returned { context with handlers := w.chainFor method }
          | none =>
            if path = blank then .returned { context with handlers := n.chainFor method }
            else .returned context

/-- Function `findRoute`: every pass through `START` continues on a strictly
shorter path, so one more pass than the length of the path is never exhausted. -/
def findRoute (context : Ctx) (n : Node) (method : Str) (path : Str) : Outcome :=
  findRouteAux (path.length + 1) context n method path

/-- A string without the separator `'/'`. -/
def SlashFree (s : Str) : Prop := ∀ c ∈ s, c ≠ slash

/-- A string without the sigils `':'` and `'*'`. -/
def SigilFree (s : Str) : Prop := ∀ c ∈ s, c ≠ colon ∧ c ≠ star

/-- A string without any structural byte: no `'/'`, no `':'`, no `'*'`. -/
def Plain (s : Str) : Prop := ∀ c ∈ s, c ≠ slash ∧ c ≠ colon ∧ c ≠ star

/-- Call `addChain(method, chain)` on the node a pointer points to. -/
def Node.addChainAt (n : Node) (p : Ptr) (method : Str) (chain : HandlersChain) : Node :=
  n.modifyAt (fun x => x.addChain method chain) p

/-- A registered route: method, pattern and handler chain. -/
structure Route where
  method : Str
  pattern : Str
  chain : HandlersChain

/-- Registration of a route on a root: `add` with a fresh counter, then `addChain`
on the node `add` returned.  There is no result when `add` panics. -/
def register (root : Node) (r : Route) : Option Node :=
  match (add r.pattern 0 root).status with
  | .returned p => some ((add r.pattern 0 root).node.addChainAt p r.method r.chain)
  | _ => none

/-- Registration of a sequence of routes, in order, each one on the trie left by
the ones before; there is no result as soon as one registration panics. -/
def registerAll (root : Node) : List Route → Option Node
  | [] => some root
  | r :: rs => (register root r).bind (fun root' => registerAll root' rs)

/-- The chain of the last route of the sequence with the given method and pattern. -/
def lastChain (method pattern : Str) : List Route → Option HandlersChain
  | [] => none
  | r :: rs =>
    match lastChain method pattern rs with
    | some c => some c
    | none => if r.method = method ∧ r.pattern = pattern then some r.chain else none

/-- Tries reachable from the empty root: by calls of `add` on the root, whether
they return or panic, and by calls of `addChain` on a node of the trie. -/
inductive Reachable : Node → Prop where
  | empty : Reachable Node.empty
  | add (path : Str) (pCount : Nat) {root : Node} :
      Reachable root → Reachable (add path pCount root).node
  | addChain (p : Ptr) (method : Str) (chain : HandlersChain) {root : Node} :
      Reachable root → Reachable (root.addChainAt p method chain)

/-- The text of a run of directory chunks: each one followed by the separator. -/
def dirs : List Str → Str
  | [] => []
  | d :: ds => d ++ slash :: dirs ds

/-- The pointer through the static children keyed by a run of directory chunks. -/
def dirPtr (ds : List Str) : Ptr := ds.map (fun d => Step.static (d ++ [slash]))

/-- Follow a pointer, through empty nodes where a child is missing. -/
def Node.descend (n : Node) : Ptr → Node
  | [] => n
  | s :: p => Node.descend ((n.child s).getD Node.empty) p

/-- Store a node at the end of a pointer, making the missing nodes on the way. -/
def Node.graft (n : Node) : Ptr → Node → Node
  | [], y => y
  | s :: p, y => n.setChild s (Node.graft ((n.child s).getD Node.empty) p y)

/-- The result of a call made at the end of a pointer, seen from its start. -/
def AddResult.lift (n : Node) (p : Ptr) (r : AddResult) : AddResult :=
  { node := n.graft p r.node
    pCount := r.pCount
    status := match r.status with
      | .returned q => .returned (p ++ q)
      | .panicked why => .panicked why
      | .outOfFuel => .outOfFuel }

/-- Every node of the trie under `n`, `n` included, satisfies `Q`. -/
def Node.All (Q : Node → Prop) (n : Node) : Prop := ∀ p x, n.at? p = some x → Q x

/-- A key of a static map as `add` makes them: not empty, without sigil, and
with the separator as its last byte at most. -/
def ChunkKey (k : Str) : Prop := k ≠ [] ∧ SigilFree k ∧ SlashFree k.dropLast

/-- A status seen through one more edge: what `AddResult.under` does to it. -/
def Status.under (s : Step) : Status → Status
  | .returned p => .returned (s :: p)
  | .panicked why => .panicked why
  | .outOfFuel => .outOfFuel

/-- A node as `add` creates them: no child and no chain. -/
def Node.Fresh (n : Node) : Prop :=
  n.static = [] ∧ n.params = none ∧ n.wild = none ∧ n.chains = []

/-- The calls of `add` in big steps: `AddRel path n n' st` when a call on `path`
at node `n` leaves the node as `n'` and ends as `st`. -/
inductive AddRel : Str → Node → Node → Status → Prop where
  | blank (n : Node) : AddRel [] n n (.returned [])
  | panic (path : Str) (n : Node) (why : Panic) : AddRel path n n (.panicked why)
  | hitStatic (path : Str) (n c : Node) : Plain path → path ≠ [] →
      n.child (.static path) = some c → AddRel path n n (.returned [.static path])
  | newStatic (path : Str) (n : Node) : Plain path → path ≠ [] →
      n.child (.static path) = none →
      AddRel path n (n.setChild (.static path) Node.empty) (.returned [.static path])
  | hitParam (path : Str) (n pn : Node) : colon ∈ path → n.params = some pn →
      AddRel path n n (.returned [.params])
  | newParam (path param : Str) (n : Node) : colon ∈ path → n.params = none →
      n.wild = none →
      AddRel path n (n.setChild .params (Node.newParam param)) (.returned [.params])
  | newWild (path : Str) (n : Node) : star ∈ path → n.params = none → n.wild = none →
      AddRel path n (n.setChild .wild Node.empty) (.returned [.wild])
  | intoStatic (pre rest : Str) (n c c' : Node) (st : Status) : Plain pre →
      n.child (.static (pre ++ [slash])) = some c → AddRel rest c c' st →
      AddRel (pre ++ slash :: rest) n (n.setChild (.static (pre ++ [slash])) c')
        (st.under (.static (pre ++ [slash])))
  | intoNewStatic (pre rest : Str) (n c' : Node) (st : Status) : Plain pre →
      n.child (.static (pre ++ [slash])) = none → AddRel rest Node.empty c' st →
      AddRel (pre ++ slash :: rest) n (n.setChild (.static (pre ++ [slash])) c')
        (st.under (.static (pre ++ [slash])))
  | intoParam (path : Str) (k : Nat) (n pn c' : Node) (st : Status) : colon ∈ path →
      n.params = some pn → AddRel (path.drop k) pn c' st →
      AddRel path n (n.setChild .params c') (st.under .params)
  | intoNewParam (path param : Str) (k : Nat) (n c' : Node) (st : Status) : colon ∈ path →
      n.params = none → n.wild = none → AddRel (path.drop k) (Node.newParam param) c' st →
      AddRel path n (n.setChild .params c') (st.under .params)

/-- The text a pointer spells when it goes through static children only. -/
def ptrText : Ptr → Option Str
  | [] => some []
  | .static k :: p => (ptrText p).map (k ++ ·)
  | _ :: _ => none

/-- The chain table of the node a pointer points to, the nil table when there
is no such node. -/
def Node.chainsAt (n : Node) (p : Ptr) : List (Str × HandlersChain) :=
  match n.at? p with
  | some x => x.chains
  | none => []

/-- The chain for a method at the node a pointer points to. -/
def Node.chainAt (n : Node) (p : Ptr) (method : Str) : HandlersChain :=
  (mapGet method (n.chainsAt p)).getD []

/-- The pointer of a capture-free route: through its directory chunks, then
through its last chunk when that one is not empty. -/
def routePtr (ds : List Str) (bare : Str) : Ptr :=
  dirPtr ds ++ (if bare = [] then [] else [Step.static bare])

/-- What `add` keeps true of every node: at most one of the param child and the
wild child is there, and every key of the static map is a chunk key. -/
def Node.Sound (n : Node) : Prop :=
  (n.params = none ∨ n.wild = none) ∧ ∀ k c, mapGet k n.static = some c → ChunkKey k

/-- A node of a trie that holds capture-free routes only: no param child, no
wild child, no static child under the empty key. -/
def Node.StaticOnly (n : Node) : Prop :=
  n.params = none ∧ n.wild = none ∧ mapGet [] n.static = none

instance (s : Str) : Decidable (SlashFree s) := by unfold SlashFree; infer_instance

instance (s : Str) : Decidable (SigilFree s) := by unfold SigilFree; infer_instance

instance (s : Str) : Decidable (Plain s) := by unfold Plain; infer_instance

/-- A segment of a pattern: a literal text, or a parameter with its name. -/
inductive Seg where
  | lit (text : Str) : Seg
  | par (name : Str) : Seg

/-- A segment as a pattern may hold it: a literal without structural byte, or a
parameter whose name has no `'/'`. -/
def Seg.WellFormed : Seg → Prop
  | .lit s => Plain s
  | .par name => SlashFree name

instance (seg : Seg) : Decidable seg.WellFormed := by
  cases seg <;> simp only [Seg.WellFormed] <;> infer_instance

/-- The text of a segment in a pattern: the literal, or `':'` and the name. -/
def Seg.text : Seg → Str
  | .lit s => s
  | .par name => colon :: name

/-- Texts joined by the separator `'/'`. -/
def joinSlash : List Str → Str
  | [] => []
  | [s] => s
  | s :: t :: ts => s ++ slash :: joinSlash (t :: ts)

/-- The pattern made of the segments. -/
def patternOf (segs : List Seg) : Str := joinSlash (segs.map Seg.text)

/-- The segments of a concrete path: the literals as they are, the parameters
replaced, left to right, by the values. -/
def fill : List Seg → List Str → List Str
  | [], _ => []
  | .lit s :: segs, vs => s :: fill segs vs
  | .par _ :: segs, v :: vs => v :: fill segs vs
  | .par _ :: segs, [] => [] :: fill segs []

/-- The concrete path obtained from the segments and the values. -/
def concreteOf (segs : List Seg) (vals : List Str) : Str := joinSlash (fill segs vals)

/-- The names of the parameters of the segments, left to right. -/
def paramNames : List Seg → List Str
  | [] => []
  | .lit _ :: segs => paramNames segs
  | .par name :: segs => name :: paramNames segs

/-- The bindings of the names to the values, in the order of declaration. -/
def bindingsOf (segs : List Seg) (vals : List Str) : List Param :=
  List.zipWith Param.mk (paramNames segs) vals

/-- What is left of a pointer after its first edge, when that edge is `s`. -/
def ptrSub (p : Ptr) (s : Step) : Option Ptr :=
  match p with
  | [] => none
  | s' :: q => if s' = s then some q else none

/-- A trie with the chain of a method set at the node of a pointer, or left
as it is when there is no pointer. -/
def Node.touch (method : Str) (chain : HandlersChain) (o : Option Ptr) (n : Node) : Node :=
  match o with
  | some q => n.addChainAt q method chain
  | none => n

/-- The node whose chain table `findRoute` reads, as a pointer from the node the
lookup starts on: the walk of `findRoute`, keeping the edges taken instead of
the bindings. There is none when `findRoute` returns without reading a chain. -/
def findNodeAux : Nat → Node → Str → Option Ptr
  | 0, _, _ => none
  | fuel + 1, n, path =>
    match indexWhere (· = slash) path with
    | some e =>
      let chunk := path.take (e + 1)
      match mapGet chunk n.static with
      | some node => (findNodeAux fuel node (path.drop (e + 1))).map (Step.static chunk :: ·)
      | none =>
        match n.params with
        | some pn => (findNodeAux fuel pn (path.drop (e + 1))).map (Step.params :: ·)
        | none =>
          match n.wild with
          | some _ => some [Step.wild]
          | none => none
    | none =>
      match mapGet path n.static with
      | some _ => some [Step.static path]
      | none =>
        match n.params with
        | some _ => some [Step.params]
        | none =>
          match n.wild with
          | some _ => some [Step.wild]
          | none => if path = blank then some [] else none

/-- The node whose chain table `findRoute` reads on a path. -/
def findNode (n : Node) (path : Str) : Option Ptr := findNodeAux (path.length + 1) n path

/-- Number of parameter edges on a pointer. -/
def paramSteps : Ptr → Nat
  | [] => 0
  | .params :: p => paramSteps p + 1
  | _ :: p => paramSteps p

/-- No route of the trie under `n` goes through more than `B` parameter edges. -/
def Node.ParamDepth (B : Nat) (n : Node) : Prop := ∀ q x, n.at? q = some x → paramSteps q ≤ B

/-- A pattern of 128 segments `abc:d:e`, each one followed by `'/'`. -/
def wrapPattern : Str := (List.replicate 128 "abc:d:e/".toList).flatten

/-- A `'*'` at offset `i` of the path with no `':'` before it in its segment
(every `':'` before it is followed by a `'/'` before it) and with something
after it. -/
def StarChecked (path : Str) (i : Nat) : Prop :=
  path[i]? = some star ∧
  (∀ j, j < i → path[j]? = some colon → ∃ k, j < k ∧ k < i ∧ path[k]? = some slash) ∧
  i + 1 < path.length

/-- How a call of `add` ends on a pattern it has returned the pointer `a` for
before: on a pointer that ends with the wild edge it panics with "Wildcard
character already exists", on any other it returns the same pointer. -/
def Status.again (a : Ptr) : Status :=
  if a.getLast? = some Step.wild then .panicked .wildExists else .returned a

/-! ## Bounds of the recursion, and one-step unfoldings -/

theorem addAux_fuel (f1 f2 : Nat) (path : Str) (pCount : Nat) (n : Node)
    (h1 : path.length < f1) (h2 : path.length < f2) :
    addAux f1 path pCount n = addAux f2 path pCount n := by
  induction f1 generalizing f2 path pCount n with
  | zero => omega
  | succ a ih =>
    cases f2 with
    | zero => omega
    | succ b =>
      simp only [addAux]
      have hd : ∀ k, path ≠ [] → (path.drop (k + 1)).length < a ∧ (path.drop (k + 1)).length < b := by
        intro k hne
        have : 0 < path.length := List.length_pos.mpr hne
        simp only [List.length_drop]; omega
      repeat' split
      all_goals first
        | rfl
        | (rw [ih b _ _ _ (hd _ (by assumption)).1 (hd _ (by assumption)).2])

theorem addAux_eq_add (fuel : Nat) (path : Str) (pCount : Nat) (n : Node)
    (h : path.length < fuel) : addAux fuel path pCount n = add path pCount n :=
  addAux_fuel _ _ _ _ _ h (Nat.lt_succ_self _)

theorem mapGet_mapSet_same {α : Type} (k : Str) (v : α) (l : List (Str × α)) :
    mapGet k (mapSet k v l) = some v := by
  induction l with
  | nil => simp [mapSet, mapGet]
  | cons a as ih =>
    obtain ⟨k', v'⟩ := a
    by_cases h : k' = k <;> simp [mapSet, mapGet, h, ih]

theorem mapGet_mapSet_ne {α : Type} {k k' : Str} (v : α) (l : List (Str × α)) (h : k' ≠ k) :
    mapGet k' (mapSet k v l) = mapGet k' l := by
  induction l with
  | nil => simp [mapSet, mapGet, Ne.symm h]
  | cons a as ih =>
    obtain ⟨k'', v''⟩ := a
    by_cases h2 : k'' = k
    · subst h2; simp [mapSet, mapGet, Ne.symm h]
    · by_cases h3 : k'' = k'
      · subst h3; simp [mapSet, mapGet, h2]
      · simp [mapSet, mapGet, h2, h3, ih]

theorem mapSet_of_mapGet {α : Type} {k : Str} {v : α} {l : List (Str × α)}
    (h : mapGet k l = some v) : mapSet k v l = l := by
  induction l with
  | nil => simp [mapGet] at h
  | cons a as ih =>
    obtain ⟨k', v'⟩ := a
    by_cases h2 : k' = k
    · subst h2; simp [mapGet] at h; simp [mapSet, h]
    · simp [mapGet, h2] at h; simp [mapSet, h2, ih h]

theorem Plain.slashFree {s : Str} (h : Plain s) : SlashFree s := fun c hc => (h c hc).1
theorem Plain.sigilFree {s : Str} (h : Plain s) : SigilFree s := fun c hc => (h c hc).2

theorem indexWhere_slash_append {pre : Str} (rest : Str) (h : SlashFree pre) :
    indexWhere (· = slash) (pre ++ slash :: rest) = some pre.length := by
  induction pre with
  | nil => simp [indexWhere]
  | cons a as ih =>
    have ha : a ≠ slash := h a (by simp)
    have := ih (fun c hc => h c (by simp [hc]))
    simp [indexWhere, ha, this]

theorem indexWhere_slash_none {s : Str} (h : SlashFree s) :
    indexWhere (· = slash) s = none := by
  induction s with
  | nil => simp [indexWhere]
  | cons a as ih =>
    have ha : a ≠ slash := h a (by simp)
    have := ih (fun c hc => h c (by simp [hc]))
    simp [indexWhere, ha, this]

theorem firstStructural_append {pre : Str} (c : Char) (rest : Str) (h : Plain pre)
    (hc : c = slash ∨ c = colon ∨ c = star) :
    firstStructural (pre ++ c :: rest) = some (pre.length, c) := by
  induction pre with
  | nil => simp [firstStructural, hc]
  | cons a as ih =>
    have ha := h a (by simp)
    have := ih (fun c hc => h c (by simp [hc]))
    simp [firstStructural, ha, this]

theorem firstStructural_none {s : Str} (h : Plain s) : firstStructural s = none := by
  induction s with
  | nil => simp [firstStructural]
  | cons a as ih =>
    have ha := h a (by simp)
    have := ih (fun c hc => h c (by simp [hc]))
    simp [firstStructural, ha, this]

theorem add_eq (path : Str) (pCount : Nat) (n : Node) :
    add path pCount n =
    if path = blank then ⟨n, pCount, .returned []⟩
    else
      match firstStructural path with
      | some (e, c) =>
        if c = slash then
          let chunk := path.take (e + 1)
          match mapGet chunk n.static with
          | some charNode =>
            AddResult.under n (.static chunk) (add (path.drop (e + 1)) pCount charNode)
          | none =>
            AddResult.under n (.static chunk) (add (path.drop (e + 1)) pCount Node.empty)
        else if c = colon then
          let start := e + 1
          match indexWhere (· = slash) (path.drop start) with
          | some e2 =>
            if start > e2 + 1 then ⟨n, pCount, .panicked .sliceBounds⟩
            else
              let param := (path.take (e2 + 1)).drop start
              match n.params with
              | some pn =>
                if pn.param ≠ param then ⟨n, pCount, .panicked .differentParamNames⟩
                else AddResult.under n .params (add (path.drop (e2 + 2)) (incr pCount) pn)
              | none =>
                match n.wild with
                | some _ => ⟨n, pCount, .panicked (.paramWildExists param)⟩
                | none =>
                  AddResult.under n .params
                    (add (path.drop (e2 + 2)) (incr pCount) (Node.newParam param))
          | none =>
            let param := path.drop start
            match n.params with
            | some pn =>
              if pn.param ≠ param then ⟨n, incr pCount, .panicked .differentParamNames⟩
              else ⟨n, incr pCount, .returned [.params]⟩
            | none =>
              match n.wild with
              | some _ => ⟨n, incr pCount, .panicked (.paramWildExists param)⟩
              | none => ⟨n.setParams (Node.newParam param), incr pCount, .returned [.params]⟩
        else
          if path.drop (e + 1) ≠ blank then ⟨n, pCount, .panicked .charAfterStar⟩
          else
            match n.wild with
            | some _ => ⟨n, pCount, .panicked .wildExists⟩
            | none =>
              match n.params with
              | some _ => ⟨n, pCount, .panicked .wildParamExists⟩
              | none => ⟨n.setWild Node.empty, pCount, .returned [.wild]⟩
      | none =>
        match mapGet path n.static with
        | some _ => ⟨n, pCount, .returned [.static path]⟩
        | none => ⟨n.setStatic path Node.empty, pCount, .returned [.static path]⟩ := by
  by_cases hne : path = blank
  · subst hne; rfl
  · have hpos : 0 < path.length := List.length_pos.mpr hne
    have key : ∀ k pc x, addAux path.length (path.drop (k + 1)) pc x
        = add (path.drop (k + 1)) pc x := by
      intro k pc x
      apply addAux_eq_add
      simp only [List.length_drop]; omega
    have key2 : ∀ k pc x, addAux path.length (path.drop (k + 2)) pc x
        = add (path.drop (k + 2)) pc x := fun k pc x => key (k + 1) pc x
    show addAux (path.length + 1) path pCount n = _
    simp only [addAux, key, key2]

theorem add_blank (pCount : Nat) (n : Node) : add [] pCount n = ⟨n, pCount, .returned []⟩ := rfl

theorem add_slash {pre : Str} (rest : Str) (pCount : Nat) (n : Node) (h : Plain pre) :
    add (pre ++ slash :: rest) pCount n =
      AddResult.under n (.static (pre ++ [slash]))
        (add rest pCount ((mapGet (pre ++ [slash]) n.static).getD Node.empty)) := by
  have ht : List.take (pre.length + 1) (pre ++ slash :: rest) = pre ++ [slash] := by
    rw [List.take_append_eq_append_take]; simp
  have hd : List.drop (pre.length + 1) (pre ++ slash :: rest) = rest := by
    rw [List.drop_append_eq_append_drop]; simp
  rw [add_eq]
  simp only [blank, firstStructural_append slash rest h (Or.inl rfl), ht, hd, if_true]
  rw [if_neg (by simp)]
  cases mapGet (pre ++ [slash]) n.static <;> rfl

theorem add_plain {path : Str} (pCount : Nat) (n : Node) (h : Plain path) (hne : path ≠ []) :
    add path pCount n =
      ⟨match mapGet path n.static with
        | some _ => n
        | none => n.setStatic path Node.empty, pCount, .returned [.static path]⟩ := by
  rw [add_eq]
  simp only [blank, firstStructural_none h]
  rw [if_neg hne]
  cases mapGet path n.static <;> rfl

theorem add_param_slash {name : Str} (rest : Str) (pCount : Nat) (n : Node)
    (h : SlashFree name) :
    add (colon :: (name ++ slash :: rest)) pCount n =
      match n.params with
      | some pn =>
        if pn.param ≠ name then ⟨n, pCount, .panicked .differentParamNames⟩
        else AddResult.under n .params (add rest (incr pCount) pn)
      | none =>
        match n.wild with
        | some _ => ⟨n, pCount, .panicked (.paramWildExists name)⟩
        | none => AddResult.under n .params (add rest (incr pCount) (Node.newParam name)) := by
  have hfs : firstStructural (colon :: (name ++ slash :: rest)) = some (0, colon) := by
    simp [firstStructural]
  have ht : List.drop 1 (List.take (name.length + 1) (colon :: (name ++ slash :: rest))) = name := by
    simp [List.take_append_eq_append_take]
  have hd : List.drop (name.length + 2) (colon :: (name ++ slash :: rest)) = rest := by
    simp [List.drop_append_eq_append_drop]
  have hi : indexWhere (· = slash) (List.drop 1 (colon :: (name ++ slash :: rest))) = some name.length := by
    simpa using indexWhere_slash_append rest h
  have hcs : ¬ (colon = slash) := by decide
  have hgt : ¬ (1 > name.length + 1) := by omega
  rw [add_eq]
  simp only [blank, hfs, hcs, Nat.zero_add, hi, hgt, ht, hd, if_true, if_false]
  rw [if_neg (by simp)]

theorem add_param_end {name : Str} (pCount : Nat) (n : Node) (h : SlashFree name) :
    add (colon :: name) pCount n =
      match n.params with
      | some pn =>
        if pn.param ≠ name then ⟨n, incr pCount, .panicked .differentParamNames⟩
        else ⟨n, incr pCount, .returned [.params]⟩
      | none =>
        match n.wild with
        | some _ => ⟨n, incr pCount, .panicked (.paramWildExists name)⟩
        | none => ⟨n.setParams (Node.newParam name), incr pCount, .returned [.params]⟩ := by
  have hfs : firstStructural (colon :: name) = some (0, colon) := by
    simp [firstStructural]
  have hcs : ¬ (colon = slash) := by decide
  have hi : indexWhere (· = slash) (List.drop 1 (colon :: name)) = none := by
    simpa using indexWhere_slash_none h
  rw [add_eq]
  simp only [blank, hfs, hcs, Nat.zero_add, hi, if_true, if_false]
  rw [if_neg (by simp)]
  rfl

theorem add_star (pCount : Nat) (n : Node) :
    add [star] pCount n =
      match n.wild with
      | some _ => ⟨n, pCount, .panicked .wildExists⟩
      | none =>
        match n.params with
        | some _ => ⟨n, pCount, .panicked .wildParamExists⟩
        | none => ⟨n.setWild Node.empty, pCount, .returned [.wild]⟩ := by
  rfl

theorem indexWhere_lt {p : Char → Bool} {s : Str} {e : Nat} (h : indexWhere p s = some e) :
    e < s.length := by
  induction s generalizing e with
  | nil => simp [indexWhere] at h
  | cons a as ih =>
    simp only [indexWhere] at h
    split at h
    · simp at h; simp [← h]
    · cases hi : indexWhere p as with
      | none => simp [hi] at h
      | some r =>
        simp [hi] at h
        have := ih hi
        simp [← h]; omega

theorem findRouteAux_fuel (f1 f2 : Nat) (context : Ctx) (n : Node) (method path : Str)
    (h1 : path.length < f1) (h2 : path.length < f2) :
    findRouteAux f1 context n method path = findRouteAux f2 context n method path := by
  induction f1 generalizing f2 context n path with
  | zero => omega
  | succ a ih =>
    cases f2 with
    | zero => omega
    | succ b =>
      cases hi : indexWhere (· = slash) path with
      | none => simp only [findRouteAux, hi]
      | some e =>
        have hlt := indexWhere_lt hi
        have hd : (path.drop (e + 1)).length < a ∧ (path.drop (e + 1)).length < b := by
          simp only [List.length_drop]; omega
        have key : ∀ c x, findRouteAux a c x method (path.drop (e + 1))
            = findRouteAux b c x method (path.drop (e + 1)) :=
          fun c x => ih b c x _ hd.1 hd.2
        simp only [findRouteAux, hi, key]

theorem findRouteAux_eq_findRoute (fuel : Nat) (context : Ctx) (n : Node) (method path : Str)
    (h : path.length < fuel) :
    findRouteAux fuel context n method path = findRoute context n method path :=
  findRouteAux_fuel _ _ _ _ _ _ h (Nat.lt_succ_self _)

theorem findRoute_eq (context : Ctx) (n : Node) (method path : Str) :
    findRoute context n method path =
    match indexWhere (· = slash) path with
    | some e =>
      let chunk := path.take (e + 1)
      match mapGet chunk n.static with
      | some node => findRoute context node method (path.drop (e + 1))
      | none =>
        match n.params with
        | some pn =>
          if context.params.length + 1 > context.cap then .panicked
          else findRoute (context.bind pn.param (path.take e)) pn method (path.drop (e + 1))
        | none =>
          match n.wild with
          | some w => .returned { context with handlers := w.chainFor method }
          | none => .returned context
    | none =>
      match mapGet path n.static with
      | some node => .returned { context with handlers := node.chainFor method }
      | none =>
        match n.params with
        | some pn =>
          if context.params.length + 1 > context.cap then .panicked
          else .returned ({ context with handlers := pn.chainFor method }.bind pn.param path)
        | none =>
          match n.wild with
          | some w => .returned { context with handlers := w.chainFor method }
          | none =>
            if path = blank then .returned { context with handlers := n.chainFor method }
            else .returned context := by
  show findRouteAux (path.length + 1) context n method path = _
  cases hi : indexWhere (· = slash) path with
  | none => simp only [findRouteAux, hi]
  | some e =>
    have hlt := indexWhere_lt hi
    have key : ∀ c x, findRouteAux path.length c x method (path.drop (e + 1))
        = findRoute c x method (path.drop (e + 1)) := by
      intro c x
      apply findRouteAux_eq_findRoute
      simp only [List.length_drop]; omega
    simp only [findRouteAux, hi, key]

theorem findRoute_slash {pre : Str} (rest : Str) (context : Ctx) (n : Node) (method : Str)
    (h : SlashFree pre) :
    findRoute context n method (pre ++ slash :: rest) =
      match mapGet (pre ++ [slash]) n.static with
      | some node => findRoute context node method rest
      | none =>
        match n.params with
        | some pn =>
          if context.params.length + 1 > context.cap then .panicked
          else findRoute (context.bind pn.param pre) pn method rest
        | none =>
          match n.wild with
          | some w => .returned { context with handlers := w.chainFor method }
          | none => .returned context := by
  have ht : List.take (pre.length + 1) (pre ++ slash :: rest) = pre ++ [slash] := by
    rw [List.take_append_eq_append_take]; simp
  have ht2 : List.take pre.length (pre ++ slash :: rest) = pre := by
    rw [List.take_append_eq_append_take]; simp
  have hd : List.drop (pre.length + 1) (pre ++ slash :: rest) = rest := by
    rw [List.drop_append_eq_append_drop]; simp
  rw [findRoute_eq]
  simp only [indexWhere_slash_append rest h, ht, ht2, hd]

theorem findRoute_last {path : Str} (context : Ctx) (n : Node) (method : Str)
    (h : SlashFree path) :
    findRoute context n method path =
      match mapGet path n.static with
      | some node => .returned { context with handlers := node.chainFor method }
      | none =>
        match n.params with
        | some pn =>
          if context.params.length + 1 > context.cap then .panicked
          else .returned ({ context with handlers := pn.chainFor method }.bind pn.param path)
        | none =>
          match n.wild with
          | some w => .returned { context with handlers := w.chainFor method }
          | none =>
            if path = blank then .returned { context with handlers := n.chainFor method }
            else .returned context := by
  rw [findRoute_eq]
  simp only [indexWhere_slash_none h]

/-! ## Fields, children, pointers -/

@[simp] theorem Node.mk_eta (n : Node) : Node.mk n.static n.params n.wild n.chains n.param = n := by
  cases n; rfl

@[simp] theorem Node.child_setChild_same (n : Node) (s : Step) (c : Node) :
    (n.setChild s c).child s = some c := by
  cases s <;> simp [Node.setChild, Node.child, Node.setStatic, Node.setParams, Node.setWild,
    Node.static, Node.params, Node.wild, mapGet_mapSet_same]

theorem Node.child_setChild_ne (n : Node) {s s' : Step} (c : Node) (h : s' ≠ s) :
    (n.setChild s c).child s' = n.child s' := by
  cases s <;> cases s' <;> simp_all [Node.setChild, Node.child, Node.setStatic, Node.setParams,
    Node.setWild, Node.static, Node.params, Node.wild]
  exact mapGet_mapSet_ne _ _ h

theorem mapSet_mapSet {α : Type} (k : Str) (v v' : α) (l : List (Str × α)) :
    mapSet k v' (mapSet k v l) = mapSet k v' l := by
  induction l with
  | nil => simp [mapSet]
  | cons a as ih =>
    obtain ⟨k', w⟩ := a
    by_cases h : k' = k <;> simp [mapSet, h, ih]

@[simp] theorem Node.setChild_setChild (n : Node) (s : Step) (c c' : Node) :
    (n.setChild s c).setChild s c' = n.setChild s c' := by
  cases s <;> simp [Node.setChild, Node.setStatic, Node.setParams, Node.setWild,
    Node.static, Node.params, Node.wild, Node.chains, Node.param, mapSet_mapSet]

theorem Node.setChild_of_child {n : Node} {s : Step} {c : Node} (h : n.child s = some c) :
    n.setChild s c = n := by
  cases s with
  | static k =>
    simp only [Node.child] at h
    simp [Node.setChild, Node.setStatic, mapSet_of_mapGet h]
  | params =>
    simp only [Node.child] at h
    simp [Node.setChild, Node.setParams, ← h]
  | wild =>
    simp only [Node.child] at h
    simp [Node.setChild, Node.setWild, ← h]

@[simp] theorem Node.param_setChild (n : Node) (s : Step) (c : Node) :
    (n.setChild s c).param = n.param := by
  cases s <;> rfl

@[simp] theorem Node.chains_setChild (n : Node) (s : Step) (c : Node) :
    (n.setChild s c).chains = n.chains := by
  cases s <;> rfl

theorem Node.modifyAt_setChild (f : Node → Node) (n : Node) (s : Step) (c : Node) (p : Ptr) :
    (n.setChild s c).modifyAt f (s :: p) = n.setChild s (c.modifyAt f p) := by
  simp [Node.modifyAt]

theorem Node.at?_setChild (n : Node) (s : Step) (c : Node) (p : Ptr) :
    (n.setChild s c).at? (s :: p) = c.at? p := by
  simp [Node.at?]

@[simp] theorem Node.chainFor_addChain_same (n : Node) (method : Str) (chain : HandlersChain) :
    (n.addChain method chain).chainFor method = chain := by
  simp [Node.chainFor, Node.addChain, Node.chains, mapGet_mapSet_same]

theorem Node.chainFor_addChain_ne (n : Node) {method method' : Str} (chain : HandlersChain)
    (h : method' ≠ method) :
    (n.addChain method chain).chainFor method' = n.chainFor method' := by
  simp [Node.chainFor, Node.addChain, Node.chains, mapGet_mapSet_ne _ _ h]

theorem Node.param_modifyAt_addChain (n : Node) (p : Ptr) (method : Str) (chain : HandlersChain) :
    (n.addChainAt p method chain).param = n.param := by
  cases p with
  | nil => rfl
  | cons s rest =>
    simp only [Node.addChainAt, Node.modifyAt]
    cases n.child s <;> simp

theorem addAux_param (fuel : Nat) (path : Str) (pCount : Nat) (n : Node) :
    (addAux fuel path pCount n).node.param = n.param := by
  cases fuel with
  | zero => rfl
  | succ f =>
    simp only [addAux]
    repeat' split
    all_goals rfl

theorem add_param (path : Str) (pCount : Nat) (n : Node) :
    (add path pCount n).node.param = n.param := addAux_param _ _ _ _

/-! ## Static prefixes -/

theorem add_dirs (ds : List Str) (rest : Str) (pCount : Nat) (n : Node)
    (h : ∀ d ∈ ds, Plain d) :
    add (dirs ds ++ rest) pCount n =
      AddResult.lift n (dirPtr ds) (add rest pCount (n.descend (dirPtr ds))) := by
  induction ds generalizing n with
  | nil =>
    simp only [dirs, dirPtr, List.map_nil, List.nil_append, AddResult.lift, Node.descend,
      Node.graft]
    cases hs : (add rest pCount n).status <;> simp [← hs]
  | cons d ds ih =>
    have hd : Plain d := h d (by simp)
    have ih' := ih ((mapGet (d ++ [slash]) n.static).getD Node.empty)
      (fun x hx => h x (by simp [hx]))
    simp only [dirs, List.append_assoc, List.cons_append]
    rw [add_slash _ _ _ hd, ih']
    simp only [AddResult.under, AddResult.lift, dirPtr, List.map_cons, Node.descend, Node.graft,
      Node.child, List.cons_append]
    cases (add rest pCount (Node.descend ((mapGet (d ++ [slash]) n.static).getD Node.empty)
      (List.map (fun d => Step.static (d ++ [slash])) ds))).status <;> rfl

theorem findRoute_dirs (ds : List Str) (rest : Str) (context : Ctx) (n x : Node) (method : Str)
    (h : ∀ d ∈ ds, SlashFree d) (hx : n.at? (dirPtr ds) = some x) :
    findRoute context n method (dirs ds ++ rest) = findRoute context x method rest := by
  induction ds generalizing n with
  | nil =>
    simp only [dirPtr, List.map_nil, Node.at?, Option.some.injEq] at hx
    simp [dirs, hx]
  | cons d ds ih =>
    have hd : SlashFree d := h d (by simp)
    simp only [dirPtr, List.map_cons, Node.at?, Node.child] at hx
    simp only [dirs, List.append_assoc, List.cons_append]
    rw [findRoute_slash _ _ _ _ hd]
    cases hc : mapGet (d ++ [slash]) n.static with
    | none => simp [hc] at hx
    | some c =>
      simp only [hc] at hx
      exact ih c (fun y hy => h y (by simp [hy])) hx

@[simp] theorem Node.at?_graft (n : Node) (p : Ptr) (y : Node) : (n.graft p y).at? p = some y := by
  induction p generalizing n with
  | nil => rfl
  | cons s p ih => simp [Node.graft, Node.at?, ih]

@[simp] theorem Node.descend_graft (n : Node) (p : Ptr) (y : Node) :
    (n.graft p y).descend p = y := by
  induction p generalizing n with
  | nil => rfl
  | cons s p ih => simp [Node.graft, Node.descend, ih]

@[simp] theorem Node.graft_graft (n : Node) (p : Ptr) (y y' : Node) :
    (n.graft p y).graft p y' = n.graft p y' := by
  induction p generalizing n with
  | nil => rfl
  | cons s p ih => simp [Node.graft, ih]

theorem Node.modifyAt_graft (f : Node → Node) (n : Node) (p q : Ptr) (y : Node) :
    (n.graft p y).modifyAt f (p ++ q) = n.graft p (y.modifyAt f q) := by
  induction p generalizing n with
  | nil => rfl
  | cons s p ih => simp [Node.graft, Node.modifyAt, ih]

@[simp] theorem Node.descend_empty (p : Ptr) : Node.empty.descend p = Node.empty := by
  induction p with
  | nil => rfl
  | cons s p ih =>
    have : Node.empty.child s = none := by cases s <;> rfl
    simp [Node.descend, this, ih]

theorem split_dirs (s : Str) :
    ∃ ds bare, (∀ d ∈ ds, SlashFree d) ∧ SlashFree bare ∧ s = dirs ds ++ bare := by
  induction s with
  | nil => exact ⟨[], [], by simp, by simp [SlashFree], rfl⟩
  | cons c s ih =>
    obtain ⟨ds, bare, hds, hb, rfl⟩ := ih
    by_cases hc : c = slash
    · subst hc
      exact ⟨[] :: ds, bare, by simpa [SlashFree] using hds, hb, rfl⟩
    · cases ds with
      | nil =>
        refine ⟨[], c :: bare, by simp, ?_, rfl⟩
        intro x hx
        rcases List.mem_cons.mp hx with rfl | hx
        · exact hc
        · exact hb x hx
      | cons d ds =>
        refine ⟨(c :: d) :: ds, bare, ?_, hb, rfl⟩
        intro x hx
        rcases List.mem_cons.mp hx with rfl | hx
        · intro y hy
          rcases List.mem_cons.mp hy with rfl | hy
          · exact hc
          · exact hds d (by simp) y hy
        · exact hds x (by simp [hx])

theorem getLast?_dirs_append (ds : List Str) {bare : Str} (hb : bare ≠ []) :
    (dirs ds ++ bare).getLast? = bare.getLast? := by
  rw [List.getLast?_append_of_ne_nil _ hb]

theorem split_prefix {s : Str} (hs : SigilFree s) (hend : s.getLast? = some slash) :
    ∃ ds, (∀ d ∈ ds, Plain d) ∧ s = dirs ds := by
  obtain ⟨ds, bare, hds, hb, rfl⟩ := split_dirs s
  have hbare : bare = [] := by
    by_contra hne
    rw [getLast?_dirs_append ds hne] at hend
    exact hb slash (List.mem_of_getLast?_eq_some hend) rfl
  subst hbare
  refine ⟨ds, ?_, by simp⟩
  intro d hd c hc
  have hmem : c ∈ dirs ds ++ [] := by
    simp only [List.append_nil]
    clear hs hend hds hb
    induction ds with
    | nil => simp at hd
    | cons a as ih =>
      rcases List.mem_cons.mp hd with rfl | hd
      · simp [dirs, hc]
      · simp [dirs, ih hd]
  exact ⟨hds d hd c hc, hs c hmem⟩

/-! ## Properties of every node of a trie -/

theorem Node.All.self {Q : Node → Prop} {n : Node} (h : n.All Q) : Q n := h [] n rfl

theorem Node.All.of_child {Q : Node → Prop} {n c : Node} {s : Step} (h : n.All Q)
    (hc : n.child s = some c) : c.All Q := by
  intro p x hx
  exact h (s :: p) x (by simp [Node.at?, hc, hx])

theorem Node.All.of_at {Q : Node → Prop} {n x : Node} {p : Ptr} (h : n.All Q)
    (hx : n.at? p = some x) : x.All Q := by
  induction p generalizing n with
  | nil => simp only [Node.at?, Option.some.injEq] at hx; exact hx ▸ h
  | cons s p ih =>
    simp only [Node.at?] at hx
    cases hc : n.child s with
    | none => simp [hc] at hx
    | some c => simp only [hc] at hx; exact ih (h.of_child hc) hx

theorem Node.All.intro {Q : Node → Prop} {n : Node} (h0 : Q n)
    (h : ∀ s c, n.child s = some c → c.All Q) : n.All Q := by
  intro p x hx
  cases p with
  | nil => simp only [Node.at?, Option.some.injEq] at hx; exact hx ▸ h0
  | cons s p =>
    simp only [Node.at?] at hx
    cases hc : n.child s with
    | none => simp [hc] at hx
    | some c => simp only [hc] at hx; exact h s c hc p x hx

theorem Node.All.of_newParam {Q : Node → Prop} (param : Str) (h : Q (Node.newParam param)) :
    (Node.newParam param).All Q := by
  apply Node.All.intro h
  intro s c hc
  cases s <;> simp [Node.child, Node.newParam, Node.static, Node.params, Node.wild, mapGet] at hc

theorem Node.All.of_empty {Q : Node → Prop} (h : Q Node.empty) : Node.empty.All Q :=
  Node.All.of_newParam [] h

theorem Node.All.of_setChild {Q : Node → Prop} {n c : Node} (s : Step) (hn : n.All Q)
    (hc : c.All Q) (h : Q (n.setChild s c)) : (n.setChild s c).All Q := by
  apply Node.All.intro h
  intro s' c' hc'
  by_cases hs : s' = s
  · subst hs
    simp only [Node.child_setChild_same, Option.some.injEq] at hc'
    exact hc' ▸ hc
  · rw [Node.child_setChild_ne _ _ hs] at hc'
    exact hn.of_child hc'

theorem firstStructural_some {path : Str} {e : Nat} {c : Char}
    (h : firstStructural path = some (e, c)) :
    ∃ pre rest, path = pre ++ c :: rest ∧ pre.length = e ∧ Plain pre ∧
      (c = slash ∨ c = colon ∨ c = star) := by
  induction path generalizing e with
  | nil => simp [firstStructural] at h
  | cons a as ih =>
    simp only [firstStructural] at h
    split at h
    · rename_i ha
      simp only [Option.some.injEq, Prod.mk.injEq] at h
      obtain ⟨rfl, rfl⟩ := h
      exact ⟨[], as, rfl, rfl, by simp [Plain], ha⟩
    · rename_i ha
      cases hfs : firstStructural as with
      | none => simp [hfs] at h
      | some r =>
        obtain ⟨r1, r2⟩ := r
        simp only [hfs, Option.map_some', Option.some.injEq, Prod.mk.injEq] at h
        obtain ⟨rfl, rfl⟩ := h
        obtain ⟨pre, rest, rfl, hlen, hpre, hc⟩ := ih hfs
        refine ⟨a :: pre, rest, rfl, by simp [hlen], ?_, hc⟩
        intro x hx
        rcases List.mem_cons.mp hx with rfl | hx
        · simpa [not_or] using ha
        · exact hpre x hx

theorem firstStructural_none_plain {path : Str} (h : firstStructural path = none) :
    Plain path := by
  induction path with
  | nil => simp [Plain]
  | cons a as ih =>
    simp only [firstStructural] at h
    split at h
    · simp at h
    · rename_i ha
      have := ih (by simpa using h)
      intro x hx
      rcases List.mem_cons.mp hx with rfl | hx
      · simpa [not_or] using ha
      · exact this x hx

theorem chunkKey_take {path : Str} {e : Nat}
    (h : firstStructural path = some (e, slash)) : ChunkKey (path.take (e + 1)) := by
  obtain ⟨pre, rest, rfl, rfl, hpre, -⟩ := firstStructural_some h
  have ht : List.take (pre.length + 1) (pre ++ slash :: rest) = pre ++ [slash] := by
    rw [List.take_append_eq_append_take]; simp
  rw [ht]
  refine ⟨by simp, ?_, ?_⟩
  · intro c hc
    rcases List.mem_append.mp hc with hc | hc
    · exact (hpre c hc).2
    · simp only [List.mem_singleton] at hc; subst hc; decide
  · simpa using hpre.slashFree

theorem chunkKey_plain {path : Str} (h : Plain path) (hne : path ≠ []) : ChunkKey path := by
  refine ⟨hne, h.sigilFree, ?_⟩
  intro c hc
  exact h.slashFree c (List.mem_of_mem_dropLast hc)

theorem addAux_all {Q : Node → Prop} (fuel : Nat) (path : Str) (pCount : Nat) (n : Node)
    (hnew : ∀ param, Q (Node.newParam param))
    (hstatic : ∀ n chunk c, Q n → ChunkKey chunk → Q (n.setStatic chunk c))
    (hparams : colon ∈ path → ∀ n c, Q n → (n.params = none → n.wild = none) →
      Q (n.setParams c))
    (hwild : star ∈ path → ∀ n c, Q n → n.params = none → n.wild = none → Q (n.setWild c))
    (h : n.All Q) : (addAux fuel path pCount n).node.All Q := by
  induction fuel generalizing path pCount n with
  | zero => exact h
  | succ f ih =>
    have hsub : ∀ k, (colon ∈ path.drop k → colon ∈ path) ∧ (star ∈ path.drop k → star ∈ path) :=
      fun k => ⟨List.mem_of_mem_drop, List.mem_of_mem_drop⟩
    have ihk : ∀ k pc x, x.All Q → (addAux f (path.drop k) pc x).node.All Q := fun k pc x hx =>
      ih _ pc x (fun hc => hparams ((hsub k).1 hc)) (fun hc => hwild ((hsub k).2 hc)) hx
    have hempty : Node.empty.All Q := Node.All.of_empty (hnew [])
    simp only [addAux]
    split
    · exact h
    · rename_i hne
      split
      · rename_i e c hfs
        obtain ⟨pre, rest, hpath, hlen, hpre, hc⟩ := firstStructural_some hfs
        have hmem : c ∈ path := by rw [hpath]; simp
        split
        · rename_i hcs
          subst hcs
          split
          · rename_i charNode hget
            exact Node.All.of_setChild (.static _) h (ihk _ _ _ (h.of_child (s := .static _) hget))
              (hstatic _ _ _ h.self (chunkKey_take hfs))
          · exact Node.All.of_setChild (.static _) h (ihk _ _ _ hempty)
              (hstatic _ _ _ h.self (chunkKey_take hfs))
        · split
          · rename_i hcc
            subst hcc
            split
            · split
              · exact h
              · split
                · rename_i pn hpn
                  split
                  · exact h
                  · exact Node.All.of_setChild .params h (ihk _ _ _ (h.of_child (s := .params) hpn))
                      (hparams hmem _ _ h.self (by simp [hpn]))
                · split
                  · exact h
                  · rename_i hp _ hw
                    exact Node.All.of_setChild .params h
                      (ihk _ _ _ (Node.All.of_newParam _ (hnew _)))
                      (hparams hmem _ _ h.self (fun _ => hw))
            · split
              · split <;> exact h
              · split
                · exact h
                · rename_i hp _ hw
                  exact Node.All.of_setChild .params h (Node.All.of_newParam _ (hnew _))
                    (hparams hmem _ _ h.self (fun _ => hw))
          · have hstar : c = star := by
              rcases hc with hc | hc | hc
              · contradiction
              · contradiction
              · exact hc
            subst hstar
            split
            · exact h
            · split
              · exact h
              · split
                · exact h
                · rename_i hw _ hp
                  exact Node.All.of_setChild .wild h hempty (hwild hmem _ _ h.self hp hw)
      · rename_i hfs
        split
        · exact h
        · exact Node.All.of_setChild (.static path) h hempty
            (hstatic _ _ _ h.self (chunkKey_plain (firstStructural_none_plain hfs) hne))

/-! ## The calls of `add` in big steps -/

theorem AddResult.under_status (n : Node) (s : Step) (r : AddResult) :
    (AddResult.under n s r).status = r.status.under s := by
  cases h : r.status <;> simp [AddResult.under, Status.under, h]

theorem AddResult.under_node (n : Node) (s : Step) (r : AddResult) :
    (AddResult.under n s r).node = n.setChild s r.node := rfl

theorem addAux_rel (fuel : Nat) (path : Str) (pCount : Nat) (n : Node)
    (hfuel : path.length < fuel) :
    AddRel path n (addAux fuel path pCount n).node (addAux fuel path pCount n).status := by
  induction fuel generalizing path pCount n with
  | zero => omega
  | succ f ih =>
    have ihk : ∀ k pc x, path ≠ [] →
        AddRel (path.drop (k + 1)) x (addAux f (path.drop (k + 1)) pc x).node
          (addAux f (path.drop (k + 1)) pc x).status := by
      intro k pc x hne
      apply ih
      have : 0 < path.length := List.length_pos.mpr hne
      simp only [List.length_drop]; omega
    simp only [addAux]
    split
    · rename_i hb
      simp only [blank] at hb
      subst hb
      exact AddRel.blank n
    · rename_i hne
      simp only [blank] at hne
      split
      · rename_i e c hfs
        obtain ⟨pre, rest, hpath, hlen, hpre, hc⟩ := firstStructural_some hfs
        have hmem : c ∈ path := by rw [hpath]; simp
        have ht : path.take (e + 1) = pre ++ [c] := by
          rw [hpath, ← hlen, List.take_append_eq_append_take]; simp
        have hd : path.drop (e + 1) = rest := by
          rw [hpath, ← hlen, List.drop_append_eq_append_drop]; simp
        split
        · rename_i hcs
          subst hcs
          have ihr := fun pc x => ihk e pc x hne
          simp only [ht, hd] at ihr ⊢
          split
          · rename_i charNode hget
            rw [AddResult.under_status, AddResult.under_node]
            have key := AddRel.intoStatic pre rest n charNode _ _ hpre hget (ihr pCount charNode)
            rw [← hpath] at key
            exact key
          · rename_i hget
            rw [AddResult.under_status, AddResult.under_node]
            have key := AddRel.intoNewStatic pre rest n _ _ hpre hget (ihr pCount Node.empty)
            rw [← hpath] at key
            exact key
        · split
          · rename_i hcc
            subst hcc
            split
            · split
              · exact AddRel.panic _ _ _
              · split
                · rename_i pn hpn
                  split
                  · exact AddRel.panic _ _ _
                  · rw [AddResult.under_status, AddResult.under_node]
                    exact AddRel.intoParam path _ n pn _ _ hmem hpn (ihk _ _ _ hne)
                · split
                  · exact AddRel.panic _ _ _
                  · rename_i hp _ hw
                    rw [AddResult.under_status, AddResult.under_node]
                    exact AddRel.intoNewParam path _ _ n _ _ hmem hp hw (ihk _ _ _ hne)
            · split
              · rename_i pn hpn
                split
                · exact AddRel.panic _ _ _
                · exact AddRel.hitParam path n pn hmem hpn
              · split
                · exact AddRel.panic _ _ _
                · rename_i hp _ hw
                  exact AddRel.newParam path _ n hmem hp hw
          · have hstar : c = star := by
              rcases hc with hc | hc | hc
              · contradiction
              · contradiction
              · exact hc
            subst hstar
            split
            · exact AddRel.panic _ _ _
            · split
              · exact AddRel.panic _ _ _
              · split
                · exact AddRel.panic _ _ _
                · rename_i hw _ hp
                  exact AddRel.newWild path n hmem hp hw
      · rename_i hfs
        have hplain := firstStructural_none_plain hfs
        split
        · rename_i c hget
          exact AddRel.hitStatic path n c hplain hne hget
        · rename_i hget
          exact AddRel.newStatic path n hplain hne hget

theorem add_rel (path : Str) (pCount : Nat) (n : Node) :
    AddRel path n (add path pCount n).node (add path pCount n).status :=
  addAux_rel _ _ _ _ (Nat.lt_succ_self _)

/-! ## What a call of `add` leaves behind -/

theorem AddRel.not_outOfFuel {path : Str} {n n' : Node} {st : Status}
    (h : AddRel path n n' st) : st ≠ .outOfFuel := by
  induction h with
  | intoStatic _ _ _ _ _ st _ _ _ ih => cases st <;> simp_all [Status.under]
  | intoNewStatic _ _ _ _ st _ _ _ ih => cases st <;> simp_all [Status.under]
  | intoParam _ _ _ _ _ st _ _ _ ih => cases st <;> simp_all [Status.under]
  | intoNewParam _ _ _ _ _ st _ _ _ _ ih => cases st <;> simp_all [Status.under]
  | _ => simp

theorem add_not_outOfFuel (path : Str) (pCount : Nat) (n : Node) :
    (add path pCount n).status ≠ .outOfFuel := (add_rel path pCount n).not_outOfFuel

theorem Status.under_returned {s : Step} {st : Status} {p : Ptr}
    (h : st.under s = .returned p) : ∃ q, st = .returned q ∧ p = s :: q := by
  cases st <;> simp_all [Status.under]

theorem AddRel.valid {path : Str} {n n' : Node} {st : Status}
    (h : AddRel path n n' st) : ∀ p, st = .returned p → ∃ x, n'.at? p = some x := by
  induction h with
  | blank n => intro p hp; cases hp; exact ⟨_, rfl⟩
  | panic => intro p hp; cases hp
  | hitStatic path n c _ _ hc => intro p hp; cases hp; exact ⟨c, by simp [Node.at?, hc]⟩
  | newStatic path n _ _ _ => intro p hp; cases hp; exact ⟨Node.empty, by simp [Node.at?]⟩
  | hitParam path n pn _ hpn =>
    intro p hp; cases hp; exact ⟨pn, by simp [Node.at?, Node.child, hpn]⟩
  | newParam path param n =>
    intro p hp; cases hp; exact ⟨Node.newParam param, by simp [Node.at?]⟩
  | newWild => intro p hp; cases hp; exact ⟨Node.empty, by simp [Node.at?]⟩
  | intoStatic _ _ _ _ _ st _ _ _ ih =>
    intro p hp
    obtain ⟨q, rfl, rfl⟩ := Status.under_returned hp
    simpa [Node.at?] using ih q rfl
  | intoNewStatic _ _ _ _ st _ _ _ ih =>
    intro p hp
    obtain ⟨q, rfl, rfl⟩ := Status.under_returned hp
    simpa [Node.at?] using ih q rfl
  | intoParam _ _ _ _ _ st _ _ _ ih =>
    intro p hp
    obtain ⟨q, rfl, rfl⟩ := Status.under_returned hp
    simpa [Node.at?] using ih q rfl
  | intoNewParam _ _ _ _ _ st _ _ _ _ ih =>
    intro p hp
    obtain ⟨q, rfl, rfl⟩ := Status.under_returned hp
    simpa [Node.at?] using ih q rfl

theorem AddRel.text {path : Str} {n n' : Node} {st : Status}
    (h : AddRel path n n' st) : ∀ p t, st = .returned p → ptrText p = some t → t = path := by
  induction h with
  | blank n => intro p t hp ht; cases hp; simpa [ptrText] using ht.symm
  | panic => intro p t hp; cases hp
  | hitStatic path n c _ _ hc => intro p t hp ht; cases hp; simpa [ptrText] using ht.symm
  | newStatic path n _ _ _ => intro p t hp ht; cases hp; simpa [ptrText] using ht.symm
  | hitParam path n pn _ hpn => intro p t hp ht; cases hp; simp [ptrText] at ht
  | newParam => intro p t hp ht; cases hp; simp [ptrText] at ht
  | newWild => intro p t hp ht; cases hp; simp [ptrText] at ht
  | intoStatic pre rest _ _ _ st _ _ _ ih =>
    intro p t hp ht
    obtain ⟨q, rfl, rfl⟩ := Status.under_returned hp
    simp only [ptrText, Option.map_eq_some'] at ht
    obtain ⟨t', ht', rfl⟩ := ht
    rw [ih q t' rfl ht']; simp
  | intoNewStatic pre rest _ _ st _ _ _ ih =>
    intro p t hp ht
    obtain ⟨q, rfl, rfl⟩ := Status.under_returned hp
    simp only [ptrText, Option.map_eq_some'] at ht
    obtain ⟨t', ht', rfl⟩ := ht
    rw [ih q t' rfl ht']; simp
  | intoParam _ _ _ _ _ st _ _ _ ih =>
    intro p t hp ht
    obtain ⟨q, rfl, rfl⟩ := Status.under_returned hp
    simp [ptrText] at ht
  | intoNewParam _ _ _ _ _ st _ _ _ _ ih =>
    intro p t hp ht
    obtain ⟨q, rfl, rfl⟩ := Status.under_returned hp
    simp [ptrText] at ht

theorem Node.chainsAt_nil (n : Node) : n.chainsAt [] = n.chains := rfl

theorem Node.chainsAt_cons (n : Node) (s : Step) (q : Ptr) :
    n.chainsAt (s :: q) = match n.child s with
      | some c => c.chainsAt q
      | none => [] := by
  simp only [Node.chainsAt, Node.at?]
  cases n.child s <;> rfl

theorem Node.Fresh.child_eq_none {n : Node} (h : n.Fresh) (s : Step) : n.child s = none := by
  obtain ⟨h1, h2, h3, -⟩ := h
  cases s <;> simp [Node.child, h1, h2, h3, mapGet]

theorem Node.Fresh.chainsAt_eq_nil {n : Node} (h : n.Fresh) (q : Ptr) : n.chainsAt q = [] := by
  cases q with
  | nil => exact h.2.2.2
  | cons s q => rw [Node.chainsAt_cons, h.child_eq_none s]

theorem Node.fresh_empty : Node.empty.Fresh := ⟨rfl, rfl, rfl, rfl⟩

theorem Node.fresh_newParam (param : Str) : (Node.newParam param).Fresh := ⟨rfl, rfl, rfl, rfl⟩

theorem Node.chainsAt_setChild_old {n c c' : Node} {s : Step} (hc : n.child s = some c)
    (h : ∀ q, c'.chainsAt q = c.chainsAt q) (q : Ptr) :
    (n.setChild s c').chainsAt q = n.chainsAt q := by
  cases q with
  | nil => simp [Node.chainsAt_nil]
  | cons s' q =>
    rw [Node.chainsAt_cons, Node.chainsAt_cons]
    by_cases hs : s' = s
    · subst hs; simp [hc, h]
    · rw [Node.child_setChild_ne _ _ hs]

theorem Node.chainsAt_setChild_new {n c' : Node} {s : Step} (hc : n.child s = none)
    (h : ∀ q, c'.chainsAt q = []) (q : Ptr) :
    (n.setChild s c').chainsAt q = n.chainsAt q := by
  cases q with
  | nil => simp [Node.chainsAt_nil]
  | cons s' q =>
    rw [Node.chainsAt_cons, Node.chainsAt_cons]
    by_cases hs : s' = s
    · subst hs; simp [hc, h]
    · rw [Node.child_setChild_ne _ _ hs]

theorem AddRel.chainsAt_eq {path : Str} {n n' : Node} {st : Status}
    (h : AddRel path n n' st) : ∀ q, n'.chainsAt q = n.chainsAt q := by
  induction h with
  | newStatic path n _ _ hc => exact Node.chainsAt_setChild_new hc Node.fresh_empty.chainsAt_eq_nil
  | newParam path param n _ hp _ =>
    exact Node.chainsAt_setChild_new (s := .params) hp (Node.fresh_newParam _).chainsAt_eq_nil
  | newWild path n _ _ hw =>
    exact Node.chainsAt_setChild_new (s := .wild) hw Node.fresh_empty.chainsAt_eq_nil
  | intoStatic _ _ _ _ _ _ _ hc _ ih => exact Node.chainsAt_setChild_old hc ih
  | intoNewStatic _ _ _ _ _ _ hc _ ih =>
    exact Node.chainsAt_setChild_new hc (fun q => by rw [ih, Node.fresh_empty.chainsAt_eq_nil])
  | intoParam _ _ _ _ _ _ _ hpn _ ih => exact Node.chainsAt_setChild_old (s := .params) hpn ih
  | intoNewParam _ _ _ _ _ _ _ hp _ _ ih =>
    exact Node.chainsAt_setChild_new (s := .params) hp
      (fun q => by rw [ih, (Node.fresh_newParam _).chainsAt_eq_nil])
  | _ => intro q; rfl

theorem Node.at?_setChild_old {n c c' : Node} {s : Step} (hc : n.child s = some c)
    (h : ∀ q x, c.at? q = some x → ∃ x', c'.at? q = some x') (q : Ptr) (x : Node)
    (hx : n.at? q = some x) : ∃ x', (n.setChild s c').at? q = some x' := by
  cases q with
  | nil => exact ⟨_, rfl⟩
  | cons s' q =>
    simp only [Node.at?] at hx ⊢
    by_cases hs : s' = s
    · subst hs
      simp only [hc] at hx
      simpa using h q x hx
    · rw [Node.child_setChild_ne _ _ hs]
      exact ⟨x, hx⟩

theorem Node.at?_setChild_new {n c' : Node} {s : Step} (hc : n.child s = none)
    (q : Ptr) (x : Node) (hx : n.at? q = some x) : ∃ x', (n.setChild s c').at? q = some x' := by
  cases q with
  | nil => exact ⟨_, rfl⟩
  | cons s' q =>
    simp only [Node.at?] at hx ⊢
    by_cases hs : s' = s
    · subst hs
      simp [hc] at hx
    · rw [Node.child_setChild_ne _ _ hs]
      exact ⟨x, hx⟩

theorem AddRel.persist {path : Str} {n n' : Node} {st : Status}
    (h : AddRel path n n' st) : ∀ q x, n.at? q = some x → ∃ x', n'.at? q = some x' := by
  induction h with
  | newStatic path n _ _ hc => exact Node.at?_setChild_new hc
  | newParam path param n _ hp _ => exact Node.at?_setChild_new (s := .params) hp
  | newWild path n _ _ hw => exact Node.at?_setChild_new (s := .wild) hw
  | intoStatic _ _ _ _ _ _ _ hc _ ih => exact Node.at?_setChild_old hc ih
  | intoNewStatic _ _ _ _ _ _ hc _ ih => exact Node.at?_setChild_new hc
  | intoParam _ _ _ _ _ _ _ hpn _ ih => exact Node.at?_setChild_old (s := .params) hpn ih
  | intoNewParam _ _ _ _ _ _ _ hp _ _ ih => exact Node.at?_setChild_new (s := .params) hp
  | _ => intro q x hx; exact ⟨x, hx⟩

/-! ## Chains set through a pointer -/

@[simp] theorem Node.child_addChain (x : Node) (method : Str) (chain : HandlersChain) (s : Step) :
    (x.addChain method chain).child s = x.child s := by
  cases s <;> rfl

theorem Node.at?_append (n : Node) (p q : Ptr) :
    n.at? (p ++ q) = (n.at? p).bind (fun y => y.at? q) := by
  induction p generalizing n with
  | nil => rfl
  | cons s p ih =>
    simp only [List.cons_append, Node.at?]
    cases n.child s with
    | none => rfl
    | some c => exact ih c

theorem Node.at?_addChainAt_same {n x : Node} {a : Ptr} (hx : n.at? a = some x)
    (method : Str) (chain : HandlersChain) :
    (n.addChainAt a method chain).at? a = some (x.addChain method chain) := by
  induction a generalizing n with
  | nil =>
    simp only [Node.at?, Option.some.injEq] at hx
    subst hx; rfl
  | cons s a ih =>
    simp only [Node.at?] at hx
    cases hc : n.child s with
    | none => simp [hc] at hx
    | some c =>
      simp only [hc] at hx
      have := ih hx
      simp only [Node.addChainAt] at this
      simp [Node.addChainAt, Node.modifyAt, hc, Node.at?, this]

theorem Node.at?_addChainAt_some (n : Node) (a : Ptr) (method : Str) (chain : HandlersChain)
    (q : Ptr) (x : Node) (hx : n.at? q = some x) :
    ∃ x', (n.addChainAt a method chain).at? q = some x' := by
  induction a generalizing n q x with
  | nil =>
    cases q with
    | nil => exact ⟨_, rfl⟩
    | cons s q =>
      simp only [Node.at?] at hx
      simp only [Node.addChainAt, Node.modifyAt, Node.at?, Node.child_addChain]
      exact ⟨x, hx⟩
  | cons s a ih =>
    simp only [Node.addChainAt, Node.modifyAt]
    cases hc : n.child s with
    | none => exact ⟨x, hx⟩
    | some c =>
      exact Node.at?_setChild_old hc (fun q' x' hx' => ih c q' x' hx') q x hx

theorem Node.chainsAt_addChainAt {n x : Node} {a : Ptr} (hx : n.at? a = some x)
    (method : Str) (chain : HandlersChain) (q : Ptr) :
    (n.addChainAt a method chain).chainsAt q =
      if q = a then mapSet method chain x.chains else n.chainsAt q := by
  induction a generalizing n q with
  | nil =>
    simp only [Node.at?, Option.some.injEq] at hx
    subst hx
    cases q with
    | nil => rfl
    | cons s q =>
      simp only [Node.addChainAt, Node.modifyAt, Node.chainsAt_cons, Node.child_addChain]
      simp
  | cons s a ih =>
    simp only [Node.at?] at hx
    cases hc : n.child s with
    | none => simp [hc] at hx
    | some c =>
      simp only [hc] at hx
      have ih' := ih hx
      simp only [Node.addChainAt] at ih'
      simp only [Node.addChainAt, Node.modifyAt, hc]
      cases q with
      | nil => simp [Node.chainsAt_nil]
      | cons s' q =>
        rw [Node.chainsAt_cons, Node.chainsAt_cons]
        by_cases hs : s' = s
        · subst hs
          simp only [Node.child_setChild_same, hc, ih', List.cons.injEq, true_and]
        · rw [Node.child_setChild_ne _ _ hs]
          simp [hs]

theorem Node.chainAt_addChainAt {n x : Node} {a : Ptr} (hx : n.at? a = some x)
    (method : Str) (chain : HandlersChain) (q : Ptr) (m : Str) :
    (n.addChainAt a method chain).chainAt q m =
      if q = a ∧ method = m then chain else n.chainAt q m := by
  simp only [Node.chainAt, Node.chainsAt_addChainAt hx]
  by_cases hq : q = a
  · subst hq
    have : n.chainsAt q = x.chains := by simp [Node.chainsAt, hx]
    by_cases hm : method = m
    · subst hm; simp [mapGet_mapSet_same]
    · simp [hm, mapGet_mapSet_ne _ _ (Ne.symm hm), this]
  · simp [hq]

theorem Node.All.of_modifyAt {Q : Node → Prop} {f : Node → Node} (hf : ∀ x, Q x → Q (f x))
    (hfc : ∀ x s, (f x).child s = x.child s)
    (hset : ∀ n s c c', Q n → n.child s = some c → Q (n.setChild s c'))
    {n : Node} (h : n.All Q) (p : Ptr) : (n.modifyAt f p).All Q := by
  induction p generalizing n with
  | nil =>
    apply Node.All.intro (hf _ h.self)
    intro s c hc
    simp only [Node.modifyAt, hfc] at hc
    exact h.of_child hc
  | cons s p ih =>
    simp only [Node.modifyAt]
    cases hc : n.child s with
    | none => exact h
    | some c => exact Node.All.of_setChild s h (ih (h.of_child hc)) (hset _ _ _ _ h.self hc)

/-! ## Soundness of every reachable trie -/

theorem mapGet_mapSet {α : Type} (k k' : Str) (v : α) (l : List (Str × α)) :
    mapGet k' (mapSet k v l) = if k' = k then some v else mapGet k' l := by
  by_cases h : k' = k
  · subst h; simp [mapGet_mapSet_same]
  · simp [h, mapGet_mapSet_ne _ _ h]

theorem Node.Sound.of_setStatic {n : Node} (h : n.Sound) {chunk : Str} (c : Node)
    (hk : ChunkKey chunk) : (n.setStatic chunk c).Sound := by
  refine ⟨h.1, ?_⟩
  intro k c' hc'
  simp only [Node.setStatic, Node.static, mapGet_mapSet] at hc'
  split at hc'
  · rename_i hkc; subst hkc; exact hk
  · exact h.2 k c' hc'

theorem Node.Sound.of_setParams {n : Node} (h : n.Sound) (c : Node)
    (hw : n.params = none → n.wild = none) : (n.setParams c).Sound := by
  refine ⟨Or.inr ?_, h.2⟩
  show n.wild = none
  rcases h.1 with hp | hw'
  · exact hw hp
  · exact hw'

theorem Node.Sound.of_setWild {n : Node} (h : n.Sound) (c : Node) (hp : n.params = none) :
    (n.setWild c).Sound := ⟨Or.inl hp, h.2⟩

theorem add_sound (path : Str) (pCount : Nat) {n : Node} (h : n.All Node.Sound) :
    (add path pCount n).node.All Node.Sound := by
  apply addAux_all
  · intro param
    exact ⟨Or.inl rfl, fun k c hc => by simp [Node.newParam, Node.static, mapGet] at hc⟩
  · intro n chunk c hn hk; exact hn.of_setStatic c hk
  · intro _ n c hn hw; exact hn.of_setParams c hw
  · intro _ n c hn hp _; exact hn.of_setWild c hp
  · exact h

theorem addChainAt_sound (p : Ptr) (method : Str) (chain : HandlersChain) {n : Node}
    (h : n.All Node.Sound) : (n.addChainAt p method chain).All Node.Sound := by
  apply Node.All.of_modifyAt _ _ _ h
  · intro x hx; exact hx
  · intro x s; exact Node.child_addChain x method chain s
  · intro n s c c' hn hc
    cases s with
    | static k =>
      refine ⟨hn.1, ?_⟩
      intro k' c'' hc''
      simp only [Node.setChild, Node.setStatic, Node.static, mapGet_mapSet] at hc''
      split at hc''
      · rename_i hkk; subst hkk; exact hn.2 _ _ hc
      · exact hn.2 _ _ hc''
    | params =>
      refine hn.of_setParams c' ?_
      intro hp
      simp [Node.child, hp] at hc
    | wild =>
      refine ⟨?_, hn.2⟩
      rcases hn.1 with hp | hw
      · exact Or.inl hp
      · simp [Node.child, hw] at hc

theorem reachable_sound {root : Node} (h : Reachable root) : root.All Node.Sound := by
  induction h with
  | empty =>
    exact Node.All.of_empty ⟨Or.inl rfl, fun k c hc => by simp [Node.empty, Node.static, mapGet] at hc⟩
  | add path pCount _ ih => exact add_sound path pCount ih
  | addChain p method chain _ ih => exact addChainAt_sound p method chain ih

theorem register_reachable {root root' : Node} {r : Route} (h : Reachable root)
    (hr : register root r = some root') : Reachable root' := by
  simp only [register] at hr
  split at hr
  · simp only [Option.some.injEq] at hr
    subst hr
    exact Reachable.addChain _ _ _ (Reachable.add _ _ h)
  · simp at hr

theorem registerAll_reachable {root root' : Node} {routes : List Route} (h : Reachable root)
    (hr : registerAll root routes = some root') : Reachable root' := by
  induction routes generalizing root with
  | nil => simp only [registerAll, Option.some.injEq] at hr; exact hr ▸ h
  | cons r rs ih =>
    simp only [registerAll] at hr
    cases h1 : register root r with
    | none => simp [h1] at hr
    | some n1 =>
      simp only [h1, Option.some_bind] at hr
      exact ih (register_reachable h h1) hr

/-! ## Capture-free routes -/

theorem mem_dirs {ds : List Str} {d : Str} {c : Char} (hd : d ∈ ds) (hc : c ∈ d) :
    c ∈ dirs ds := by
  induction ds with
  | nil => simp at hd
  | cons a as ih =>
    rcases List.mem_cons.mp hd with rfl | hd
    · simp [dirs, hc]
    · simp [dirs, ih hd]

theorem split_sigilFree {s : Str} (hs : SigilFree s) :
    ∃ ds bare, (∀ d ∈ ds, Plain d) ∧ Plain bare ∧ s = dirs ds ++ bare := by
  obtain ⟨ds, bare, hds, hb, rfl⟩ := split_dirs s
  refine ⟨ds, bare, ?_, ?_, rfl⟩
  · intro d hd c hc
    exact ⟨hds d hd c hc, hs c (List.mem_append_left _ (mem_dirs hd hc))⟩
  · intro c hc
    exact ⟨hb c hc, hs c (List.mem_append_right _ hc)⟩

theorem plain_of_sigilFree {ds : List Str} {bare : Str} (hs : SigilFree (dirs ds ++ bare))
    (hds : ∀ d ∈ ds, SlashFree d) (hb : SlashFree bare) :
    (∀ d ∈ ds, Plain d) ∧ Plain bare := by
  constructor
  · intro d hd c hc
    exact ⟨hds d hd c hc, hs c (List.mem_append_left _ (mem_dirs hd hc))⟩
  · intro c hc
    exact ⟨hb c hc, hs c (List.mem_append_right _ hc)⟩

theorem ptrText_dirPtr_append (ds : List Str) (q : Ptr) :
    ptrText (dirPtr ds ++ q) = (ptrText q).map (dirs ds ++ ·) := by
  induction ds with
  | nil => simp [dirPtr, dirs]
  | cons d ds ih =>
    have hstep : ptrText (dirPtr (d :: ds) ++ q)
        = (ptrText (dirPtr ds ++ q)).map ((d ++ [slash]) ++ ·) := rfl
    rw [hstep, ih]
    cases ptrText q <;> simp [dirs]

theorem ptrText_routePtr (ds : List Str) (bare : Str) :
    ptrText (routePtr ds bare) = some (dirs ds ++ bare) := by
  rw [routePtr, ptrText_dirPtr_append]
  by_cases hb : bare = []
  · simp [hb, ptrText]
  · simp [hb, ptrText]

theorem add_route_status (ds : List Str) (bare : Str) (pCount : Nat) (n : Node)
    (hds : ∀ d ∈ ds, Plain d) (hb : Plain bare) :
    (add (dirs ds ++ bare) pCount n).status = .returned (routePtr ds bare) := by
  rw [add_dirs ds bare pCount n hds]
  by_cases hne : bare = []
  · subst hne
    simp [AddResult.lift, add_blank, routePtr]
  · rw [add_plain _ _ hb hne]
    simp [AddResult.lift, routePtr, hne]

theorem register_some {root root' : Node} {r : Route} (h : register root r = some root') :
    ∃ a x, (add r.pattern 0 root).status = .returned a ∧
      (add r.pattern 0 root).node.at? a = some x ∧
      root' = (add r.pattern 0 root).node.addChainAt a r.method r.chain := by
  simp only [register] at h
  split at h
  · rename_i a ha
    obtain ⟨x, hx⟩ := (add_rel r.pattern 0 root).valid a ha
    simp only [Option.some.injEq] at h
    exact ⟨a, x, ha, hx, h.symm⟩
  · simp at h

theorem register_chainAt {root root' : Node} {r : Route} (h : register root r = some root')
    (ds : List Str) (bare : Str) (hds : ∀ d ∈ ds, SlashFree d) (hb : SlashFree bare)
    (hsf : r.pattern = dirs ds ++ bare → SigilFree r.pattern) (m : Str) :
    root'.chainAt (routePtr ds bare) m =
      if r.method = m ∧ r.pattern = dirs ds ++ bare then r.chain
      else root.chainAt (routePtr ds bare) m := by
  obtain ⟨a, x, ha, hx, rfl⟩ := register_some h
  rw [Node.chainAt_addChainAt hx]
  have hiff : routePtr ds bare = a ↔ r.pattern = dirs ds ++ bare := by
    constructor
    · intro hq
      subst hq
      exact ((add_rel r.pattern 0 root).text _ _ ha (ptrText_routePtr ds bare)).symm
    · intro hp
      have hpl := plain_of_sigilFree (hp ▸ hsf hp) hds hb
      have := add_route_status ds bare 0 root hpl.1 hpl.2
      rw [← hp, ha] at this
      simp only [Status.returned.injEq] at this
      exact this.symm
  have hsame : (add r.pattern 0 root).node.chainAt (routePtr ds bare) m
      = root.chainAt (routePtr ds bare) m := by
    simp only [Node.chainAt, (add_rel r.pattern 0 root).chainsAt_eq]
  rw [hsame]
  by_cases hq : routePtr ds bare = a
  · have hp := hiff.mp hq
    by_cases hm : r.method = m <;> simp [hq, hp, hm]
  · have hp : ¬ r.pattern = dirs ds ++ bare := fun hp => hq (hiff.mpr hp)
    simp [hq, hp]

theorem registerAll_chainAt {root root' : Node} {routes : List Route}
    (h : registerAll root routes = some root')
    (ds : List Str) (bare : Str) (hds : ∀ d ∈ ds, SlashFree d) (hb : SlashFree bare)
    (hsf : ∀ r ∈ routes, r.pattern = dirs ds ++ bare → SigilFree r.pattern) (m : Str) :
    root'.chainAt (routePtr ds bare) m =
      (lastChain m (dirs ds ++ bare) routes).getD (root.chainAt (routePtr ds bare) m) := by
  induction routes generalizing root with
  | nil =>
    simp only [registerAll, Option.some.injEq] at h
    subst h; rfl
  | cons r rs ih =>
    simp only [registerAll] at h
    cases h1 : register root r with
    | none => simp [h1] at h
    | some n1 =>
      simp only [h1, Option.some_bind] at h
      rw [ih h (fun r' hr' => hsf r' (by simp [hr'])),
        register_chainAt h1 ds bare hds hb (hsf r (by simp))]
      simp only [lastChain]
      cases lastChain m (dirs ds ++ bare) rs with
      | some c => rfl
      | none =>
        by_cases hc : r.method = m ∧ r.pattern = dirs ds ++ bare <;> simp [hc]

theorem lastChain_eq_some {method pattern : Str} {routes : List Route} {c : HandlersChain}
    (h : lastChain method pattern routes = some c) :
    ∃ r ∈ routes, r.method = method ∧ r.pattern = pattern ∧ r.chain = c := by
  induction routes with
  | nil => simp [lastChain] at h
  | cons r rs ih =>
    simp only [lastChain] at h
    cases hl : lastChain method pattern rs with
    | some c' =>
      simp only [hl, Option.some.injEq] at h
      subst h
      obtain ⟨r', hr', h'⟩ := ih hl
      exact ⟨r', by simp [hr'], h'⟩
    | none =>
      simp only [hl] at h
      split at h
      · rename_i hc
        simp only [Option.some.injEq] at h
        exact ⟨r, by simp, hc.1, hc.2, h⟩
      · simp at h

theorem lastChain_isSome {method pattern : Str} {routes : List Route} {r : Route}
    (hr : r ∈ routes) (hm : r.method = method) (hp : r.pattern = pattern) :
    ∃ c, lastChain method pattern routes = some c := by
  induction routes with
  | nil => simp at hr
  | cons a as ih =>
    simp only [lastChain]
    cases hl : lastChain method pattern as with
    | some c => exact ⟨c, rfl⟩
    | none =>
      rcases List.mem_cons.mp hr with rfl | hr
      · simp [hm, hp]
      · obtain ⟨c, hc⟩ := ih hr
        simp [hl] at hc

/-! ## Lookup of a capture-free path -/

theorem Node.chainAt_cons (n : Node) (s : Step) (q : Ptr) (m : Str) :
    n.chainAt (s :: q) m = match n.child s with
      | some c => c.chainAt q m
      | none => [] := by
  simp only [Node.chainAt, Node.chainsAt_cons]
  cases n.child s <;> simp [mapGet]

theorem Node.chainAt_nil (n : Node) (m : Str) : n.chainAt [] m = n.chainFor m := rfl

theorem findRoute_staticOnly (ds : List Str) (bare : Str) (context : Ctx) (n : Node)
    (method : Str) (h : n.All Node.StaticOnly) (hctx : context.handlers = [])
    (hds : ∀ d ∈ ds, SlashFree d) (hb : SlashFree bare) :
    findRoute context n method (dirs ds ++ bare) =
      .returned { context with handlers := n.chainAt (routePtr ds bare) method } := by
  have hself : { context with handlers := ([] : HandlersChain) } = context := by
    cases context; simp_all
  induction ds generalizing n with
  | nil =>
    obtain ⟨hp, hw, hk⟩ := h.self
    simp only [dirs, List.nil_append, routePtr, dirPtr, List.map_nil]
    rw [findRoute_last _ _ _ hb]
    cases hc : mapGet bare n.static with
    | some x =>
      have hne : bare ≠ [] := by
        intro he; rw [he, hk] at hc; simp at hc
      simp [hne, Node.chainAt_cons, Node.child, hc, Node.chainAt_nil]
    | none =>
      simp only [hp, hw]
      by_cases hne : bare = []
      · simp [hne, blank, Node.chainAt_nil]
      · simp [hne, blank, Node.chainAt_cons, Node.child, hc, hself]
  | cons d ds ih =>
    obtain ⟨hp, hw, hk⟩ := h.self
    have hd : SlashFree d := hds d (by simp)
    simp only [dirs, List.append_assoc, List.cons_append]
    rw [findRoute_slash _ _ _ _ hd]
    have hptr : routePtr (d :: ds) bare = Step.static (d ++ [slash]) :: routePtr ds bare := rfl
    rw [hptr, Node.chainAt_cons]
    simp only [Node.child]
    cases hc : mapGet (d ++ [slash]) n.static with
    | some c =>
      exact ih c (h.of_child (s := .static _) hc) (fun x hx => hds x (by simp [hx]))
    | none => simp [hp, hw, hself]

theorem getLast?_dirs {ds : List Str} (h : ds ≠ []) : (dirs ds).getLast? = some slash := by
  induction ds with
  | nil => exact absurd rfl h
  | cons d ds ih =>
    by_cases hds : ds = []
    · subst hds; simp [dirs]
    · have hne : dirs ds ≠ [] := by
        cases ds with
        | nil => exact absurd rfl hds
        | cons a as => simp [dirs]
      simp only [dirs]
      rw [List.getLast?_append_of_ne_nil _ (by simp)]
      obtain ⟨b, l, hbl⟩ := List.exists_cons_of_ne_nil hne
      rw [hbl, List.getLast?_cons_cons, ← hbl]
      exact ih hds

theorem findRoute_route (ds : List Str) (bare : Str) (context : Ctx) (n x : Node)
    (method : Str) (h : n.All Node.Sound) (hx : n.at? (routePtr ds bare) = some x)
    (hend : bare ≠ [] ∨ (x.params = none ∧ x.wild = none))
    (hds : ∀ d ∈ ds, SlashFree d) (hb : SlashFree bare) :
    findRoute context n method (dirs ds ++ bare) =
      .returned { context with handlers := x.chainFor method } := by
  rw [routePtr, Node.at?_append] at hx
  cases hy : n.at? (dirPtr ds) with
  | none => simp [hy] at hx
  | some y =>
    simp only [hy, Option.some_bind] at hx
    rw [findRoute_dirs ds bare context n y method hds hy, findRoute_last _ _ _ hb]
    by_cases hne : bare = []
    · subst hne
      simp only [if_true, Node.at?, Option.some.injEq] at hx
      subst hx
      have hk : mapGet [] y.static = none := by
        cases hc : mapGet [] y.static with
        | none => rfl
        | some c => exact absurd rfl ((h.of_at hy).self.2 [] c hc).1
      rcases hend with hend | ⟨hp, hw⟩
      · exact absurd rfl hend
      · simp [hk, hp, hw, blank]
    · simp only [hne, if_false, Node.at?, Node.child] at hx
      cases hc : mapGet bare y.static with
      | none => simp [hc] at hx
      | some c =>
        simp only [hc, Option.some.injEq] at hx
        subst hx
        rfl

theorem register_persist {root root' : Node} {r : Route} (h : register root r = some root')
    (q : Ptr) (x : Node) (hx : root.at? q = some x) : ∃ x', root'.at? q = some x' := by
  obtain ⟨a, y, ha, hy, rfl⟩ := register_some h
  obtain ⟨x1, hx1⟩ := (add_rel r.pattern 0 root).persist q x hx
  exact Node.at?_addChainAt_some _ a r.method r.chain q x1 hx1

theorem registerAll_persist {root root' : Node} {routes : List Route}
    (h : registerAll root routes = some root')
    (q : Ptr) (x : Node) (hx : root.at? q = some x) : ∃ x', root'.at? q = some x' := by
  induction routes generalizing root x with
  | nil =>
    simp only [registerAll, Option.some.injEq] at h
    subst h; exact ⟨x, hx⟩
  | cons r rs ih =>
    simp only [registerAll] at h
    cases h1 : register root r with
    | none => simp [h1] at h
    | some n1 =>
      simp only [h1, Option.some_bind] at h
      obtain ⟨x1, hx1⟩ := register_persist h1 q x hx
      exact ih h x1 hx1

theorem registerAll_route_at {root root' : Node} {routes : List Route}
    (h : registerAll root routes = some root') {r : Route} (hr : r ∈ routes)
    (ds : List Str) (bare : Str) (hds : ∀ d ∈ ds, Plain d) (hb : Plain bare)
    (hp : r.pattern = dirs ds ++ bare) : ∃ x, root'.at? (routePtr ds bare) = some x := by
  induction routes generalizing root with
  | nil => simp at hr
  | cons a as ih =>
    simp only [registerAll] at h
    cases h1 : register root a with
    | none => simp [h1] at h
    | some n1 =>
      simp only [h1, Option.some_bind] at h
      rcases List.mem_cons.mp hr with rfl | hr
      · obtain ⟨p, y, hst, hy, rfl⟩ := register_some h1
        have hroute := add_route_status ds bare 0 root hds hb
        rw [← hp, hst] at hroute
        simp only [Status.returned.injEq] at hroute
        subst hroute
        exact registerAll_persist h _ _ (Node.at?_addChainAt_same hy _ _)
      · exact ih h hr

/-! ## Tries of capture-free routes -/

theorem Node.staticOnly_empty : Node.empty.StaticOnly := ⟨rfl, rfl, rfl⟩

theorem add_staticOnly {path : Str} (pCount : Nat) {n : Node} (hs : SigilFree path)
    (h : n.All Node.StaticOnly) : (add path pCount n).node.All Node.StaticOnly := by
  apply addAux_all
  · intro param; exact ⟨rfl, rfl, rfl⟩
  · intro n chunk c hn hk
    refine ⟨hn.1, hn.2.1, ?_⟩
    simp only [Node.setStatic, Node.static, mapGet_mapSet]
    rw [if_neg (Ne.symm hk.1)]
    exact hn.2.2
  · intro hc; exact absurd rfl (hs colon hc).1
  · intro hc; exact absurd rfl (hs star hc).2
  · exact h

theorem addChainAt_staticOnly (p : Ptr) (method : Str) (chain : HandlersChain) {n : Node}
    (h : n.All Node.StaticOnly) : (n.addChainAt p method chain).All Node.StaticOnly := by
  apply Node.All.of_modifyAt _ _ _ h
  · intro x hx; exact hx
  · intro x s; exact Node.child_addChain x method chain s
  · intro n s c c' hn hc
    cases s with
    | static k =>
      refine ⟨hn.1, hn.2.1, ?_⟩
      simp only [Node.setChild, Node.setStatic, Node.static, mapGet_mapSet]
      split
      · rename_i hk
        simp only [Node.child] at hc
        rw [← hk, hn.2.2] at hc
        simp at hc
      · exact hn.2.2
    | params => simp [Node.child, hn.1] at hc
    | wild => simp [Node.child, hn.2.1] at hc

theorem registerAll_staticOnly {routes : List Route} (hs : ∀ r ∈ routes, SigilFree r.pattern)
    {root : Node} (h : root.All Node.StaticOnly) :
    ∃ root', registerAll root routes = some root' ∧ root'.All Node.StaticOnly := by
  induction routes generalizing root with
  | nil => exact ⟨root, rfl, h⟩
  | cons r rs ih =>
    have hr : SigilFree r.pattern := hs r (by simp)
    obtain ⟨ds, bare, hds, hb, hp⟩ := split_sigilFree hr
    have hst := add_route_status ds bare 0 root hds hb
    rw [← hp] at hst
    have h1 : (add r.pattern 0 root).node.All Node.StaticOnly := add_staticOnly 0 hr h
    obtain ⟨root', hreg, hall⟩ := ih (fun r' hr' => hs r' (by simp [hr']))
      (addChainAt_staticOnly (routePtr ds bare) r.method r.chain h1)
    exact ⟨root', by simp [registerAll, register, hst, hreg], hall⟩

/-! ## Lookup of a registered capture-free route -/

theorem findRoute_registered (routes : List Route) (root : Node)
    (hreg : registerAll Node.empty routes = some root) (r : Route) (hr : r ∈ routes)
    (hsf : SigilFree r.pattern)
    (hend : (r.pattern ≠ [] ∧ r.pattern.getLast? ≠ some slash) ∨
      ∃ p x, (add r.pattern 0 root).status = .returned p ∧ root.at? p = some x ∧
        x.params = none ∧ x.wild = none)
    (context : Ctx) :
    ∃ c, lastChain r.method r.pattern routes = some c ∧
      findRoute context root r.method r.pattern = .returned { context with handlers := c } := by
  obtain ⟨ds, bare, hds, hb, hp⟩ := split_sigilFree hsf
  have hdsS : ∀ d ∈ ds, SlashFree d := fun d hd => (hds d hd).slashFree
  obtain ⟨c, hl⟩ := lastChain_isSome hr rfl rfl
  obtain ⟨x, hx⟩ := registerAll_route_at hreg hr ds bare hds hb hp
  have hsound := reachable_sound (registerAll_reachable Reachable.empty hreg)
  have hchain := registerAll_chainAt hreg ds bare hdsS hb.slashFree
    (fun r' _ hp' => hp' ▸ hp ▸ hsf) r.method
  rw [← hp, hl] at hchain
  have hxc : x.chainFor r.method = c := by
    simpa [Node.chainAt, Node.chainsAt, hx, Node.chainFor] using hchain
  have hend' : bare ≠ [] ∨ (x.params = none ∧ x.wild = none) := by
    rcases hend with ⟨hne, hlast⟩ | ⟨p, y, hst, hy, hpn, hwn⟩
    · left
      intro hbare
      subst hbare
      rw [List.append_nil] at hp
      by_cases hdn : ds = []
      · subst hdn; exact hne (by simpa [dirs] using hp)
      · exact hlast (hp ▸ getLast?_dirs hdn)
    · right
      have hroute := add_route_status ds bare 0 root hds hb
      rw [← hp, hst] at hroute
      simp only [Status.returned.injEq] at hroute
      subst hroute
      rw [hx] at hy
      simp only [Option.some.injEq] at hy
      subst hy
      exact ⟨hpn, hwn⟩
  refine ⟨c, hl, ?_⟩
  have := findRoute_route ds bare context root x r.method hsound hx hend' hdsS hb.slashFree
  rw [← hp, hxc] at this
  exact this

/-! ## Lookup steps at a node, registrations one at a time -/

theorem findRoute_wild_only (context : Ctx) (n w : Node) (method path : Str)
    (hs : n.static = []) (hp : n.params = none) (hw : n.wild = some w) :
    findRoute context n method path = .returned { context with handlers := w.chainFor method } := by
  rw [findRoute_eq]
  cases indexWhere (· = slash) path <;> simp [hs, hp, hw, mapGet]

theorem register_of_returned {root : Node} {r : Route} {p : Ptr}
    (h : (add r.pattern 0 root).status = .returned p) :
    register root r = some ((add r.pattern 0 root).node.addChainAt p r.method r.chain) := by
  simp [register, h]

theorem register_of_panicked {root : Node} {r : Route} {why : Panic}
    (h : (add r.pattern 0 root).status = .panicked why) : register root r = none := by
  simp [register, h]

theorem registerAll_two {root n1 n2 : Node} {r1 r2 : Route} (h1 : register root r1 = some n1)
    (h2 : register n1 r2 = some n2) : registerAll root [r1, r2] = some n2 := by
  simp [registerAll, h1, h2]

theorem AddResult.lift_status_returned (n : Node) (p q : Ptr) (r : AddResult)
    (h : r.status = .returned q) : (AddResult.lift n p r).status = .returned (p ++ q) := by
  simp [AddResult.lift, h]

theorem AddResult.lift_node (n : Node) (p : Ptr) (r : AddResult) :
    (AddResult.lift n p r).node = n.graft p r.node := rfl

/-! ## A single pattern of literal and parametric segments -/

theorem fill_cons (t : Seg) (ts : List Seg) (vals : List Str) :
    ∃ a as, fill (t :: ts) vals = a :: as := by
  cases t with
  | lit s => exact ⟨_, _, rfl⟩
  | par nm =>
    cases vals with
    | nil => exact ⟨_, _, rfl⟩
    | cons v vs => exact ⟨_, _, rfl⟩

theorem joinSlash_cons_fill (a : Str) (t : Seg) (ts : List Seg) (vals : List Str) :
    joinSlash (a :: fill (t :: ts) vals) = a ++ slash :: joinSlash (fill (t :: ts) vals) := by
  obtain ⟨b, bs, h⟩ := fill_cons t ts vals
  rw [h]; rfl

theorem Node.Fresh.mapGet_static {n : Node} (h : n.Fresh) (k : Str) :
    mapGet k n.static = none := by
  rw [h.1]; rfl

theorem add_segs (segs : List Seg) (method : Str) (chain : HandlersChain)
    (hlit : ∀ s, Seg.lit s ∈ segs → Plain s) (hpar : ∀ nm, Seg.par nm ∈ segs → SlashFree nm)
    (n : Node) (hn : n.Fresh) (pCount : Nat) :
    ∃ ptr, (add (patternOf segs) pCount n).status = .returned ptr ∧
      ∀ (vals : List Str) (context : Ctx), vals.length = (paramNames segs).length →
        (∀ v ∈ vals, SlashFree v) → context.params.length + vals.length ≤ context.cap →
        findRoute context ((add (patternOf segs) pCount n).node.addChainAt ptr method chain)
            method (concreteOf segs vals) =
          .returned ⟨context.params ++ bindingsOf segs vals, context.cap, chain⟩ := by
  have hblank : ∀ (n : Node), n.Fresh → ∀ (context : Ctx),
      findRoute context (n.addChain method chain) method [] =
        .returned ⟨context.params ++ [], context.cap, chain⟩ := by
    intro n hn context
    rw [findRoute_last _ _ _ (by simp [SlashFree])]
    have h1 : mapGet [] (n.addChain method chain).static = none := hn.mapGet_static []
    have h2 : (n.addChain method chain).params = none := hn.2.1
    have h3 : (n.addChain method chain).wild = none := hn.2.2.1
    simp [h1, h2, h3, blank]
  induction segs generalizing n pCount with
  | nil =>
    refine ⟨[], rfl, ?_⟩
    intro vals context hlen _ _
    have hv : vals = [] := List.length_eq_zero.mp (by simpa [paramNames] using hlen)
    subst hv
    exact hblank n hn context
  | cons seg rest ih =>
    cases rest with
    | nil =>
      cases seg with
      | lit s =>
        have hs : Plain s := hlit s (by simp)
        by_cases hne : s = []
        · subst hne
          refine ⟨[], rfl, ?_⟩
          intro vals context hlen _ _
          have hv : vals = [] := List.length_eq_zero.mp (by simpa [paramNames] using hlen)
          subst hv
          exact hblank n hn context
        · have hadd : add s pCount n = ⟨n.setStatic s Node.empty, pCount, .returned [.static s]⟩ := by
            rw [add_plain _ _ hs hne, hn.mapGet_static]
          refine ⟨[.static s], by rw [show patternOf [Seg.lit s] = s from rfl, hadd], ?_⟩
          intro vals context hlen _ _
          have hv : vals = [] := List.length_eq_zero.mp (by simpa [paramNames] using hlen)
          subst hv
          rw [show patternOf [Seg.lit s] = s from rfl, hadd,
            show concreteOf [Seg.lit s] [] = s from rfl,
            findRoute_last _ _ _ hs.slashFree]
          have hmod : (n.setStatic s Node.empty).addChainAt [.static s] method chain
              = n.setStatic s (Node.empty.addChain method chain) := by
            simp [Node.addChainAt, Node.modifyAt, Node.child, Node.setStatic, Node.static,
              mapGet_mapSet_same, Node.setChild, mapSet_mapSet, Node.params, Node.wild,
              Node.chains, Node.param]
          have hget : mapGet s (n.setStatic s (Node.empty.addChain method chain)).static
              = some (Node.empty.addChain method chain) := by
            simp [Node.setStatic, Node.static, mapGet_mapSet_same]
          simp only [hmod, hget]
          simp [bindingsOf, paramNames]
      | par nm =>
        have hnm : SlashFree nm := hpar nm (by simp)
        have hadd : add (colon :: nm) pCount n
            = ⟨n.setParams (Node.newParam nm), incr pCount, .returned [.params]⟩ := by
          rw [add_param_end _ _ hnm]
          simp [hn.2.1, hn.2.2.1]
        refine ⟨[.params], by rw [show patternOf [Seg.par nm] = colon :: nm from rfl, hadd], ?_⟩
        intro vals context hlen hvals hcap
        obtain ⟨v, rfl⟩ : ∃ v, vals = [v] := List.length_eq_one.mp (by simpa [paramNames] using hlen)
        have hv : SlashFree v := hvals v (by simp)
        rw [show patternOf [Seg.par nm] = colon :: nm from rfl, hadd,
          show concreteOf [Seg.par nm] [v] = v from rfl, findRoute_last _ _ _ hv]
        have hmod : (n.setParams (Node.newParam nm)).addChainAt [.params] method chain
            = n.setParams ((Node.newParam nm).addChain method chain) := by
          simp [Node.addChainAt, Node.modifyAt, Node.child, Node.setParams, Node.params,
            Node.setChild, Node.static, Node.wild, Node.chains, Node.param]
        have hget : mapGet v (n.setParams ((Node.newParam nm).addChain method chain)).static
            = none := hn.mapGet_static v
        have hp : (n.setParams ((Node.newParam nm).addChain method chain)).params
            = some ((Node.newParam nm).addChain method chain) := rfl
        simp only [hmod, hget, hp]
        have hc : ¬ (context.params.length + 1 > context.cap) := by
          simp only [List.length_singleton] at hcap; omega
        have hname : ((Node.newParam nm).addChain method chain).param = nm := rfl
        rw [if_neg hc, hname, Node.chainFor_addChain_same]
        simp [Ctx.bind, bindingsOf, paramNames]
    | cons t ts =>
      have hlit' : ∀ s, Seg.lit s ∈ t :: ts → Plain s := fun s hs => hlit s (by simp [hs])
      have hpar' : ∀ nm, Seg.par nm ∈ t :: ts → SlashFree nm := fun s hs =>
        hpar s (by simp [hs])
      cases seg with
      | lit s =>
        have hs : Plain s := hlit s (by simp)
        obtain ⟨ptr, hst, hfind⟩ := ih hlit' hpar' Node.empty Node.fresh_empty pCount
        have hpat : patternOf (Seg.lit s :: t :: ts) = s ++ slash :: patternOf (t :: ts) := rfl
        have hadd : add (patternOf (Seg.lit s :: t :: ts)) pCount n =
            AddResult.under n (.static (s ++ [slash]))
              (add (patternOf (t :: ts)) pCount Node.empty) := by
          rw [hpat, add_slash _ _ _ hs, hn.mapGet_static]
          rfl
        refine ⟨.static (s ++ [slash]) :: ptr, ?_, ?_⟩
        · rw [hadd, AddResult.under_status, hst]; rfl
        · intro vals context hlen hvals hcap
          rw [hadd, AddResult.under_node, Node.addChainAt, Node.modifyAt_setChild,
            show concreteOf (Seg.lit s :: t :: ts) vals
              = s ++ slash :: concreteOf (t :: ts) vals from joinSlash_cons_fill s t ts vals,
            findRoute_slash _ _ _ _ hs.slashFree]
          have hget : mapGet (s ++ [slash]) (n.setChild (.static (s ++ [slash]))
              ((add (patternOf (t :: ts)) pCount Node.empty).node.modifyAt
                (fun x => x.addChain method chain) ptr)).static = some
              ((add (patternOf (t :: ts)) pCount Node.empty).node.modifyAt
                (fun x => x.addChain method chain) ptr) :=
            Node.child_setChild_same n (.static (s ++ [slash])) _
          simp only [hget]
          exact hfind vals context hlen hvals hcap
      | par nm =>
        have hnm : SlashFree nm := hpar nm (by simp)
        obtain ⟨ptr, hst, hfind⟩ := ih hlit' hpar' (Node.newParam nm) (Node.fresh_newParam nm)
          (incr pCount)
        have hpat : patternOf (Seg.par nm :: t :: ts)
            = colon :: (nm ++ slash :: patternOf (t :: ts)) := rfl
        have hadd : add (patternOf (Seg.par nm :: t :: ts)) pCount n =
            AddResult.under n .params
              (add (patternOf (t :: ts)) (incr pCount) (Node.newParam nm)) := by
          rw [hpat, add_param_slash _ _ _ hnm]
          simp [hn.2.1, hn.2.2.1]
        refine ⟨.params :: ptr, ?_, ?_⟩
        · rw [hadd, AddResult.under_status, hst]; rfl
        · intro vals context hlen hvals hcap
          cases vals with
          | nil => simp [paramNames] at hlen
          | cons v vs =>
            have hv : SlashFree v := hvals v (by simp)
            have hlen' : vs.length = (paramNames (t :: ts)).length := by
              simpa [paramNames] using hlen
            rw [hadd, AddResult.under_node, Node.addChainAt, Node.modifyAt_setChild,
              show concreteOf (Seg.par nm :: t :: ts) (v :: vs)
                = v ++ slash :: concreteOf (t :: ts) vs from joinSlash_cons_fill v t ts vs,
              findRoute_slash _ _ _ _ hv]
            have hget : mapGet (v ++ [slash]) (n.setChild .params
                ((add (patternOf (t :: ts)) (incr pCount) (Node.newParam nm)).node.modifyAt
                  (fun x => x.addChain method chain) ptr)).static = none :=
              hn.mapGet_static _
            have hp : (n.setChild .params
                ((add (patternOf (t :: ts)) (incr pCount) (Node.newParam nm)).node.modifyAt
                  (fun x => x.addChain method chain) ptr)).params = some
                ((add (patternOf (t :: ts)) (incr pCount) (Node.newParam nm)).node.modifyAt
                  (fun x => x.addChain method chain) ptr) := rfl
            have hname : ((add (patternOf (t :: ts)) (incr pCount) (Node.newParam nm)).node.modifyAt
                  (fun x => x.addChain method chain) ptr).param = nm := by
              have := Node.param_modifyAt_addChain
                (add (patternOf (t :: ts)) (incr pCount) (Node.newParam nm)).node ptr method chain
              rw [Node.addChainAt] at this
              rw [this, add_param]; rfl
            have hcap' : context.params.length + (vs.length + 1) ≤ context.cap := by
              simpa using hcap
            have hc : ¬ (context.params.length + 1 > context.cap) := by omega
            simp only [hget, hp, hname]
            rw [if_neg hc]
            have hcap2 : (context.bind nm v).params.length + vs.length ≤ (context.bind nm v).cap := by
              simp only [Ctx.bind, List.length_append, List.length_singleton]; omega
            have := hfind vs (context.bind nm v) hlen' (fun x hx => hvals x (by simp [hx])) hcap2
            rw [Node.addChainAt] at this
            rw [this]
            simp [Ctx.bind, bindingsOf, paramNames]

/-! ## Registering a route again -/

theorem Node.touch_child (method : Str) (chain : HandlersChain) (o : Option Ptr) (n : Node)
    (s : Step) :
    (n.touch method chain o).child s =
      (n.child s).map (Node.touch method chain (o.bind (fun p => ptrSub p s))) := by
  cases o with
  | none =>
    simp only [Node.touch, Option.none_bind]
    cases n.child s <;> rfl
  | some q =>
    cases q with
    | nil =>
      simp only [Node.touch, Node.addChainAt, Node.modifyAt, Node.child_addChain,
        Option.some_bind, ptrSub]
      cases n.child s <;> rfl
    | cons s' q =>
      simp only [Node.touch, Node.addChainAt, Node.modifyAt, Option.some_bind, ptrSub]
      by_cases hs : s' = s
      · subst hs
        cases hc : n.child s' with
        | none => simp [hc]
        | some c0 => simp [Node.touch, Node.addChainAt]
      · cases hc : n.child s' with
        | none =>
          simp only [if_neg hs]
          cases n.child s <;> rfl
        | some c0 =>
          simp only [if_neg hs]
          rw [Node.child_setChild_ne _ _ (Ne.symm hs)]
          cases n.child s <;> rfl

theorem Node.touch_static (method : Str) (chain : HandlersChain) (o : Option Ptr) (n : Node)
    (k : Str) :
    mapGet k (n.touch method chain o).static =
      (mapGet k n.static).map
        (Node.touch method chain (o.bind (fun p => ptrSub p (.static k)))) :=
  Node.touch_child method chain o n (.static k)

theorem Node.touch_params (method : Str) (chain : HandlersChain) (o : Option Ptr) (n : Node) :
    (n.touch method chain o).params =
      n.params.map (Node.touch method chain (o.bind (fun p => ptrSub p .params))) :=
  Node.touch_child method chain o n .params

theorem Node.touch_wild (method : Str) (chain : HandlersChain) (o : Option Ptr) (n : Node) :
    (n.touch method chain o).wild =
      n.wild.map (Node.touch method chain (o.bind (fun p => ptrSub p .wild))) :=
  Node.touch_child method chain o n .wild

theorem Node.touch_param (method : Str) (chain : HandlersChain) (o : Option Ptr) (n : Node) :
    (n.touch method chain o).param = n.param := by
  cases o with
  | none => rfl
  | some q => exact Node.param_modifyAt_addChain n q method chain

theorem Node.touch_chainFor (method : Str) (chain : HandlersChain) (o : Option Ptr) (n : Node)
    (m : Str) :
    (n.touch method chain o).chainFor m =
      if o = some [] ∧ method = m then chain else n.chainFor m := by
  cases o with
  | none => simp [Node.touch]
  | some q =>
    cases q with
    | nil =>
      simp only [Node.touch, Node.addChainAt, Node.modifyAt, true_and]
      by_cases hm : method = m
      · subst hm; simp
      · simp [hm, Node.chainFor_addChain_ne _ _ (Ne.symm hm)]
    | cons s q =>
      simp only [Node.touch, Node.addChainAt, Node.modifyAt]
      cases n.child s <;> simp [Node.chainFor]

theorem Node.touch_setChild_self (method : Str) (chain : HandlersChain) (o : Option Ptr)
    (n c : Node) (s : Step) (h : n.child s = some c) :
    (n.touch method chain o).setChild s
      (c.touch method chain (o.bind (fun p => ptrSub p s))) = n.touch method chain o := by
  apply Node.setChild_of_child
  rw [Node.touch_child, h]; rfl

theorem Status.again_leaf {p a : Ptr} (h : Status.returned p = .returned a)
    (hp : p.getLast? ≠ some Step.wild) : Status.returned p = Status.again a := by
  cases h
  exact (if_neg hp).symm

theorem Status.again_params : Status.again [Step.params] = .returned [Step.params] := rfl

theorem Status.again_wild : Status.again [Step.wild] = .panicked .wildExists := rfl

theorem Status.again_cons {s : Step} (a : Ptr) (hs : s ≠ Step.wild) :
    (Status.again a).under s = Status.again (s :: a) := by
  cases a with
  | nil => simp [Status.again, Status.under, hs]
  | cons b q =>
    simp only [Status.again, List.getLast?_cons_cons]
    split <;> rfl

theorem AddResult.under_twice (method : Str) (chain : HandlersChain) (o : Option Ptr)
    (N c1 : Node) (s : Step) (r : AddResult) (a' : Ptr) (hs : s ≠ Step.wild)
    (hc : N.child s = some c1)
    (hnode : r.node = c1.touch method chain (o.bind (fun p => ptrSub p s)))
    (hst : r.status = Status.again a') :
    (AddResult.under (N.touch method chain o) s r).node = N.touch method chain o ∧
    (AddResult.under (N.touch method chain o) s r).status = Status.again (s :: a') := by
  constructor
  · rw [AddResult.under_node, hnode]
    exact Node.touch_setChild_self method chain o N c1 s hc
  · rw [AddResult.under_status, hst]
    exact Status.again_cons a' hs

theorem addAux_twice (fuel : Nat) (path : Str) (pCount : Nat) (n : Node) (a : Ptr)
    (hst : (addAux fuel path pCount n).status = .returned a)
    (method : Str) (chain : HandlersChain) (o : Option Ptr) (pc' : Nat) :
    (addAux fuel path pc' ((addAux fuel path pCount n).node.touch method chain o)).node
      = (addAux fuel path pCount n).node.touch method chain o ∧
    (addAux fuel path pc' ((addAux fuel path pCount n).node.touch method chain o)).status
      = Status.again a := by
  induction fuel generalizing path pCount n a o pc' with
  | zero => simp [addAux] at hst
  | succ f ih =>
    have ihk : ∀ k pc x a', (addAux f (path.drop k) pc x).status = .returned a' →
        ∀ o' pc'', (addAux f (path.drop k) pc''
            ((addAux f (path.drop k) pc x).node.touch method chain o')).node
          = (addAux f (path.drop k) pc x).node.touch method chain o' ∧
        (addAux f (path.drop k) pc''
            ((addAux f (path.drop k) pc x).node.touch method chain o')).status
          = Status.again a' :=
      fun k pc x a' h o' pc'' => ih _ pc x a' h o' pc''
    generalize hr : addAux (f + 1) path pCount n = r at hst ⊢
    simp only [addAux] at hr
    split at hr
    · -- blank
      rename_i hb
      subst hr
      simp only [addAux, hb, if_true]
      exact ⟨trivial, Status.again_leaf hst (by simp)⟩
    · rename_i hne
      split at hr
      · rename_i e c hfs
        obtain ⟨pre, rest, hpath, hlen, hpre, hc⟩ := firstStructural_some hfs
        split at hr
        · -- slash
          rename_i hcs
          subst hcs
          split at hr
          · rename_i charNode hget
            subst hr
            rw [AddResult.under_status] at hst
            obtain ⟨a', hst', rfl⟩ := Status.under_returned hst
            have hih := ihk (e + 1) pCount charNode a' hst'
              (o.bind (fun p => ptrSub p (.static (path.take (e + 1))))) pc'
            have hchild : mapGet (path.take (e + 1))
                ((AddResult.under n (.static (path.take (e + 1)))
                  (addAux f (path.drop (e + 1)) pCount charNode)).node.touch method chain o).static
                = some ((addAux f (path.drop (e + 1)) pCount charNode).node.touch method chain
                  (o.bind (fun p => ptrSub p (.static (path.take (e + 1)))))) := by
              rw [Node.touch_static, AddResult.under_node]
              have := Node.child_setChild_same n (.static (path.take (e + 1)))
                (addAux f (path.drop (e + 1)) pCount charNode).node
              simp only [Node.child] at this
              rw [this]; rfl
            simp only [addAux, hne, hfs, if_false, if_true, hchild]
            exact AddResult.under_twice method chain o _ _ _ _ a' (by simp)
              (by rw [AddResult.under_node]; exact Node.child_setChild_same _ _ _) hih.1 hih.2
          · rename_i hget
            subst hr
            rw [AddResult.under_status] at hst
            obtain ⟨a', hst', rfl⟩ := Status.under_returned hst
            have hih := ihk (e + 1) pCount Node.empty a' hst'
              (o.bind (fun p => ptrSub p (.static (path.take (e + 1))))) pc'
            have hchild : mapGet (path.take (e + 1))
                ((AddResult.under n (.static (path.take (e + 1)))
                  (addAux f (path.drop (e + 1)) pCount Node.empty)).node.touch method chain o).static
                = some ((addAux f (path.drop (e + 1)) pCount Node.empty).node.touch method chain
                  (o.bind (fun p => ptrSub p (.static (path.take (e + 1)))))) := by
              rw [Node.touch_static, AddResult.under_node]
              have := Node.child_setChild_same n (.static (path.take (e + 1)))
                (addAux f (path.drop (e + 1)) pCount Node.empty).node
              simp only [Node.child] at this
              rw [this]; rfl
            simp only [addAux, hne, hfs, if_false, if_true, hchild]
            exact AddResult.under_twice method chain o _ _ _ _ a' (by simp)
              (by rw [AddResult.under_node]; exact Node.child_setChild_same _ _ _) hih.1 hih.2
        · rename_i hcs
          split at hr
          · -- colon
            rename_i hcc
            subst hcc
            split at hr
            · rename_i e2 hidx
              split at hr
              · subst hr; simp at hst
              · rename_i hbound
                split at hr
                · rename_i pn hpn
                  split at hr
                  · subst hr; simp at hst
                  · rename_i hname
                    subst hr
                    rw [AddResult.under_status] at hst
                    obtain ⟨a', hst', rfl⟩ := Status.under_returned hst
                    have hih := ihk (e2 + 2) (incr pCount) pn a' hst'
                      (o.bind (fun p => ptrSub p .params)) (incr pc')
                    have hchild : ((AddResult.under n .params
                          (addAux f (path.drop (e2 + 2)) (incr pCount) pn)).node.touch
                            method chain o).params
                        = some ((addAux f (path.drop (e2 + 2)) (incr pCount) pn).node.touch
                            method chain (o.bind (fun p => ptrSub p .params))) := by
                      rw [Node.touch_params, AddResult.under_node]; rfl
                    have hnm : ((addAux f (path.drop (e2 + 2)) (incr pCount) pn).node.touch
                        method chain (o.bind (fun p => ptrSub p .params))).param
                        = (path.take (e2 + 1)).drop (e + 1) := by
                      rw [Node.touch_param, addAux_param]
                      exact not_not.mp hname
                    simp only [addAux, hne, hfs, hcs, if_false, if_true, hidx, hbound, hchild,
                      hnm, ne_eq, not_true_eq_false]
                    exact AddResult.under_twice method chain o _ _ _ _ a' (by simp)
                      (by rw [AddResult.under_node]; exact Node.child_setChild_same _ _ _) hih.1 hih.2
                · rename_i hpn
                  split at hr
                  · subst hr; simp at hst
                  · rename_i hw
                    subst hr
                    rw [AddResult.under_status] at hst
                    obtain ⟨a', hst', rfl⟩ := Status.under_returned hst
                    have hih := ihk (e2 + 2) (incr pCount)
                      (Node.newParam ((path.take (e2 + 1)).drop (e + 1))) a' hst'
                      (o.bind (fun p => ptrSub p .params)) (incr pc')
                    have hchild : ((AddResult.under n .params
                          (addAux f (path.drop (e2 + 2)) (incr pCount)
                            (Node.newParam ((path.take (e2 + 1)).drop (e + 1))))).node.touch
                            method chain o).params
                        = some ((addAux f (path.drop (e2 + 2)) (incr pCount)
                            (Node.newParam ((path.take (e2 + 1)).drop (e + 1)))).node.touch
                            method chain (o.bind (fun p => ptrSub p .params))) := by
                      rw [Node.touch_params, AddResult.under_node]; rfl
                    have hnm : ((addAux f (path.drop (e2 + 2)) (incr pCount)
                          (Node.newParam ((path.take (e2 + 1)).drop (e + 1)))).node.touch
                        method chain (o.bind (fun p => ptrSub p .params))).param
                        = (path.take (e2 + 1)).drop (e + 1) := by
                      rw [Node.touch_param, addAux_param]; rfl
                    simp only [addAux, hne, hfs, hcs, if_false, if_true, hidx, hbound, hchild,
                      hnm, ne_eq, not_true_eq_false]
                    exact AddResult.under_twice method chain o _ _ _ _ a' (by simp)
                      (by rw [AddResult.under_node]; exact Node.child_setChild_same _ _ _) hih.1 hih.2
            · rename_i hidx
              split at hr
              · rename_i pn hpn
                split at hr
                · subst hr; simp at hst
                · rename_i hname
                  subst hr
                  simp only [Status.returned.injEq] at hst
                  subst hst
                  have hchild : (n.touch method chain o).params
                      = some (pn.touch method chain (o.bind (fun p => ptrSub p .params))) := by
                    rw [Node.touch_params, hpn]; rfl
                  have hnm : (pn.touch method chain (o.bind (fun p => ptrSub p .params))).param
                      = path.drop (e + 1) := by
                    rw [Node.touch_param]; exact not_not.mp hname
                  simp only [addAux, hne, hfs, hcs, if_false, if_true, hidx, hchild, hnm,
                    ne_eq, not_true_eq_false, Status.again_params, and_self]
              · rename_i hpn
                split at hr
                · subst hr; simp at hst
                · rename_i hw
                  subst hr
                  simp only [Status.returned.injEq] at hst
                  subst hst
                  have hchild : ((n.setParams (Node.newParam (path.drop (e + 1)))).touch
                        method chain o).params
                      = some ((Node.newParam (path.drop (e + 1))).touch method chain
                          (o.bind (fun p => ptrSub p .params))) := by
                    rw [Node.touch_params]; rfl
                  have hnm : ((Node.newParam (path.drop (e + 1))).touch method chain
                      (o.bind (fun p => ptrSub p .params))).param = path.drop (e + 1) := by
                    rw [Node.touch_param]; rfl
                  simp only [addAux, hne, hfs, hcs, if_false, if_true, hidx, hchild, hnm,
                    ne_eq, not_true_eq_false, Status.again_params, and_self]
          · -- star
            rename_i hcc
            have hstar' : c = star := by
              rcases hc with hc | hc | hc
              · contradiction
              · contradiction
              · exact hc
            subst hstar'
            split at hr
            · subst hr; simp at hst
            · rename_i hdrop
              split at hr
              · subst hr; simp at hst
              · split at hr
                · subst hr; simp at hst
                · subst hr
                  simp only [Status.returned.injEq] at hst
                  subst hst
                  have hchild : ((n.setWild Node.empty).touch method chain o).wild
                      = some (Node.empty.touch method chain
                          (o.bind (fun p => ptrSub p .wild))) := by
                    rw [Node.touch_wild]; rfl
                  simp only [addAux, hne, hfs, hcs, hcc, if_false, hdrop, hchild,
                    Status.again_wild, and_self]
      · -- no structural byte
        rename_i hfs
        split at hr
        · rename_i c hget
          subst hr
          have hchild : mapGet path (n.touch method chain o).static
              = some (c.touch method chain (o.bind (fun p => ptrSub p (.static path)))) := by
            rw [Node.touch_static, hget]; rfl
          simp only [addAux, hne, hfs, if_false, hchild]
          exact ⟨trivial, Status.again_leaf hst (by simp)⟩
        · rename_i hget
          subst hr
          have hchild : mapGet path ((n.setStatic path Node.empty).touch method chain o).static
              = some (Node.empty.touch method chain
                  (o.bind (fun p => ptrSub p (.static path)))) := by
            rw [Node.touch_static]
            simp [Node.setStatic, Node.static, mapGet_mapSet_same]
          simp only [addAux, hne, hfs, if_false, hchild]
          exact ⟨trivial, Status.again_leaf hst (by simp)⟩

theorem ptrSub_cond (o : Option Ptr) (s : Step) (X : Option Ptr) :
    ((o.bind (fun p => ptrSub p s)).isSome ∧ X = o.bind (fun p => ptrSub p s)) ↔
      (o.isSome ∧ X.map (s :: ·) = o) := by
  cases o with
  | none => simp
  | some p =>
    cases p with
    | nil => cases X <;> simp [ptrSub]
    | cons s' q =>
      by_cases hs : s' = s
      · subst hs
        cases X <;> simp [ptrSub, eq_comm]
      · cases X with
        | none => simp [ptrSub, hs]
        | some x => simp [ptrSub, hs, Ne.symm hs]

theorem ptrSub_nil (o : Option Ptr) (s : Step) :
    o.bind (fun p => ptrSub p s) = some [] ↔ o = some [s] := by
  cases o with
  | none => simp
  | some p =>
    cases p with
    | nil => simp [ptrSub]
    | cons s' q =>
      by_cases hs : s' = s
      · subst hs; simp [ptrSub]
      · simp [ptrSub, hs]

theorem findRouteAux_touch (fuel : Nat) (m : Str) (c : HandlersChain) (o : Option Ptr)
    (context : Ctx) (n : Node) (method path : Str) :
    findRouteAux fuel context (n.touch m c o) method path =
      match findRouteAux fuel context n method path with
      | .returned ctx1 =>
        .returned (if method = m ∧ o.isSome ∧ findNodeAux fuel n path = o
          then { ctx1 with handlers := c } else ctx1)
      | r => r := by
  induction fuel generalizing o context n path with
  | zero => rfl
  | succ f ih =>
    have hnone : ¬ (method = m ∧ o.isSome = true ∧ none = o) := by
      rintro ⟨-, h1, h2⟩
      rw [← h2] at h1; simp at h1
    have hleaf : ∀ (s : Step) (w : Node) (ctx0 : Ctx),
        ({ ctx0 with handlers := (w.touch m c (o.bind (fun p => ptrSub p s))).chainFor method }
          : Ctx) =
        if method = m ∧ o.isSome = true ∧ some [s] = o
          then { ({ ctx0 with handlers := w.chainFor method } : Ctx) with handlers := c }
          else { ctx0 with handlers := w.chainFor method } := by
      intro s w ctx0
      simp only [Node.touch_chainFor, ptrSub_nil]
      by_cases hc : o = some [s] ∧ m = method
      · obtain ⟨rfl, rfl⟩ := hc
        simp
      · have : ¬ (method = m ∧ o.isSome = true ∧ some [s] = o) := by
          rintro ⟨rfl, -, h⟩
          exact hc ⟨h.symm, rfl⟩
        simp only [if_neg hc, if_neg this]
    cases hi : indexWhere (· = slash) path with
    | some e =>
      cases hs : mapGet (path.take (e + 1)) n.static with
      | some node =>
        simp only [findRouteAux, findNodeAux, Node.touch_static, hi, hs, Option.map_some', ih]
        cases findRouteAux f context node method (path.drop (e + 1)) with
        | returned ctx1 =>
          simp only [ptrSub_cond o (.static (path.take (e + 1)))
            (findNodeAux f node (path.drop (e + 1)))]
        | panicked => rfl
        | outOfFuel => rfl
      | none =>
        cases hp : n.params with
        | some pn =>
          simp only [findRouteAux, findNodeAux, Node.touch_static, Node.touch_params, hi, hs, hp,
            Option.map_some', Option.map_none', Node.touch_param]
          split
          · rfl
          · rw [ih]
            cases findRouteAux f (context.bind pn.param (path.take e)) pn method
                (path.drop (e + 1)) with
            | returned ctx1 =>
              simp only [ptrSub_cond o .params (findNodeAux f pn (path.drop (e + 1)))]
            | panicked => rfl
            | outOfFuel => rfl
        | none =>
          cases hw : n.wild with
          | some w =>
            simp only [findRouteAux, findNodeAux, Node.touch_static, Node.touch_params,
              Node.touch_wild, hi, hs, hp, hw, Option.map_some', Option.map_none']
            rw [hleaf .wild w context]
          | none =>
            simp only [findRouteAux, findNodeAux, Node.touch_static, Node.touch_params,
              Node.touch_wild, hi, hs, hp, hw, Option.map_none', if_neg hnone]
    | none =>
      cases hs : mapGet path n.static with
      | some node =>
        simp only [findRouteAux, findNodeAux, Node.touch_static, hi, hs, Option.map_some']
        rw [hleaf (.static path) node context]
      | none =>
        cases hp : n.params with
        | some pn =>
          simp only [findRouteAux, findNodeAux, Node.touch_static, Node.touch_params, hi, hs, hp,
            Option.map_some', Option.map_none', Node.touch_param]
          split
          · rfl
          · rw [hleaf .params pn context]
            by_cases hc : method = m ∧ o.isSome = true ∧ some [Step.params] = o
            · simp only [if_pos hc]; rfl
            · simp only [if_neg hc]
        | none =>
          cases hw : n.wild with
          | some w =>
            simp only [findRouteAux, findNodeAux, Node.touch_static, Node.touch_params,
              Node.touch_wild, hi, hs, hp, hw, Option.map_some', Option.map_none']
            rw [hleaf .wild w context]
          | none =>
            by_cases hb : path = blank
            · simp only [findRouteAux, findNodeAux, Node.touch_static, Node.touch_params,
                Node.touch_wild, hi, hs, hp, hw, Option.map_none', if_pos hb,
                Node.touch_chainFor]
              by_cases hc : o = some [] ∧ m = method
              · obtain ⟨rfl, rfl⟩ := hc
                simp
              · have : ¬ (method = m ∧ o.isSome = true ∧ some [] = o) := by
                  rintro ⟨rfl, -, h⟩
                  exact hc ⟨h.symm, rfl⟩
                simp only [if_neg hc, if_neg this]
            · simp only [findRouteAux, findNodeAux, Node.touch_static, Node.touch_params,
                Node.touch_wild, hi, hs, hp, hw, Option.map_none', if_neg hb, if_neg hnone]

theorem findRouteAux_source (fuel : Nat) (context ctx1 : Ctx) (n : Node) (method path : Str)
    (q : Ptr) (h : findRouteAux fuel context n method path = .returned ctx1)
    (hq : findNodeAux fuel n path = some q) : ctx1.handlers = n.chainAt q method := by
  induction fuel generalizing context n path q with
  | zero => simp [findNodeAux] at hq
  | succ f ih =>
    simp only [findRouteAux] at h
    simp only [findNodeAux] at hq
    cases hi : indexWhere (· = slash) path with
    | some e =>
      simp only [hi] at h hq
      cases hs : mapGet (path.take (e + 1)) n.static with
      | some node =>
        simp only [hs, Option.map_eq_some'] at h hq
        obtain ⟨q', hq', rfl⟩ := hq
        rw [Node.chainAt_cons]
        simp only [Node.child, hs]
        exact ih _ _ _ _ h hq'
      | none =>
        simp only [hs] at h hq
        cases hp : n.params with
        | some pn =>
          simp only [hp, Option.map_eq_some'] at h hq
          obtain ⟨q', hq', rfl⟩ := hq
          rw [Node.chainAt_cons]
          simp only [Node.child, hp]
          split at h
          · simp at h
          · exact ih _ _ _ _ h hq'
        | none =>
          simp only [hp] at h hq
          cases hw : n.wild with
          | some w =>
            simp only [hw, Option.some.injEq, Outcome.returned.injEq] at h hq
            subst h hq
            simp [Node.chainAt_cons, Node.child, hw, Node.chainAt_nil]
          | none => simp [hw] at hq
    | none =>
      simp only [hi] at h hq
      cases hs : mapGet path n.static with
      | some node =>
        simp only [hs, Option.some.injEq, Outcome.returned.injEq] at h hq
        subst h hq
        simp [Node.chainAt_cons, Node.child, hs, Node.chainAt_nil]
      | none =>
        simp only [hs] at h hq
        cases hp : n.params with
        | some pn =>
          simp only [hp, Option.some.injEq] at h hq
          subst hq
          split at h
          · simp at h
          · simp only [Outcome.returned.injEq] at h
            subst h
            simp [Node.chainAt_cons, Node.child, hp, Node.chainAt_nil, Ctx.bind]
        | none =>
          simp only [hp] at h hq
          cases hw : n.wild with
          | some w =>
            simp only [hw, Option.some.injEq, Outcome.returned.injEq] at h hq
            subst h hq
            simp [Node.chainAt_cons, Node.child, hw, Node.chainAt_nil]
          | none =>
            simp only [hw] at h hq
            split at hq
            · rename_i hb
              simp only [Option.some.injEq] at hq
              subst hq
              simp only [hb, if_true, Outcome.returned.injEq] at h
              subst h
              simp [Node.chainAt_nil]
            · simp at hq

/-! ## Lookups that read no chain, and routes that end on a parameter -/

theorem findRouteAux_dead_end (fuel : Nat) (context ctx1 : Ctx) (n : Node) (method path : Str)
    (h : findRouteAux fuel context n method path = .returned ctx1)
    (hq : findNodeAux fuel n path = none) : ctx1.handlers = context.handlers := by
  induction fuel generalizing context n path with
  | zero => simp [findRouteAux] at h
  | succ f ih =>
    simp only [findRouteAux] at h
    simp only [findNodeAux] at hq
    cases hi : indexWhere (· = slash) path with
    | some e =>
      simp only [hi] at h hq
      cases hs : mapGet (path.take (e + 1)) n.static with
      | some node =>
        simp only [hs, Option.map_eq_none'] at h hq
        exact ih _ _ _ h hq
      | none =>
        simp only [hs] at h hq
        cases hp : n.params with
        | some pn =>
          simp only [hp, Option.map_eq_none'] at h hq
          split at h
          · simp at h
          · have := ih _ _ _ h hq
            simpa [Ctx.bind] using this
        | none =>
          simp only [hp] at h hq
          cases hw : n.wild with
          | some w => simp [hw] at hq
          | none =>
            simp only [hw, Outcome.returned.injEq] at h
            rw [← h]
    | none =>
      simp only [hi] at h hq
      cases hs : mapGet path n.static with
      | some node => simp [hs] at hq
      | none =>
        simp only [hs] at h hq
        cases hp : n.params with
        | some pn => simp [hp] at hq
        | none =>
          simp only [hp] at h hq
          cases hw : n.wild with
          | some w => simp [hw] at hq
          | none =>
            simp only [hw] at h hq
            split at hq
            · simp at hq
            · rename_i hb
              simp only [if_neg hb, Outcome.returned.injEq] at h
              rw [← h]

theorem register_param_route (ds : List Str) (p t method : Str) (chain : HandlersChain)
    (hds : ∀ d ∈ ds, Plain d) (hp : SlashFree p) (ht : Plain t) (hne : t ≠ []) :
    register Node.empty ⟨method, dirs ds ++ colon :: (p ++ slash :: t), chain⟩ =
      some (Node.empty.graft (dirPtr ds) (Node.empty.setParams
        ((Node.newParam p).setStatic t (Node.empty.addChain method chain)))) := by
  have ha1 : add (colon :: (p ++ slash :: t)) 0 Node.empty =
      ⟨Node.empty.setParams ((Node.newParam p).setStatic t Node.empty), incr 0,
        .returned [.params, .static t]⟩ := by
    rw [add_param_slash t 0 Node.empty hp]
    show AddResult.under Node.empty .params (add t (incr 0) (Node.newParam p)) = _
    rw [add_plain _ _ ht hne]
    rfl
  have hadd := add_dirs ds (colon :: (p ++ slash :: t)) 0 Node.empty hds
  rw [Node.descend_empty, ha1] at hadd
  have hst : (add (dirs ds ++ colon :: (p ++ slash :: t)) 0 Node.empty).status
      = .returned (dirPtr ds ++ [.params, .static t]) := by
    rw [hadd]; rfl
  rw [register_of_returned (r := ⟨method, dirs ds ++ colon :: (p ++ slash :: t), chain⟩) hst]
  simp only [hadd, AddResult.lift_node, Node.addChainAt, Node.modifyAt_graft]
  have hmod : (Node.empty.setParams ((Node.newParam p).setStatic t Node.empty)).modifyAt
      (fun x => x.addChain method chain) [.params, .static t] =
      Node.empty.setParams ((Node.newParam p).setStatic t (Node.empty.addChain method chain)) := by
    simp [Node.modifyAt, Node.child, Node.setParams, Node.params, Node.setStatic, Node.static,
      mapGet_mapSet_same, Node.setChild, mapSet_mapSet, Node.wild, Node.chains, Node.param]
  rw [hmod]

/-! ## A final parameter, with and without a trailing separator -/

theorem Node.descend_of_at? {n x : Node} {p : Ptr} (h : n.at? p = some x) : n.descend p = x := by
  induction p generalizing n with
  | nil => simpa [Node.at?] using h
  | cons s p ih =>
    simp only [Node.at?] at h
    cases hc : n.child s with
    | none => simp [hc] at h
    | some c =>
      simp only [hc] at h
      simp [Node.descend, hc, ih h]

theorem add_param_end_returned {p : Str} {pCount : Nat} {n : Node} {a : Ptr} (hp : SlashFree p)
    (h : (add (colon :: p) pCount n).status = .returned a) :
    a = [.params] ∧ (add (colon :: p) pCount n).node = n.setChild .params
      ((n.params).getD (Node.newParam p)) ∧ ∀ pn, n.params = some pn → pn.param = p := by
  rw [add_param_end pCount n hp] at h ⊢
  cases hpar : n.params with
  | some pn =>
    simp only [hpar] at h ⊢
    by_cases hname : pn.param = p
    · simp only [hname, ne_eq, not_true_eq_false, if_false, Status.returned.injEq] at h ⊢
      refine ⟨h.symm, ?_, fun pn' hpn' => by cases hpn'; exact hname⟩
      exact (Node.setChild_of_child (s := .params) hpar).symm
    · simp [hname] at h
  | none =>
    simp only [hpar] at h ⊢
    cases hw : n.wild with
    | some w => simp [hw] at h
    | none =>
      simp only [hw, Status.returned.injEq] at h ⊢
      exact ⟨h.symm, rfl, fun pn hpn => by cases hpn⟩

theorem add_param_slash_end_returned {p : Str} {pCount : Nat} {n : Node} {a : Ptr}
    (hp : SlashFree p) (h : (add (colon :: (p ++ [slash])) pCount n).status = .returned a) :
    a = [.params] ∧ (add (colon :: (p ++ [slash])) pCount n).node = n.setChild .params
      ((n.params).getD (Node.newParam p)) := by
  rw [add_param_slash [] pCount n hp] at h ⊢
  cases hpar : n.params with
  | some pn =>
    simp only [hpar] at h ⊢
    by_cases hname : pn.param = p
    · simp only [hname, ne_eq, not_true_eq_false, if_false] at h ⊢
      rw [add_blank] at h ⊢
      simp only [AddResult.under, Status.returned.injEq] at h ⊢
      exact ⟨h.symm, rfl⟩
    · simp [hname] at h
  | none =>
    simp only [hpar] at h ⊢
    cases hw : n.wild with
    | some w => simp [hw] at h
    | none =>
      simp only [hw] at h ⊢
      rw [add_blank] at h ⊢
      simp only [AddResult.under, Status.returned.injEq] at h ⊢
      exact ⟨h.symm, rfl⟩

theorem AddResult.lift_returned {n : Node} {p a : Ptr} {r : AddResult}
    (h : (AddResult.lift n p r).status = .returned a) :
    ∃ q, r.status = .returned q ∧ a = p ++ q := by
  simp only [AddResult.lift] at h
  cases hr : r.status with
  | returned q => simp only [hr, Status.returned.injEq] at h; exact ⟨q, rfl, h.symm⟩
  | panicked why => simp [hr] at h
  | outOfFuel => simp [hr] at h

/-! ## Passes of the lookup through `START` -/

theorem indexWhere_slash_some {path : Str} {e : Nat}
    (h : indexWhere (· = slash) path = some e) :
    ∃ pre rest, path = pre ++ slash :: rest ∧ pre.length = e ∧ SlashFree pre := by
  induction path generalizing e with
  | nil => simp [indexWhere] at h
  | cons a as ih =>
    simp only [indexWhere] at h
    split at h
    · rename_i ha
      simp only [Option.some.injEq] at h
      subst h
      have : a = slash := by simpa using ha
      subst this
      exact ⟨[], as, rfl, rfl, by simp [SlashFree]⟩
    · rename_i ha
      cases hi : indexWhere (· = slash) as with
      | none => simp [hi] at h
      | some r =>
        simp only [hi, Option.map_some', Option.some.injEq] at h
        subst h
        obtain ⟨pre, rest, rfl, hlen, hpre⟩ := ih hi
        refine ⟨a :: pre, rest, rfl, by simp [hlen], ?_⟩
        intro x hx
        rcases List.mem_cons.mp hx with rfl | hx
        · simpa using ha
        · exact hpre x hx

theorem count_slash_of_slashFree {s : Str} (h : SlashFree s) : s.count slash = 0 :=
  List.count_eq_zero.mpr (fun hm => h slash hm rfl)

theorem restart_path {path : Str} {e : Nat} (h : indexWhere (· = slash) path = some e) :
    path.drop (e + 1) <:+ path ∧ (path.drop (e + 1)).length < path.length ∧
      (path.drop (e + 1)).count slash + 1 = path.count slash := by
  obtain ⟨pre, rest, rfl, rfl, hpre⟩ := indexWhere_slash_some h
  have hd : List.drop (pre.length + 1) (pre ++ slash :: rest) = rest := by
    rw [List.drop_append_eq_append_drop]; simp
  rw [hd]
  refine ⟨⟨pre ++ [slash], by simp⟩, by simp; omega, ?_⟩
  simp [List.count_append, count_slash_of_slashFree hpre, List.count_cons]

theorem findRouteAux_passes (f1 f2 : Nat) (context : Ctx) (n : Node) (method path : Str)
    (h1 : path.count slash < f1) (h2 : path.count slash < f2) :
    findRouteAux f1 context n method path = findRouteAux f2 context n method path ∧
      findRouteAux f1 context n method path ≠ .outOfFuel := by
  induction f1 generalizing f2 context n path with
  | zero => omega
  | succ a ih =>
    cases f2 with
    | zero => omega
    | succ b =>
      cases hi : indexWhere (· = slash) path with
      | none =>
        simp only [findRouteAux, hi, true_and]
        repeat' split
        all_goals simp
      | some e =>
        have hr := (restart_path hi).2.2
        have key : ∀ c x, findRouteAux a c x method (path.drop (e + 1))
            = findRouteAux b c x method (path.drop (e + 1)) ∧
            findRouteAux a c x method (path.drop (e + 1)) ≠ .outOfFuel :=
          fun c x => ih b c x _ (by omega) (by omega)
        simp only [findRouteAux, hi]
        cases mapGet (path.take (e + 1)) n.static with
        | some node => exact key _ _
        | none =>
          cases n.params with
          | some pn =>
            simp only []
            split
            · simp
            · exact key _ _
          | none =>
            cases n.wild <;> simp

theorem findRouteAux_returns (fuel : Nat) (context : Ctx) (n : Node) (method path : Str)
    (hfuel : path.count slash < fuel)
    (hcap : context.params.length + path.count slash + 1 ≤ context.cap) :
    ∃ ctx1, findRouteAux fuel context n method path = .returned ctx1 ∧
      ctx1.params.length ≤ context.params.length + path.count slash + 1 ∧
      ctx1.cap = context.cap := by
  induction fuel generalizing context n path with
  | zero => omega
  | succ f ih =>
    have hc : ¬ (context.params.length + 1 > context.cap) := by omega
    cases hi : indexWhere (· = slash) path with
    | none =>
      simp only [findRouteAux, hi]
      cases mapGet path n.static with
      | some node => exact ⟨_, rfl, Nat.le_trans (Nat.le_add_right _ _) (Nat.le_add_right _ _), rfl⟩
      | none =>
        cases n.params with
        | some pn =>
          simp only [if_neg hc]
          exact ⟨_, rfl, by simp only [Ctx.bind, List.length_append, List.length_singleton]; omega, rfl⟩
        | none =>
          cases n.wild with
          | some w => exact ⟨_, rfl, Nat.le_trans (Nat.le_add_right _ _) (Nat.le_add_right _ _), rfl⟩
          | none =>
            simp only []
            split
            · exact ⟨_, rfl, Nat.le_trans (Nat.le_add_right _ _) (Nat.le_add_right _ _), rfl⟩
            · exact ⟨_, rfl, Nat.le_trans (Nat.le_add_right _ _) (Nat.le_add_right _ _), rfl⟩
    | some e =>
      have hr := (restart_path hi).2.2
      simp only [findRouteAux, hi]
      cases mapGet (path.take (e + 1)) n.static with
      | some node =>
        obtain ⟨ctx1, h1, h2, h3⟩ := ih context node (path.drop (e + 1)) (by omega) (by omega)
        exact ⟨ctx1, h1, by omega, h3⟩
      | none =>
        cases n.params with
        | some pn =>
          simp only [if_neg hc]
          obtain ⟨ctx1, h1, h2, h3⟩ := ih (context.bind pn.param (path.take e)) pn
            (path.drop (e + 1)) (by omega)
            (by simp only [Ctx.bind, List.length_append, List.length_singleton]; omega)
          refine ⟨ctx1, h1, ?_, h3⟩
          simp only [Ctx.bind, List.length_append, List.length_singleton] at h2
          omega
        | none =>
          cases n.wild with
          | some w => exact ⟨_, rfl, Nat.le_trans (Nat.le_add_right _ _) (Nat.le_add_right _ _), rfl⟩
          | none => exact ⟨_, rfl, Nat.le_trans (Nat.le_add_right _ _) (Nat.le_add_right _ _), rfl⟩

theorem findNodeAux_length (fuel : Nat) (n : Node) (path : Str) (q : Ptr)
    (h : findNodeAux fuel n path = some q) : q.length ≤ path.count slash + 1 := by
  induction fuel generalizing n path q with
  | zero => simp [findNodeAux] at h
  | succ f ih =>
    cases hi : indexWhere (· = slash) path with
    | none =>
      simp only [findNodeAux, hi] at h
      cases hs : mapGet path n.static with
      | some node => simp only [hs, Option.some.injEq] at h; subst h; simp
      | none =>
        cases hp : n.params with
        | some pn => simp only [hs, hp, Option.some.injEq] at h; subst h; simp
        | none =>
          cases hw : n.wild with
          | some w => simp only [hs, hp, hw, Option.some.injEq] at h; subst h; simp
          | none =>
            simp only [hs, hp, hw] at h
            split at h
            · simp only [Option.some.injEq] at h; subst h; simp
            · simp at h
    | some e =>
      have hr := (restart_path hi).2.2
      simp only [findNodeAux, hi] at h
      cases hs : mapGet (path.take (e + 1)) n.static with
      | some node =>
        simp only [hs, Option.map_eq_some'] at h
        obtain ⟨q', hq', rfl⟩ := h
        have := ih _ _ _ hq'
        simp only [List.length_cons]; omega
      | none =>
        cases hp : n.params with
        | some pn =>
          simp only [hs, hp, Option.map_eq_some'] at h
          obtain ⟨q', hq', rfl⟩ := h
          have := ih _ _ _ hq'
          simp only [List.length_cons]; omega
        | none =>
          cases hw : n.wild with
          | some w => simp only [hs, hp, hw, Option.some.injEq] at h; subst h; simp
          | none => simp [hs, hp, hw] at h

theorem count_slash_le_length (path : Str) : path.count slash ≤ path.length :=
  List.count_le_length _ _

/-! ## The counter of `add` and the parameter edges of a trie -/

theorem AddResult.under_pCount (n : Node) (s : Step) (r : AddResult) :
    (AddResult.under n s r).pCount = r.pCount := rfl

theorem paramSteps_cons (s : Step) (q : Ptr) :
    paramSteps (s :: q) = paramSteps [s] + paramSteps q := by
  cases s <;> simp [paramSteps]; omega

theorem addAux_pCount (fuel : Nat) (path : Str) (pCount : Nat) (n : Node) (hpc : pCount < 256) :
    ∀ a, (addAux fuel path pCount n).status = .returned a →
      (addAux fuel path pCount n).pCount = (pCount + paramSteps a) % 256 := by
  induction fuel generalizing path pCount n with
  | zero => intro a h; simp [addAux] at h
  | succ f ih =>
    have hi : incr pCount < 256 := Nat.mod_lt _ (by decide)
    have hunder : ∀ (s : Step) (k pc : Nat) (x : Node) (a : Ptr), pc < 256 →
        (AddResult.under n s (addAux f (path.drop k) pc x)).status = .returned a →
        (AddResult.under n s (addAux f (path.drop k) pc x)).pCount
          = (pc + (paramSteps a - paramSteps [s])) % 256 := by
      intro s k pc x a hpc' h
      rw [AddResult.under_status] at h
      obtain ⟨q, hq, rfl⟩ := Status.under_returned h
      rw [AddResult.under_pCount, ih _ _ _ hpc' q hq, paramSteps_cons]
      simp
    simp only [addAux]
    split
    · intro a h
      simp only [Status.returned.injEq] at h
      subst h
      simp [paramSteps, Nat.mod_eq_of_lt hpc]
    · split
      · split
        · split
          · intro a h
            rw [hunder _ _ _ _ a hpc h]
            obtain ⟨q, -, rfl⟩ := Status.under_returned (by rw [← AddResult.under_status]; exact h)
            simp [paramSteps]
          · intro a h
            rw [hunder _ _ _ _ a hpc h]
            obtain ⟨q, -, rfl⟩ := Status.under_returned (by rw [← AddResult.under_status]; exact h)
            simp [paramSteps]
        · split
          · split
            · split
              · intro a h; simp at h
              · split
                · split
                  · intro a h; simp at h
                  · intro a h
                    rw [hunder _ _ _ _ a hi h]
                    obtain ⟨q, -, rfl⟩ :=
                      Status.under_returned (by rw [← AddResult.under_status]; exact h)
                    simp only [paramSteps, incr]
                    omega
                · split
                  · intro a h; simp at h
                  · intro a h
                    rw [hunder _ _ _ _ a hi h]
                    obtain ⟨q, -, rfl⟩ :=
                      Status.under_returned (by rw [← AddResult.under_status]; exact h)
                    simp only [paramSteps, incr]
                    omega
            · split
              · split
                · intro a h; simp at h
                · intro a h
                  simp only [Status.returned.injEq] at h
                  subst h
                  simp [paramSteps, incr]
              · split
                · intro a h; simp at h
                · intro a h
                  simp only [Status.returned.injEq] at h
                  subst h
                  simp [paramSteps, incr]
          · split
            · intro a h; simp at h
            · split
              · intro a h; simp at h
              · split
                · intro a h; simp at h
                · intro a h
                  simp only [Status.returned.injEq] at h
                  subst h
                  simp [paramSteps, Nat.mod_eq_of_lt hpc]
      · split
        · intro a h
          simp only [Status.returned.injEq] at h
          subst h
          simp [paramSteps, Nat.mod_eq_of_lt hpc]
        · intro a h
          simp only [Status.returned.injEq] at h
          subst h
          simp [paramSteps, Nat.mod_eq_of_lt hpc]

theorem add_pCount {path : Str} {n : Node} {a : Ptr} (h : (add path 0 n).status = .returned a)
    (ha : paramSteps a < 256) : (add path 0 n).pCount = paramSteps a := by
  have := addAux_pCount (path.length + 1) path 0 n (by decide) a h
  simp only [add]
  rw [this, Nat.zero_add, Nat.mod_eq_of_lt ha]


theorem Node.ParamDepth.mono {B B' : Nat} {n : Node} (h : n.ParamDepth B) (hB : B ≤ B') :
    n.ParamDepth B' := fun q x hx => Nat.le_trans (h q x hx) hB

theorem Node.Fresh.paramDepth_any {n : Node} (h : n.Fresh) (B : Nat) : n.ParamDepth B := by
  intro q x hx
  cases q with
  | nil => exact Nat.zero_le _
  | cons s q => simp [Node.at?, h.child_eq_none s] at hx

theorem Node.ParamDepth.step {B : Nat} {n c : Node} {s : Step} (h : n.ParamDepth B)
    (hc : n.child s = some c) : paramSteps [s] ≤ B ∧ c.ParamDepth (B - paramSteps [s]) := by
  refine ⟨h [s] c (by simp [Node.at?, hc]), ?_⟩
  intro q x hx
  have := h (s :: q) x (by simp [Node.at?, hc, hx])
  rw [paramSteps_cons] at this
  omega

theorem Node.ParamDepth.with_setChild {B : Nat} {n c : Node} {s : Step} (h : n.ParamDepth B)
    (hs : paramSteps [s] ≤ B) (hc : c.ParamDepth (B - paramSteps [s])) :
    (n.setChild s c).ParamDepth B := by
  intro q x hx
  cases q with
  | nil => exact Nat.zero_le _
  | cons s' q =>
    by_cases hss : s' = s
    · subst hss
      rw [Node.at?_setChild] at hx
      have := hc q x hx
      rw [paramSteps_cons]
      omega
    · simp only [Node.at?, Node.child_setChild_ne _ _ hss] at hx
      exact h (s' :: q) x (by simpa [Node.at?] using hx)

theorem AddRel.paramDepth_keep {path : Str} {n n' : Node} {st : Status}
    (h : AddRel path n n' st) :
    ∀ a B, st = .returned a → n.ParamDepth B → paramSteps a ≤ B → n'.ParamDepth B := by
  induction h with
  | blank n => intro a B _ hn _; exact hn
  | panic => intro a B hp; cases hp
  | hitStatic => intro a B _ hn _; exact hn
  | newStatic path n _ _ _ =>
    intro a B hp hn ha
    cases hp
    exact hn.with_setChild ha (Node.fresh_empty.paramDepth_any _)
  | hitParam => intro a B _ hn _; exact hn
  | newParam path param n =>
    intro a B hp hn ha
    cases hp
    exact hn.with_setChild ha ((Node.fresh_newParam _).paramDepth_any _)
  | newWild =>
    intro a B hp hn ha
    cases hp
    exact hn.with_setChild ha (Node.fresh_empty.paramDepth_any _)
  | intoStatic _ _ _ _ _ st _ hc _ ih =>
    intro a B hp hn ha
    obtain ⟨q, rfl, rfl⟩ := Status.under_returned hp
    rw [paramSteps_cons] at ha
    have hs := hn.step hc
    exact hn.with_setChild hs.1 (ih q _ rfl hs.2 (by omega))
  | intoNewStatic _ _ _ _ st _ hc _ ih =>
    intro a B hp hn ha
    obtain ⟨q, rfl, rfl⟩ := Status.under_returned hp
    rw [paramSteps_cons] at ha
    exact hn.with_setChild (by omega)
      (ih q _ rfl (Node.fresh_empty.paramDepth_any _) (by omega))
  | intoParam _ _ _ _ _ st _ hpn _ ih =>
    intro a B hp hn ha
    obtain ⟨q, rfl, rfl⟩ := Status.under_returned hp
    rw [paramSteps_cons] at ha
    have hs := hn.step (s := .params) hpn
    exact hn.with_setChild hs.1 (ih q _ rfl hs.2 (by omega))
  | intoNewParam _ _ _ _ _ st _ _ _ _ ih =>
    intro a B hp hn ha
    obtain ⟨q, rfl, rfl⟩ := Status.under_returned hp
    rw [paramSteps_cons] at ha
    exact hn.with_setChild (by omega)
      (ih q _ rfl ((Node.fresh_newParam _).paramDepth_any _) (by omega))

theorem Node.at?_of_addChainAt (n : Node) (a : Ptr) (method : Str) (chain : HandlersChain)
    (q : Ptr) (x : Node) (hx : (n.addChainAt a method chain).at? q = some x) :
    ∃ x', n.at? q = some x' := by
  induction a generalizing n q x with
  | nil =>
    cases q with
    | nil => exact ⟨_, rfl⟩
    | cons s q =>
      simp only [Node.addChainAt, Node.modifyAt, Node.at?, Node.child_addChain] at hx
      exact ⟨x, by simpa [Node.at?] using hx⟩
  | cons s a ih =>
    simp only [Node.addChainAt, Node.modifyAt] at hx
    cases hc : n.child s with
    | none =>
      simp only [hc] at hx
      exact ⟨x, hx⟩
    | some c =>
      simp only [hc] at hx
      cases q with
      | nil => exact ⟨_, rfl⟩
      | cons s' q =>
        by_cases hss : s' = s
        · subst hss
          rw [Node.at?_setChild] at hx
          obtain ⟨x', hx'⟩ := ih c q x hx
          exact ⟨x', by simp [Node.at?, hc, hx']⟩
        · simp only [Node.at?, Node.child_setChild_ne _ _ hss] at hx
          exact ⟨x, by simpa [Node.at?] using hx⟩

theorem Node.ParamDepth.of_addChainAt {B : Nat} {n : Node} (h : n.ParamDepth B) (a : Ptr)
    (method : Str) (chain : HandlersChain) : (n.addChainAt a method chain).ParamDepth B := by
  intro q x hx
  obtain ⟨x', hx'⟩ := Node.at?_of_addChainAt n a method chain q x hx
  exact h q x' hx'

theorem findRouteAux_within (fuel : Nat) (B : Nat) (context : Ctx) (n : Node)
    (method path : Str) (hfuel : path.length < fuel) (hn : n.ParamDepth B)
    (hcap : context.params.length + B ≤ context.cap) :
    ∃ ctx1, findRouteAux fuel context n method path = .returned ctx1 ∧
      ctx1.params.length ≤ context.params.length + B := by
  induction fuel generalizing B context n path with
  | zero => omega
  | succ f ih =>
    cases hi : indexWhere (· = slash) path with
    | none =>
      simp only [findRouteAux, hi]
      cases mapGet path n.static with
      | some node => exact ⟨_, rfl, Nat.le_add_right _ _⟩
      | none =>
        cases hp : n.params with
        | some pn =>
          have hs := (hn.step (s := .params) hp).1
          simp only [paramSteps] at hs
          simp only []
          rw [if_neg (by omega)]
          exact ⟨_, rfl, by simp only [Ctx.bind, List.length_append, List.length_singleton]; omega⟩
        | none =>
          cases n.wild with
          | some w => exact ⟨_, rfl, Nat.le_add_right _ _⟩
          | none =>
            simp only []
            split
            · exact ⟨_, rfl, Nat.le_add_right _ _⟩
            · exact ⟨_, rfl, Nat.le_add_right _ _⟩
    | some e =>
      have hr := (restart_path hi).2.1
      simp only [findRouteAux, hi]
      cases hs : mapGet (path.take (e + 1)) n.static with
      | some node =>
        have hst := (hn.step (s := .static (path.take (e + 1))) hs).2
        simp only [paramSteps, Nat.sub_zero] at hst
        exact ih B context node _ (by omega) hst hcap
      | none =>
        cases hp : n.params with
        | some pn =>
          have hst := hn.step (s := .params) hp
          simp only [paramSteps] at hst
          simp only []
          rw [if_neg (by omega)]
          obtain ⟨ctx1, h1, h2⟩ := ih (B - 1) (context.bind pn.param (path.take e)) pn
            (path.drop (e + 1)) (by omega) hst.2
            (by simp only [Ctx.bind, List.length_append, List.length_singleton]; omega)
          refine ⟨ctx1, h1, ?_⟩
          simp only [Ctx.bind, List.length_append, List.length_singleton] at h2
          omega
        | none =>
          cases n.wild with
          | some w => exact ⟨_, rfl, Nat.le_add_right _ _⟩
          | none => exact ⟨_, rfl, Nat.le_add_right _ _⟩

/-! ## A `'*'` at the start of a segment -/

theorem firstStructural_le {path : Str} {e i : Nat} {c : Char}
    (h : firstStructural path = some (e, c)) (hi : path[i]? = some star) :
    e ≤ i ∧ path[e]? = some c := by
  obtain ⟨pre, rest, rfl, rfl, hpre, -⟩ := firstStructural_some h
  refine ⟨?_, by rw [List.getElem?_append_right (Nat.le_refl _)]; simp⟩
  by_contra hlt
  have hlt : i < pre.length := by omega
  rw [List.getElem?_append_left hlt] at hi
  exact (hpre star (List.getElem?_mem hi)).2.2 rfl

theorem indexWhere_slash_le {s : Str} {e j : Nat} (h : indexWhere (· = slash) s = some e)
    (hj : s[j]? = some slash) : e ≤ j := by
  obtain ⟨pre, rest, rfl, rfl, hpre⟩ := indexWhere_slash_some h
  by_contra hlt
  have hlt : j < pre.length := by omega
  rw [List.getElem?_append_left hlt] at hj
  exact hpre slash (List.getElem?_mem hj) rfl

theorem indexWhere_slash_none_at {s : Str} {j : Nat} (h : indexWhere (· = slash) s = none)
    (hj : s[j]? = some slash) : False := by
  induction s generalizing j with
  | nil => simp at hj
  | cons a as ih =>
    simp only [indexWhere] at h
    split at h
    · simp at h
    · rename_i ha
      cases j with
      | zero =>
        simp only [List.getElem?_cons_zero, Option.some.injEq] at hj
        exact ha (by simp [hj])
      | succ j =>
        simp only [List.getElem?_cons_succ] at hj
        exact ih (by simpa using h) hj

theorem StarChecked.drop {path : Str} {i k : Nat} (h : StarChecked path i) (hk : k ≤ i) :
    StarChecked (path.drop k) (i - k) := by
  obtain ⟨h1, h2, h3⟩ := h
  refine ⟨?_, ?_, ?_⟩
  · rw [List.getElem?_drop, Nat.add_sub_cancel' hk]; exact h1
  · intro j hj hc
    rw [List.getElem?_drop] at hc
    obtain ⟨m, hm1, hm2, hm3⟩ := h2 (k + j) (by omega) hc
    refine ⟨m - k, by omega, by omega, ?_⟩
    rw [List.getElem?_drop]
    have : k + (m - k) = m := by omega
    rw [this]; exact hm3
  · rw [List.length_drop]; omega

theorem addAux_star_checked (fuel : Nat) (path : Str) (pCount : Nat) (n : Node) (i : Nat)
    (hfuel : path.length < fuel) (h : StarChecked path i) :
    ∃ why, (addAux fuel path pCount n).status = .panicked why := by
  induction fuel generalizing path pCount n i with
  | zero => omega
  | succ f ih =>
    have hne : path ≠ [] := by
      intro hp
      have := h.2.2
      simp [hp] at this
    have hpos : 0 < path.length := List.length_pos.mpr hne
    have ihk : ∀ (s : Step) (k pc : Nat) (x : Node), k + 1 ≤ i →
        ∃ why, (AddResult.under n s (addAux f (path.drop (k + 1)) pc x)).status
          = .panicked why := by
      intro s k pc x hk
      obtain ⟨why, hw⟩ := ih (path.drop (k + 1)) pc x (i - (k + 1))
        (by simp only [List.length_drop]; omega) (h.drop hk)
      exact ⟨why, by rw [AddResult.under_status, hw]; rfl⟩
    simp only [addAux]
    split
    · rename_i hb
      exact absurd hb hne
    · split
      · rename_i e c hfs
        obtain ⟨hle, hat⟩ := firstStructural_le hfs h.1
        split
        · rename_i hcs
          subst hcs
          have hlt : e < i := by
            rcases Nat.lt_or_ge e i with hlt | hge
            · exact hlt
            · have : e = i := by omega
              subst this
              rw [h.1] at hat
              simp [star, slash] at hat
          split
          · exact ihk _ _ _ _ hlt
          · exact ihk _ _ _ _ hlt
        · split
          · rename_i hcc
            subst hcc
            have hlt : e < i := by
              rcases Nat.lt_or_ge e i with hlt | hge
              · exact hlt
              · have : e = i := by omega
                subst this
                rw [h.1] at hat
                simp [star, colon] at hat
            obtain ⟨m, hm1, hm2, hm3⟩ := h.2.1 e hlt hat
            have hj : (path.drop (e + 1))[m - (e + 1)]? = some slash := by
              rw [List.getElem?_drop]
              have : e + 1 + (m - (e + 1)) = m := by omega
              rw [this]; exact hm3
            split
            · rename_i e2 he2
              have hle2 := indexWhere_slash_le he2 hj
              split
              · exact ⟨_, rfl⟩
              · split
                · split
                  · exact ⟨_, rfl⟩
                  · exact ihk _ _ _ _ (by omega)
                · split
                  · exact ⟨_, rfl⟩
                  · exact ihk _ _ _ _ (by omega)
            · rename_i he2
              exact (indexWhere_slash_none_at he2 hj).elim
          · have hd : path.drop (e + 1) ≠ blank := by
              intro hd
              have := congrArg List.length hd
              have h3 := h.2.2
              simp only [List.length_drop, blank, List.length_nil] at this
              omega
            rw [if_pos hd]
            exact ⟨_, rfl⟩
      · rename_i hfs
        have := (firstStructural_none_plain hfs) star (List.getElem?_mem h.1)
        exact absurd rfl this.2.2

/-! ## Patterns whose route ends on the wild edge -/

theorem getLast?_of_drop {l : Str} {k : Nat} {x : Char} (h : (l.drop k).getLast? = some x) :
    l.getLast? = some x := by
  rw [List.getLast?_drop] at h
  split at h
  · simp at h
  · exact h

theorem getLast?_wild_of_cons {s : Step} {a : Ptr} (hs : s ≠ Step.wild)
    (h : (s :: a).getLast? = some Step.wild) : a.getLast? = some Step.wild := by
  cases a with
  | nil =>
    simp only [List.getLast?_singleton, Option.some.injEq] at h
    exact absurd h hs
  | cons b q => rwa [List.getLast?_cons_cons] at h

theorem getLast?_wild_cons (s : Step) {a : Ptr} (h : a.getLast? = some Step.wild) :
    (s :: a).getLast? = some Step.wild := by
  cases a with
  | nil => simp at h
  | cons b q => rwa [List.getLast?_cons_cons]

theorem addAux_wild_ends (fuel : Nat) (path : Str) (pCount : Nat) (n : Node) (a : Ptr)
    (hst : (addAux fuel path pCount n).status = .returned a)
    (hw : a.getLast? = some Step.wild) : path.getLast? = some star := by
  induction fuel generalizing path pCount n a with
  | zero => simp [addAux] at hst
  | succ f ih =>
    have ihk : ∀ (s : Step) (k pc : Nat) (x : Node), s ≠ Step.wild →
        (AddResult.under n s (addAux f (path.drop k) pc x)).status = .returned a →
        path.getLast? = some star := by
      intro s k pc x hs h
      rw [AddResult.under_status] at h
      obtain ⟨q, hq, rfl⟩ := Status.under_returned h
      exact getLast?_of_drop (ih _ _ _ q hq (getLast?_wild_of_cons hs hw))
    simp only [addAux] at hst
    split at hst
    · simp only [Status.returned.injEq] at hst
      subst hst
      simp at hw
    · split at hst
      · rename_i e c hfs
        obtain ⟨pre, rest, hpath, hlen, hpre, hc⟩ := firstStructural_some hfs
        split at hst
        · split at hst
          · exact ihk _ _ _ _ (by simp) hst
          · exact ihk _ _ _ _ (by simp) hst
        · rename_i hcs
          split at hst
          · split at hst
            · split at hst
              · simp at hst
              · split at hst
                · split at hst
                  · simp at hst
                  · exact ihk _ _ _ _ (by simp) hst
                · split at hst
                  · simp at hst
                  · exact ihk _ _ _ _ (by simp) hst
            · split at hst
              · split at hst
                · simp at hst
                · simp only [Status.returned.injEq] at hst
                  subst hst
                  simp at hw
              · split at hst
                · simp at hst
                · simp only [Status.returned.injEq] at hst
                  subst hst
                  simp at hw
          · rename_i hcc
            have hstar : c = star := by
              rcases hc with hc | hc | hc
              · contradiction
              · contradiction
              · exact hc
            subst hstar
            split at hst
            · simp at hst
            · rename_i hd
              have hd' : path.drop (e + 1) = [] := by simpa [blank] using hd
              have hrest : rest = [] := by
                rw [hpath, ← hlen, List.drop_append_eq_append_drop] at hd'
                simpa using hd'
              rw [hpath, hrest]
              exact List.getLast?_concat pre
      · split at hst
        · simp only [Status.returned.injEq] at hst
          subst hst
          simp at hw
        · simp only [Status.returned.injEq] at hst
          subst hst
          simp at hw

theorem no_colon_drop {path : Str} {i k : Nat}
    (h : ∀ j, j < i → path[j]? = some colon → ∃ m, j < m ∧ m < i ∧ path[m]? = some slash)
    (hk : k ≤ i) :
    ∀ j, j < i - k → (path.drop k)[j]? = some colon →
      ∃ m, j < m ∧ m < i - k ∧ (path.drop k)[m]? = some slash := by
  intro j hj hc
  rw [List.getElem?_drop] at hc
  obtain ⟨m, hm1, hm2, hm3⟩ := h (k + j) (by omega) hc
  refine ⟨m - k, by omega, by omega, ?_⟩
  rw [List.getElem?_drop]
  have : k + (m - k) = m := by omega
  rw [this]; exact hm3

theorem addAux_star_final (fuel : Nat) (path : Str) (pCount : Nat) (n : Node) (i : Nat)
    (a : Ptr) (hfuel : path.length < fuel) (hstar : path[i]? = some star)
    (hseg : ∀ j, j < i → path[j]? = some colon → ∃ m, j < m ∧ m < i ∧ path[m]? = some slash)
    (hlast : i + 1 = path.length)
    (hst : (addAux fuel path pCount n).status = .returned a) :
    a.getLast? = some Step.wild := by
  induction fuel generalizing path pCount n i a with
  | zero => omega
  | succ f ih =>
    have ihk : ∀ (s : Step) (k pc : Nat) (x : Node), k + 1 ≤ i →
        (AddResult.under n s (addAux f (path.drop (k + 1)) pc x)).status = .returned a →
        a.getLast? = some Step.wild := by
      intro s k pc x hk h
      rw [AddResult.under_status] at h
      obtain ⟨q, hq, rfl⟩ := Status.under_returned h
      apply getLast?_wild_cons
      exact ih (path.drop (k + 1)) pc x (i - (k + 1)) q
        (by simp only [List.length_drop]; omega)
        (by rw [List.getElem?_drop, Nat.add_sub_cancel' hk]; exact hstar)
        (no_colon_drop hseg hk)
        (by rw [List.length_drop]; omega) hq
    simp only [addAux] at hst
    split at hst
    · rename_i hb
      simp only [blank] at hb
      subst hb
      simp at hstar
    · split at hst
      · rename_i e c hfs
        obtain ⟨hle, hat⟩ := firstStructural_le hfs hstar
        split at hst
        · rename_i hcs
          subst hcs
          have hlt : e < i := by
            rcases Nat.lt_or_ge e i with hlt | hge
            · exact hlt
            · have : e = i := by omega
              subst this
              rw [hstar] at hat
              simp [star, slash] at hat
          split at hst
          · exact ihk _ _ _ _ hlt hst
          · exact ihk _ _ _ _ hlt hst
        · split at hst
          · rename_i hcc
            subst hcc
            have hlt : e < i := by
              rcases Nat.lt_or_ge e i with hlt | hge
              · exact hlt
              · have : e = i := by omega
                subst this
                rw [hstar] at hat
                simp [star, colon] at hat
            obtain ⟨m, hm1, hm2, hm3⟩ := hseg e hlt hat
            have hj : (path.drop (e + 1))[m - (e + 1)]? = some slash := by
              rw [List.getElem?_drop]
              have : e + 1 + (m - (e + 1)) = m := by omega
              rw [this]; exact hm3
            split at hst
            · rename_i e2 he2
              have hle2 := indexWhere_slash_le he2 hj
              split at hst
              · simp at hst
              · split at hst
                · split at hst
                  · simp at hst
                  · exact ihk _ _ _ _ (by omega) hst
                · split at hst
                  · simp at hst
                  · exact ihk _ _ _ _ (by omega) hst
            · rename_i he2
              exact (indexWhere_slash_none_at he2 hj).elim
          · split at hst
            · simp at hst
            · split at hst
              · simp at hst
              · split at hst
                · simp at hst
                · simp only [Status.returned.injEq] at hst
                  subst hst
                  rfl
      · rename_i hfs
        have := (firstStructural_none_plain hfs) star (List.getElem?_mem hstar)
        exact absurd rfl this.2.2

/-! ## The claims -/

/-- C1 (static-only exact match): on the trie built from the empty root by
registering routes whose patterns hold neither `':'` nor `'*'`, each with a
non-empty chain, `findRoute` on a context without chain returns, and the chain
it leaves is non-empty exactly when the path is, byte for byte, a pattern
registered under the method; the chain is then the one registered last for that
method and that pattern, and no binding is appended. -/
theorem static_exact_match (routes : List Route)
    (hroutes : ∀ r ∈ routes, SigilFree r.pattern ∧ r.chain ≠ [])
    (method path : Str) (context : Ctx) (hctx : context.handlers = []) :
    ∃ root context', registerAll Node.empty routes = some root ∧
      findRoute context root method path = .returned context' ∧
      (context'.handlers ≠ [] ↔ ∃ r ∈ routes, r.method = method ∧ r.pattern = path) ∧
      (∀ c, lastChain method path routes = some c → context'.handlers = c) ∧
      context'.params = context.params := by
  obtain ⟨root, hreg, hall⟩ := registerAll_staticOnly (fun r hr => (hroutes r hr).1)
    (Node.All.of_empty Node.staticOnly_empty)
  obtain ⟨ds, bare, hds, hb, rfl⟩ := split_dirs path
  have hfind := findRoute_staticOnly ds bare context root method hall hctx hds hb
  have hchain := registerAll_chainAt hreg ds bare hds hb
    (fun r hr _ => (hroutes r hr).1) method
  have hempty : Node.empty.chainAt (routePtr ds bare) method = [] := by
    simp [Node.chainAt, Node.fresh_empty.chainsAt_eq_nil, mapGet]
  rw [hempty] at hchain
  refine ⟨root, _, hreg, hfind, ?_, ?_, rfl⟩
  · simp only [hchain]
    constructor
    · intro hne
      cases hl : lastChain method (dirs ds ++ bare) routes with
      | none => simp [hl] at hne
      | some c =>
        obtain ⟨r, hr, hm, hp, -⟩ := lastChain_eq_some hl
        exact ⟨r, hr, hm, hp⟩
    · rintro ⟨r, hr, hm, hp⟩
      obtain ⟨c, hl⟩ := lastChain_isSome hr hm hp
      obtain ⟨r', hr', -, -, hc⟩ := lastChain_eq_some hl
      simp only [hl, Option.getD_some]
      exact hc ▸ (hroutes r' hr').2
  · intro c hl
    simp [hchain, hl]

/-- Witness of C1: one route `GET /a`, looked up on a fresh context. -/
theorem static_exact_match_witness :
    (∀ r ∈ [(⟨"GET".toList, "/a".toList, [1]⟩ : Route)], SigilFree r.pattern ∧ r.chain ≠ []) ∧
    ∃ root context', registerAll Node.empty [⟨"GET".toList, "/a".toList, [1]⟩] = some root ∧
      findRoute ⟨[], 0, []⟩ root "GET".toList "/a".toList = .returned context' ∧
      (context'.handlers ≠ [] ↔
        ∃ r ∈ [(⟨"GET".toList, "/a".toList, [1]⟩ : Route)],
          r.method = "GET".toList ∧ r.pattern = "/a".toList) ∧
      (∀ c, lastChain "GET".toList "/a".toList [⟨"GET".toList, "/a".toList, [1]⟩] = some c →
        context'.handlers = c) ∧
      context'.params = [] :=
  ⟨by decide, static_exact_match _ (by decide) _ _ ⟨[], 0, []⟩ rfl⟩

/-- Counterexample to C2 as stated: with `GET /a/` and `GET /a/:id` registered,
the lookup of `/a/` goes to the param child of the node of `/a/`: it leaves the
chain of `/a/:id` and appends the binding `id = ""`. -/
theorem capture_free_shadowed :
    ∃ root, registerAll Node.empty
        [⟨"GET".toList, "/a/".toList, [1]⟩, ⟨"GET".toList, "/a/:id".toList, [2]⟩] = some root ∧
      lastChain "GET".toList "/a/".toList
        [⟨"GET".toList, "/a/".toList, [1]⟩, ⟨"GET".toList, "/a/:id".toList, [2]⟩] = some [1] ∧
      findRoute ⟨[], 1, []⟩ root "GET".toList "/a/".toList =
        .returned ⟨[⟨"id".toList, []⟩], 1, [2]⟩ :=
  ⟨_, rfl, by decide, by decide⟩

/-- C2, amended (capture-free routes resolve to themselves unless shadowed at
their end): on a trie built from the empty root by successful registrations of
any patterns, for a registered route whose pattern holds neither `':'` nor
`'*'`, and which either is not empty and does not end in `'/'`, or whose
terminal node (the one `add` returns for the pattern) has neither a param
child nor a wild child, `findRoute` on the pattern itself leaves the chain
registered last for that method and pattern and appends no binding. -/
theorem capture_free_resolves (routes : List Route) (root : Node)
    (hreg : registerAll Node.empty routes = some root) (r : Route) (hr : r ∈ routes)
    (hsf : SigilFree r.pattern)
    (hend : (r.pattern ≠ [] ∧ r.pattern.getLast? ≠ some slash) ∨
      ∃ p x, (add r.pattern 0 root).status = .returned p ∧ root.at? p = some x ∧
        x.params = none ∧ x.wild = none)
    (context : Ctx) :
    ∃ c, lastChain r.method r.pattern routes = some c ∧
      findRoute context root r.method r.pattern = .returned { context with handlers := c } :=
  findRoute_registered routes root hreg r hr hsf hend context

/-- Witness of C2, amended: `GET /a/b` registered after `GET /a/:x`. -/
theorem capture_free_resolves_witness :
    ∃ root, registerAll Node.empty
        [⟨"GET".toList, "/a/:x".toList, [2]⟩, ⟨"GET".toList, "/a/b".toList, [1]⟩] = some root ∧
      ∃ c, lastChain "GET".toList "/a/b".toList
          [⟨"GET".toList, "/a/:x".toList, [2]⟩, ⟨"GET".toList, "/a/b".toList, [1]⟩] = some c ∧
        findRoute ⟨[], 0, []⟩ root "GET".toList "/a/b".toList = .returned ⟨[], 0, c⟩ :=
  ⟨_, rfl, capture_free_resolves
    [⟨"GET".toList, "/a/:x".toList, [2]⟩, ⟨"GET".toList, "/a/b".toList, [1]⟩] _ rfl
    ⟨"GET".toList, "/a/b".toList, [1]⟩ (by simp) (by decide) (Or.inl (by decide)) ⟨[], 0, []⟩⟩

/-- C3 (parameter extraction in declaration order): for a pattern made of
`'/'`-separated segments, each a literal without structural byte or a
parameter `:name`, registered alone on the empty root, and for the concrete
path obtained by replacing the parameters, left to right, by values without
`'/'`, `findRoute` on a context with room for the values leaves the registered
chain and appends exactly the bindings `(name1, v1), ..., (namek, vk)` in the
order of declaration. -/
theorem params_in_declaration_order (segs : List Seg) (vals : List Str) (method : Str)
    (chain : HandlersChain) (context : Ctx)
    (hsegs : ∀ seg ∈ segs, seg.WellFormed)
    (hlen : vals.length = (paramNames segs).length)
    (hvals : ∀ v ∈ vals, SlashFree v)
    (hcap : context.params.length + vals.length ≤ context.cap) :
    ∃ root, register Node.empty ⟨method, patternOf segs, chain⟩ = some root ∧
      findRoute context root method (concreteOf segs vals) =
        .returned ⟨context.params ++ bindingsOf segs vals, context.cap, chain⟩ := by
  obtain ⟨ptr, hst, hfind⟩ := add_segs segs method chain (fun s hs => hsegs _ hs)
    (fun nm hnm => hsegs _ hnm) Node.empty Node.fresh_empty 0
  exact ⟨_, register_of_returned (r := ⟨method, patternOf segs, chain⟩) hst,
    hfind vals context hlen hvals hcap⟩

/-- Witness of C3: `/users/:id/profile` with `/users/42/profile`, and `/:a/:b/:c`
with `/x/y/z`. -/
theorem params_in_declaration_order_witness :
    (∃ root, register Node.empty ⟨"GET".toList, "/users/:id/profile".toList, [1]⟩ = some root ∧
      findRoute ⟨[], 1, []⟩ root "GET".toList "/users/42/profile".toList =
        .returned ⟨[⟨"id".toList, "42".toList⟩], 1, [1]⟩) ∧
    (∃ root, register Node.empty ⟨"GET".toList, "/:a/:b/:c".toList, [1]⟩ = some root ∧
      findRoute ⟨[], 3, []⟩ root "GET".toList "/x/y/z".toList =
        .returned ⟨[⟨"a".toList, "x".toList⟩, ⟨"b".toList, "y".toList⟩,
          ⟨"c".toList, "z".toList⟩], 3, [1]⟩) :=
  ⟨params_in_declaration_order
      [.lit [], .lit "users".toList, .par "id".toList, .lit "profile".toList]
      ["42".toList] "GET".toList [1] ⟨[], 1, []⟩ (by decide) rfl (by decide) (by decide),
    params_in_declaration_order
      [.lit [], .par "a".toList, .par "b".toList, .par "c".toList]
      ["x".toList, "y".toList, "z".toList] "GET".toList [1] ⟨[], 3, []⟩ (by decide) rfl
      (by decide) (by decide)⟩

/-- C4 (static priority): at every node, when the static map has a child keyed by
the next chunk of the remaining path (the text up to and including the next
`'/'`), `findRoute` goes on from that child with the context untouched, and
when no `'/'` remains and the static map has a child keyed by the whole
remainder, `findRoute` returns with the chain of that child and the bindings
untouched, whatever param or wild child the node has; so with `/a/b` and
`/a/:x` registered, in either order, the lookup of `/a/b` leaves the chain of
`/a/b` and appends no binding. -/
theorem static_child_first (context : Ctx) (n : Node) (method path : Str) :
    (∀ e node, indexWhere (· = slash) path = some e →
        mapGet (path.take (e + 1)) n.static = some node →
        findRoute context n method path = findRoute context node method (path.drop (e + 1))) ∧
    (∀ node, indexWhere (· = slash) path = none → mapGet path n.static = some node →
        findRoute context n method path =
          .returned { context with handlers := node.chainFor method }) ∧
    (∀ m2 c1 c2, ∃ root,
        registerAll Node.empty [⟨method, "/a/b".toList, c1⟩, ⟨m2, "/a/:x".toList, c2⟩]
          = some root ∧
        findRoute context root method "/a/b".toList =
          .returned { context with handlers := c1 }) ∧
    (∀ m2 c1 c2, ∃ root,
        registerAll Node.empty [⟨m2, "/a/:x".toList, c2⟩, ⟨method, "/a/b".toList, c1⟩]
          = some root ∧
        findRoute context root method "/a/b".toList =
          .returned { context with handlers := c1 }) := by
  refine ⟨?_, ?_, ?_, ?_⟩
  · intro e node he hn
    rw [findRoute_eq]
    simp only [he, hn]
  · intro node he hn
    rw [findRoute_eq]
    simp only [he, hn]
  · intro m2 c1 c2
    have hsome : (registerAll Node.empty
        [⟨method, "/a/b".toList, c1⟩, ⟨m2, "/a/:x".toList, c2⟩]).isSome = true := rfl
    obtain ⟨root, hroot⟩ := Option.isSome_iff_exists.mp hsome
    obtain ⟨c, hc, hfind⟩ := findRoute_registered _ root hroot ⟨method, "/a/b".toList, c1⟩
      (by simp) (show SigilFree "/a/b".toList by decide)
      (Or.inl (show "/a/b".toList ≠ [] ∧ "/a/b".toList.getLast? ≠ some slash by decide)) context
    have hc1 : c = c1 := by
      have h2 : ¬ ("/a/:x".toList = "/a/b".toList) := by decide
      simpa [lastChain, h2] using hc.symm
    exact ⟨root, hroot, hc1 ▸ hfind⟩
  · intro m2 c1 c2
    have hsome : (registerAll Node.empty
        [⟨m2, "/a/:x".toList, c2⟩, ⟨method, "/a/b".toList, c1⟩]).isSome = true := rfl
    obtain ⟨root, hroot⟩ := Option.isSome_iff_exists.mp hsome
    obtain ⟨c, hc, hfind⟩ := findRoute_registered _ root hroot ⟨method, "/a/b".toList, c1⟩
      (by simp) (show SigilFree "/a/b".toList by decide)
      (Or.inl (show "/a/b".toList ≠ [] ∧ "/a/b".toList.getLast? ≠ some slash by decide)) context
    have hc1 : c = c1 := by
      simpa [lastChain] using hc.symm
    exact ⟨root, hroot, hc1 ▸ hfind⟩

/-- Witness of C4: the node of `/a/` with both a static child `b` and a param
child, asked for `b`. -/
theorem static_child_first_witness :
    indexWhere (· = slash) "b".toList = none ∧
    mapGet "b".toList
      (Node.mk [("b".toList, Node.empty.addChain "GET".toList [1])]
        (some (Node.newParam "x".toList)) none [] []).static
      = some (Node.empty.addChain "GET".toList [1]) ∧
    findRoute ⟨[], 1, []⟩
      (Node.mk [("b".toList, Node.empty.addChain "GET".toList [1])]
        (some (Node.newParam "x".toList)) none [] []) "GET".toList "b".toList
      = .returned ⟨[], 1, [1]⟩ :=
  ⟨rfl, rfl, (static_child_first ⟨[], 1, []⟩
      (Node.mk [("b".toList, Node.empty.addChain "GET".toList [1])]
        (some (Node.newParam "x".toList)) none [] []) "GET".toList "b".toList).2.1
      (Node.empty.addChain "GET".toList [1]) rfl rfl⟩

/-- C5 (the wildcard consumes the whole remainder): with the single route
`P*` registered on the empty root, `P` without sigil and ending in `'/'`,
`findRoute` on `P` followed by any remainder, with any number of `'/'` in it,
leaves the chain of the wildcard route and appends no binding. -/
theorem wildcard_consumes_remainder (P r method : Str) (chain : HandlersChain) (context : Ctx)
    (hP : SigilFree P) (hend : P.getLast? = some slash) :
    ∃ root, register Node.empty ⟨method, P ++ [star], chain⟩ = some root ∧
      findRoute context root method (P ++ r) = .returned { context with handlers := chain } := by
  obtain ⟨ds, hds, rfl⟩ := split_prefix hP hend
  have hadd : add (dirs ds ++ [star]) 0 Node.empty =
      AddResult.lift Node.empty (dirPtr ds) (add [star] 0 Node.empty) := by
    rw [add_dirs ds [star] 0 Node.empty hds, Node.descend_empty]
  have hstar : add [star] 0 Node.empty = ⟨Node.empty.setWild Node.empty, 0, .returned [.wild]⟩ :=
    rfl
  have hst : (add (dirs ds ++ [star]) 0 Node.empty).status = .returned (dirPtr ds ++ [.wild]) := by
    rw [hadd, hstar]; rfl
  have hnode : (add (dirs ds ++ [star]) 0 Node.empty).node =
      Node.empty.graft (dirPtr ds) (Node.empty.setWild Node.empty) := by
    rw [hadd, hstar]; rfl
  refine ⟨_, register_of_returned (r := ⟨method, dirs ds ++ [star], chain⟩) hst, ?_⟩
  have hy : (Node.empty.setWild Node.empty).modifyAt (fun x => x.addChain method chain) [.wild]
      = Node.empty.setWild (Node.empty.addChain method chain) := rfl
  simp only [hnode, Node.addChainAt, Node.modifyAt_graft, hy]
  rw [findRoute_dirs ds r context _ _ method (fun d hd => (hds d hd).slashFree)
    (Node.at?_graft _ _ _)]
  rw [findRoute_wild_only context (Node.empty.setWild (Node.empty.addChain method chain))
    (Node.empty.addChain method chain) method r rfl rfl rfl]
  simp

/-- Witness of C5: `/files/*` looked up with `/files/a/b/c`. -/
theorem wildcard_consumes_remainder_witness :
    SigilFree "/files/".toList ∧ "/files/".toList.getLast? = some slash ∧
    ∃ root, register Node.empty ⟨"GET".toList, "/files/".toList ++ [star], [7]⟩ = some root ∧
      findRoute ⟨[], 0, []⟩ root "GET".toList ("/files/".toList ++ "a/b/c".toList)
        = .returned ⟨[], 0, [7]⟩ :=
  ⟨by decide, by decide,
    wildcard_consumes_remainder "/files/".toList "a/b/c".toList "GET".toList [7] ⟨[], 0, []⟩
      (by decide) (by decide)⟩

/-- C6 (conflicting parameter names are rejected): on a node that has a param
child named otherwise than `b`, `add` of a pattern that starts with `:b`
followed by `'/'` or by the end of the pattern panics, with
"Different Param names defined", and returns no node; so after
`/users/:id/profile` the registration of `/users/:name/settings` fails. -/
theorem different_param_names_panic (n pn : Node) (b rest : Str) (pCount : Nat)
    (hn : n.params = some pn) (hb : SlashFree b) (hne : pn.param ≠ b) :
    (add (colon :: (b ++ slash :: rest)) pCount n).status = .panicked .differentParamNames ∧
    (add (colon :: b) pCount n).status = .panicked .differentParamNames ∧
    (∀ m1 c1 m2 c2, ∃ root,
      register Node.empty ⟨m1, "/users/:id/profile".toList, c1⟩ = some root ∧
      (add "/users/:name/settings".toList 0 root).status = .panicked .differentParamNames ∧
      register root ⟨m2, "/users/:name/settings".toList, c2⟩ = none) := by
  refine ⟨?_, ?_, ?_⟩
  · rw [add_param_slash rest pCount n hb]
    simp [hn, hne]
  · rw [add_param_end pCount n hb]
    simp [hn, hne]
  · intro m1 c1 m2 c2
    have hst : (add "/users/:id/profile".toList 0 Node.empty).status = .returned
        [.static "/".toList, .static "users/".toList, .params, .static "profile".toList] := by
      decide
    refine ⟨_, register_of_returned (r := ⟨m1, "/users/:id/profile".toList, c1⟩) hst, ?_⟩
    have hp : (add "/users/:name/settings".toList 0
        ((add "/users/:id/profile".toList 0 Node.empty).node.addChainAt
          [.static "/".toList, .static "users/".toList, .params, .static "profile".toList]
          m1 c1)).status = .panicked .differentParamNames := rfl
    exact ⟨hp, register_of_panicked (r := ⟨m2, "/users/:name/settings".toList, c2⟩) hp⟩

/-- Witness of C6: a node whose param child is named `id`, given `:name/settings`. -/
theorem different_param_names_panic_witness :
    (Node.empty.setParams (Node.newParam "id".toList)).params
      = some (Node.newParam "id".toList) ∧
    SlashFree "name".toList ∧ (Node.newParam "id".toList).param ≠ "name".toList ∧
    (add (colon :: ("name".toList ++ slash :: "settings".toList)) 0
      (Node.empty.setParams (Node.newParam "id".toList))).status
      = .panicked .differentParamNames :=
  ⟨rfl, by decide, by decide,
    (different_param_names_panic (Node.empty.setParams (Node.newParam "id".toList))
      (Node.newParam "id".toList) "name".toList "settings".toList 0 rfl (by decide)
      (by decide)).1⟩

/-- C7 (routes sharing a same-named parameter coexist): for a prefix `S` without
sigil that ends in `'/'`, a name `p` without `'/'` and two different tails
`t1`, `t2`, not empty, without sigil and without `'/'`, the registrations of
`S:p/t1` with `c1` and then of `S:p/t2` with `c2` under one method on the
empty root both succeed, and for every value `v` without `'/'` the lookups of
`Sv/t1` and `Sv/t2` leave `c1` and `c2`, each with the one binding `(p, v)`
appended. -/
theorem same_name_routes_coexist (S p t1 t2 v method : Str) (c1 c2 : HandlersChain)
    (context : Ctx) (hS : SigilFree S) (hend : S.getLast? = some slash) (hp : SlashFree p)
    (ht1 : Plain t1) (ht2 : Plain t2) (h1 : t1 ≠ []) (h2 : t2 ≠ []) (hne : t1 ≠ t2)
    (hv : SlashFree v) (hcap : context.params.length + 1 ≤ context.cap) :
    ∃ root, registerAll Node.empty
        [⟨method, S ++ colon :: (p ++ slash :: t1), c1⟩,
         ⟨method, S ++ colon :: (p ++ slash :: t2), c2⟩] = some root ∧
      findRoute context root method (S ++ (v ++ slash :: t1)) =
        .returned ⟨context.params ++ [⟨p, v⟩], context.cap, c1⟩ ∧
      findRoute context root method (S ++ (v ++ slash :: t2)) =
        .returned ⟨context.params ++ [⟨p, v⟩], context.cap, c2⟩ := by
  obtain ⟨ds, hds, rfl⟩ := split_prefix hS hend
  have hdsS : ∀ d ∈ ds, SlashFree d := fun d hd => (hds d hd).slashFree
  -- the nodes under the prefix after each registration
  let P1 : Node := (Node.newParam p).setStatic t1 (Node.empty.addChain method c1)
  let P2 : Node := P1.setStatic t2 (Node.empty.addChain method c2)
  let y1 : Node := Node.empty.setParams P1
  let y2 : Node := Node.empty.setParams P2
  let root1 : Node := Node.empty.graft (dirPtr ds) y1
  let root2 : Node := Node.empty.graft (dirPtr ds) y2
  -- first registration
  have ha1 : add (colon :: (p ++ slash :: t1)) 0 Node.empty =
      ⟨Node.empty.setParams ((Node.newParam p).setStatic t1 Node.empty), incr 0,
        .returned [.params, .static t1]⟩ := by
    rw [add_param_slash t1 0 Node.empty hp]
    show AddResult.under Node.empty .params (add t1 (incr 0) (Node.newParam p)) = _
    rw [add_plain _ _ ht1 h1]
    rfl
  have hr1 : register Node.empty ⟨method, dirs ds ++ colon :: (p ++ slash :: t1), c1⟩
      = some root1 := by
    have hadd := add_dirs ds (colon :: (p ++ slash :: t1)) 0 Node.empty hds
    rw [Node.descend_empty, ha1] at hadd
    have hst : (add (dirs ds ++ colon :: (p ++ slash :: t1)) 0 Node.empty).status
        = .returned (dirPtr ds ++ [.params, .static t1]) := by
      rw [hadd]; rfl
    rw [register_of_returned (r := ⟨method, dirs ds ++ colon :: (p ++ slash :: t1), c1⟩) hst]
    simp only [hadd, AddResult.lift_node, Node.addChainAt, Node.modifyAt_graft]
    have hmod : (Node.empty.setParams ((Node.newParam p).setStatic t1 Node.empty)).modifyAt
        (fun x => x.addChain method c1) [.params, .static t1] = y1 := by
      simp [Node.modifyAt, Node.child, Node.setParams, Node.params, Node.setStatic, Node.static,
        mapGet_mapSet_same, Node.setChild, mapSet_mapSet, y1, P1, Node.wild, Node.chains,
        Node.param]
    rw [hmod]
  -- second registration
  have hget : mapGet t2 P1.static = none := by
    simp [P1, Node.setStatic, Node.static, Node.newParam, mapSet, mapGet, hne]
  have ha2 : add (colon :: (p ++ slash :: t2)) 0 y1 =
      ⟨y1.setChild .params (P1.setStatic t2 Node.empty), incr 0,
        .returned [.params, .static t2]⟩ := by
    rw [add_param_slash t2 0 y1 hp]
    have hy1 : y1.params = some P1 := rfl
    have hP1 : P1.param = p := rfl
    simp only [hy1, hP1, ne_eq, not_true_eq_false, if_false]
    rw [add_plain _ _ ht2 h2, hget]
    rfl
  have hr2 : register root1 ⟨method, dirs ds ++ colon :: (p ++ slash :: t2), c2⟩
      = some root2 := by
    have hadd := add_dirs ds (colon :: (p ++ slash :: t2)) 0 root1 hds
    rw [show root1.descend (dirPtr ds) = y1 from Node.descend_graft _ _ _, ha2] at hadd
    have hst : (add (dirs ds ++ colon :: (p ++ slash :: t2)) 0 root1).status
        = .returned (dirPtr ds ++ [.params, .static t2]) := by
      rw [hadd]; rfl
    rw [register_of_returned (r := ⟨method, dirs ds ++ colon :: (p ++ slash :: t2), c2⟩) hst]
    simp only [hadd, AddResult.lift_node, Node.addChainAt]
    rw [show root1.graft (dirPtr ds) (y1.setChild .params (P1.setStatic t2 Node.empty))
      = Node.empty.graft (dirPtr ds) (y1.setChild .params (P1.setStatic t2 Node.empty))
      from Node.graft_graft _ _ _ _, Node.modifyAt_graft]
    have hmod : (y1.setChild .params (P1.setStatic t2 Node.empty)).modifyAt
        (fun x => x.addChain method c2) [.params, .static t2] = y2 := by
      simp [Node.modifyAt, Node.child, Node.setParams, Node.params, Node.setStatic, Node.static,
        mapGet_mapSet_same, Node.setChild, mapSet_mapSet, y1, y2, P2, Node.wild, Node.chains,
        Node.param]
    rw [hmod]
  refine ⟨root2, registerAll_two hr1 hr2, ?_, ?_⟩
  · rw [findRoute_dirs ds _ context root2 y2 method hdsS (Node.at?_graft _ _ _),
      findRoute_slash t1 context y2 method hv]
    have hs : mapGet (v ++ [slash]) y2.static = none := rfl
    have hpar : y2.params = some P2 := rfl
    simp only [hs, hpar]
    rw [if_neg (by omega), findRoute_last _ _ _ ht1.slashFree]
    have hg : mapGet t1 P2.static = some (Node.empty.addChain method c1) := by
      simp [P2, P1, Node.setStatic, Node.static, Node.newParam, mapSet, mapGet, hne]
    simp only [hg]
    simp [Ctx.bind, P2, P1, Node.setStatic, Node.param, Node.newParam]
  · rw [findRoute_dirs ds _ context root2 y2 method hdsS (Node.at?_graft _ _ _),
      findRoute_slash t2 context y2 method hv]
    have hs : mapGet (v ++ [slash]) y2.static = none := rfl
    have hpar : y2.params = some P2 := rfl
    simp only [hs, hpar]
    rw [if_neg (by omega), findRoute_last _ _ _ ht2.slashFree]
    have hg : mapGet t2 P2.static = some (Node.empty.addChain method c2) := by
      simp [P2, Node.setStatic, Node.static, mapGet_mapSet_same]
    simp only [hg]
    simp [Ctx.bind, P2, P1, Node.setStatic, Node.param, Node.newParam]

/-- Witness of C7: `/users/:id/profile` and `/users/:id/settings`, looked up
with the value `42`. -/
theorem same_name_routes_coexist_witness :
    ∃ root, registerAll Node.empty
        [⟨"GET".toList, "/users/".toList ++ colon :: ("id".toList ++ slash :: "profile".toList),
          [1]⟩,
         ⟨"GET".toList, "/users/".toList ++ colon :: ("id".toList ++ slash :: "settings".toList),
          [2]⟩] = some root ∧
      findRoute ⟨[], 1, []⟩ root "GET".toList
          ("/users/".toList ++ ("42".toList ++ slash :: "profile".toList)) =
        .returned ⟨[] ++ [⟨"id".toList, "42".toList⟩], 1, [1]⟩ ∧
      findRoute ⟨[], 1, []⟩ root "GET".toList
          ("/users/".toList ++ ("42".toList ++ slash :: "settings".toList)) =
        .returned ⟨[] ++ [⟨"id".toList, "42".toList⟩], 1, [2]⟩ :=
  same_name_routes_coexist "/users/".toList "id".toList "profile".toList "settings".toList
    "42".toList "GET".toList [1] [2] ⟨[], 1, []⟩ (by decide) (by decide) (by decide)
    (by decide) (by decide) (by decide) (by decide) (by decide) (by decide) (by decide)

/-- C8 (param and wildcard conflict in either order): `add` of the pattern `*`
on a node that has a param child panics; `add` of a pattern that starts with
`:name`, followed by `'/'` or by the end of the pattern, on a node that has a
wild child panics, the node being any node of a trie reachable from the empty
root (or any node without param child); so of `/a/:b` and `/a/*` the one
registered second fails, whichever it is. -/
theorem param_wild_conflict (n : Node) (pCount : Nat) (name rest : Str)
    (hname : SlashFree name) :
    (n.params ≠ none → ∃ why, (add [star] pCount n).status = .panicked why) ∧
    (n.wild ≠ none →
      (n.params = none ∨ ∃ root p, Reachable root ∧ root.at? p = some n) →
      (add (colon :: (name ++ slash :: rest)) pCount n).status
        = .panicked (.paramWildExists name) ∧
      (add (colon :: name) pCount n).status = .panicked (.paramWildExists name)) ∧
    (∀ m c m' c', ∃ root, register Node.empty ⟨m, "/a/:b".toList, c⟩ = some root ∧
      (add "/a/*".toList 0 root).status = .panicked .wildParamExists ∧
      register root ⟨m', "/a/*".toList, c'⟩ = none) ∧
    (∀ m c m' c', ∃ root, register Node.empty ⟨m, "/a/*".toList, c⟩ = some root ∧
      (add "/a/:b".toList 0 root).status = .panicked (.paramWildExists "b".toList) ∧
      register root ⟨m', "/a/:b".toList, c'⟩ = none) := by
  refine ⟨?_, ?_, ?_, ?_⟩
  · intro hp
    rw [add_star]
    cases hw : n.wild with
    | some w => exact ⟨_, rfl⟩
    | none =>
      cases hpp : n.params with
      | none => exact absurd hpp hp
      | some pn => exact ⟨_, rfl⟩
  · intro hw hex
    have hp : n.params = none := by
      rcases hex with hp | ⟨root, p, hroot, hat⟩
      · exact hp
      · rcases (reachable_sound hroot p n hat).1 with hp | hw'
        · exact hp
        · exact absurd hw' hw
    cases hww : n.wild with
    | none => exact absurd hww hw
    | some w =>
      rw [add_param_slash rest pCount n hname, add_param_end pCount n hname]
      simp [hp, hww]
  · intro m c m' c'
    have hst : (add "/a/:b".toList 0 Node.empty).status = .returned
        [.static "/".toList, .static "a/".toList, .params] := by decide
    refine ⟨_, register_of_returned (r := ⟨m, "/a/:b".toList, c⟩) hst, ?_⟩
    have hp : (add "/a/*".toList 0
        ((add "/a/:b".toList 0 Node.empty).node.addChainAt
          [.static "/".toList, .static "a/".toList, .params] m c)).status
        = .panicked .wildParamExists := rfl
    exact ⟨hp, register_of_panicked (r := ⟨m', "/a/*".toList, c'⟩) hp⟩
  · intro m c m' c'
    have hst : (add "/a/*".toList 0 Node.empty).status = .returned
        [.static "/".toList, .static "a/".toList, .wild] := by decide
    refine ⟨_, register_of_returned (r := ⟨m, "/a/*".toList, c⟩) hst, ?_⟩
    have hp : (add "/a/:b".toList 0
        ((add "/a/*".toList 0 Node.empty).node.addChainAt
          [.static "/".toList, .static "a/".toList, .wild] m c)).status
        = .panicked (.paramWildExists "b".toList) := rfl
    exact ⟨hp, register_of_panicked (r := ⟨m', "/a/:b".toList, c'⟩) hp⟩

/-- Witness of C8: the node of `/a/` once `/a/*` is there, reached in a
reachable trie, given `:b`; and a node with a param child, given `*`. -/
theorem param_wild_conflict_witness :
    SlashFree "b".toList ∧
    (Node.empty.setParams (Node.newParam "b".toList)).params ≠ none ∧
    (∃ why, (add [star] 0 (Node.empty.setParams (Node.newParam "b".toList))).status
      = .panicked why) ∧
    (Node.empty.setWild Node.empty).wild ≠ none ∧
    (∃ root p, Reachable root ∧ root.at? p = some (Node.empty.setWild Node.empty)) ∧
    (add (colon :: "b".toList) 0 (Node.empty.setWild Node.empty)).status
      = .panicked (.paramWildExists "b".toList) :=
  ⟨by decide, by simp [Node.setParams, Node.params],
    (param_wild_conflict (Node.empty.setParams (Node.newParam "b".toList)) 0 "b".toList []
      (by decide)).1 (by simp [Node.setParams, Node.params]),
    by simp [Node.setWild, Node.wild],
    ⟨(add "/a/*".toList 0 Node.empty).node, [.static "/".toList, .static "a/".toList],
      Reachable.add _ _ Reachable.empty, rfl⟩,
    ((param_wild_conflict (Node.empty.setWild Node.empty) 0 "b".toList [] (by decide)).2.1
      (by simp [Node.setWild, Node.wild])
      (Or.inr ⟨(add "/a/*".toList 0 Node.empty).node,
        [.static "/".toList, .static "a/".toList],
        Reachable.add _ _ Reachable.empty, rfl⟩)).2⟩

/-- Counterexample to C9 as stated: `GET /files/*` registered once cannot be
registered again, `add` panics with "Wildcard character already exists". -/
theorem reregister_wildcard_panics :
    ∃ root1, register Node.empty ⟨"GET".toList, "/files/*".toList, [1]⟩ = some root1 ∧
      (add "/files/*".toList 0 root1).status = .panicked .wildExists ∧
      register root1 ⟨"GET".toList, "/files/*".toList, [2]⟩ = none :=
  ⟨_, rfl, by decide, rfl⟩

/-- C9, amended (re-registration is idempotent and the last chain wins, except
on a wildcard terminal): on any trie, when the registration of `(m, p)` with
`c1` succeeded and `add` returned the pointer `a`, a second `add` of `p`
leaves the trie as it is and the node at `a` holds `c1` for `m`; when `a` ends
with the wild edge the second `add` panics with "Wildcard character already
exists" and the registration with `c2` fails; otherwise the second `add`
returns the same pointer `a`, the registration with `c2` succeeds and changes
nothing but the chain of that node for `m`, and afterwards every lookup that
reads the chain of that node under `m`, which resolved to `c1`, resolves to
`c2` with the same bindings, and every other lookup that returned is as
before. The pointer ends with the wild edge only when the last byte of `p` is
`'*'`, and it does whenever `p` ends in a `'*'` that has no `':'` before it in
its segment. -/
theorem reregister_overwrites (root root1 : Node) (m p : Str) (c1 c2 : HandlersChain)
    (a : Ptr) (ha : (add p 0 root).status = .returned a)
    (h1 : register root ⟨m, p, c1⟩ = some root1) :
    (add p 0 root1).node = root1 ∧
    (∃ x, root1.at? a = some x ∧ x.chainFor m = c1) ∧
    (a.getLast? = some Step.wild →
      (add p 0 root1).status = .panicked .wildExists ∧
      register root1 ⟨m, p, c2⟩ = none) ∧
    (a.getLast? ≠ some Step.wild →
      (add p 0 root1).status = .returned a ∧
      register root1 ⟨m, p, c2⟩ = some (root1.addChainAt a m c2) ∧
      (∀ context method path ctx1,
        findRoute context root1 method path = .returned ctx1 →
        findRoute context (root1.addChainAt a m c2) method path =
          .returned (if method = m ∧ findNode root1 path = some a
            then { ctx1 with handlers := c2 } else ctx1)) ∧
      (∀ context path ctx1, findRoute context root1 m path = .returned ctx1 →
        findNode root1 path = some a → ctx1.handlers = c1)) ∧
    (a.getLast? = some Step.wild → p.getLast? = some star) ∧
    (∀ i, p[i]? = some star → i + 1 = p.length →
      (∀ j, j < i → p[j]? = some colon → ∃ k, j < k ∧ k < i ∧ p[k]? = some slash) →
      a.getLast? = some Step.wild) := by
  obtain ⟨a0, x0, ha0, hx0, rfl⟩ := register_some h1
  rw [ha] at ha0
  simp only [Status.returned.injEq] at ha0
  subst ha0
  have hagain := addAux_twice (p.length + 1) p 0 root a ha m c1 (some a) 0
  have hat := Node.at?_addChainAt_same hx0 m c1
  have hnode : (add p 0 ((add p 0 root).node.addChainAt a m c1)).node
      = (add p 0 root).node.addChainAt a m c1 := hagain.1
  have hst : (add p 0 ((add p 0 root).node.addChainAt a m c1)).status = Status.again a :=
    hagain.2
  refine ⟨hnode, ⟨x0.addChain m c1, hat, Node.chainFor_addChain_same _ _ _⟩, ?_, ?_,
    addAux_wild_ends _ p 0 root a ha, ?_⟩
  · intro hw
    have hp : (add p 0 ((add p 0 root).node.addChainAt a m c1)).status
        = .panicked .wildExists := by
      rw [hst]; exact if_pos hw
    exact ⟨hp, register_of_panicked (r := ⟨m, p, c2⟩) hp⟩
  · intro hw
    have hr : (add p 0 ((add p 0 root).node.addChainAt a m c1)).status = .returned a := by
      rw [hst]; exact if_neg hw
    refine ⟨hr, ?_, ?_, ?_⟩
    · rw [register_of_returned (r := ⟨m, p, c2⟩) hr]
      simp only [hnode]
    · intro context method path ctx1 hfind
      have := findRouteAux_touch (path.length + 1) m c2 (some a) context
        ((add p 0 root).node.addChainAt a m c1) method path
      simp only [findRoute] at hfind
      rw [hfind] at this
      simpa [findRoute, findNode, Node.touch] using this
    · intro context path ctx1 hfind hsrc
      have := findRouteAux_source _ _ _ _ _ _ _ hfind hsrc
      rw [this]
      simp only [Node.chainAt, Node.chainsAt, hat]
      exact Node.chainFor_addChain_same x0 m c1
  · intro i hstar hlast hseg
    exact addAux_star_final _ p 0 root i a (Nat.lt_succ_self _) hstar hseg hlast ha

/-- Witness of C9, amended: `GET /:a*/b`, whose parameter name holds a `'*'`,
registered with `[1]` on the empty root, then again with `[2]`. -/
theorem reregister_overwrites_witness :
    (add "/:a*/b".toList 0 Node.empty).status
      = .returned [.static "/".toList, .params, .static "b".toList] ∧
    ∃ root1, register Node.empty ⟨"GET".toList, "/:a*/b".toList, [1]⟩ = some root1 ∧
      (add "/:a*/b".toList 0 root1).status
        = .returned [.static "/".toList, .params, .static "b".toList] ∧
      register root1 ⟨"GET".toList, "/:a*/b".toList, [2]⟩
        = some (root1.addChainAt [.static "/".toList, .params, .static "b".toList]
            "GET".toList [2]) :=
  ⟨by decide, _, rfl,
    ((reregister_overwrites Node.empty _ "GET".toList "/:a*/b".toList [1] [2]
      [.static "/".toList, .params, .static "b".toList] (by decide) rfl).2.2.2.1
        (by decide)).1,
    ((reregister_overwrites Node.empty _ "GET".toList "/:a*/b".toList [1] [2]
      [.static "/".toList, .params, .static "b".toList] (by decide) rfl).2.2.2.1
        (by decide)).2.1⟩

/-- C10 (param/wild exclusivity): in every trie reachable from the empty root by
calls of `add`, returned or panicked, and of `addChain`, every node has at
most one of a param child and a wild child. -/
theorem param_wild_exclusive (root : Node) (h : Reachable root) (p : Ptr) (x : Node)
    (hx : root.at? p = some x) : x.params = none ∨ x.wild = none :=
  (reachable_sound h p x hx).1

/-- Witness of C10: the node of `/a/` after `add` of `/a/:b` and a panicked `add`
of `/a/*`. -/
theorem param_wild_exclusive_witness :
    Reachable (add "/a/*".toList 0 (add "/a/:b".toList 0 Node.empty).node).node ∧
    (add "/a/*".toList 0 (add "/a/:b".toList 0 Node.empty).node).status
      = .panicked .wildParamExists ∧
    (add "/a/*".toList 0 (add "/a/:b".toList 0 Node.empty).node).node.at?
      [.static "/".toList, .static "a/".toList]
      = some (Node.mk [] (some (Node.newParam "b".toList)) none [] []) ∧
    ((Node.mk [] (some (Node.newParam "b".toList)) none [] []).params = none ∨
      (Node.mk [] (some (Node.newParam "b".toList)) none [] []).wild = none) :=
  ⟨Reachable.add _ _ (Reachable.add _ _ Reachable.empty), by decide, rfl,
    param_wild_exclusive (add "/a/*".toList 0 (add "/a/:b".toList 0 Node.empty).node).node
      (Reachable.add "/a/*".toList 0 (Reachable.add "/a/:b".toList 0 Reachable.empty))
      [.static "/".toList, .static "a/".toList]
      (Node.mk [] (some (Node.newParam "b".toList)) none [] []) rfl⟩

/-- C11 at its failing inputs: `add` returns on `/ab*`, where the segment with
the `'*'` is `ab*`, and on `/:a*/b`, where the segment with the `'*'` is not
the last one. -/
theorem star_segment_not_enforced :
    (add "/ab*".toList 0 Node.empty).status
      = .returned [.static "/".toList, .wild] ∧
    (add "/:a*/b".toList 0 Node.empty).status
      = .returned [.static "/".toList, .params, .static "b".toList] ∧
    (add "/:a*/b".toList 0 Node.empty).node.descend [.static "/".toList, .params]
      = Node.mk [("b".toList, Node.empty)] none none [] "a*".toList := by
  refine ⟨by decide, by decide, rfl⟩

/-- C11, amended: a `'*'` of the pattern that has no `':'` before it in its
segment (every `':'` before it is followed by a `'/'` before it) and is
followed by anything makes `add` panic, on any node and with any counter; so
on every pattern on which `add` returns, such a `'*'` is the last byte of the
pattern. -/
theorem star_segment_enforced (path : Str) (pCount : Nat) (n : Node) (i : Nat)
    (hstar : path[i]? = some star)
    (hseg : ∀ j, j < i → path[j]? = some colon →
      ∃ k, j < k ∧ k < i ∧ path[k]? = some slash) :
    (i + 1 < path.length → ∃ why, (add path pCount n).status = .panicked why) ∧
    (∀ a, (add path pCount n).status = .returned a → i + 1 = path.length) := by
  have key : i + 1 < path.length → ∃ why, (add path pCount n).status = .panicked why :=
    fun hmore => addAux_star_checked _ path pCount n i (Nat.lt_succ_self _)
      ⟨hstar, hseg, hmore⟩
  refine ⟨key, ?_⟩
  intro a ha
  have hi : i < path.length := by
    by_contra hge
    rw [List.getElem?_eq_none (by omega)] at hstar
    simp at hstar
  by_contra hne
  obtain ⟨why, hw⟩ := key (by omega)
  rw [hw] at ha
  simp at ha

/-- Witness of C11: the `'*'` at offset 2 of `/a*/b` follows literal text in a
segment that is not the last one. -/
theorem star_segment_enforced_witness :
    "/a*/b".toList[2]? = some star ∧
      ∃ why, (add "/a*/b".toList 0 Node.empty).status = .panicked why :=
  ⟨by decide,
    (star_segment_enforced "/a*/b".toList 0 Node.empty 2 (by decide)
      (fun j hj hc => by interval_cases j <;> exact absurd hc (by decide))).1 (by decide)⟩

/-- C12 (trailing text after the wildcard is rejected): on every node, when the
first structural byte of the remaining pattern is `'*'` and at least one byte
follows it, `add` panics with "Character after the * symbol is not acceptable"
and leaves the node and the counter as they were. -/
theorem char_after_star_panics (path : Str) (pCount : Nat) (n : Node) (e : Nat)
    (hfirst : firstStructural path = some (e, star)) (hmore : path.drop (e + 1) ≠ []) :
    add path pCount n = ⟨n, pCount, .panicked .charAfterStar⟩ := by
  have hne : path ≠ blank := by
    intro h; rw [h] at hfirst; simp [blank, firstStructural] at hfirst
  have h1 : ¬ (star = slash) := by decide
  have h2 : ¬ (star = colon) := by decide
  rw [add_eq]
  simp only [hfirst, h1, h2, if_false]
  rw [if_neg hne, if_pos (by simpa [blank] using hmore)]

/-- Witness of C12: `*x` and `ab*/c` on the empty node. -/
theorem char_after_star_panics_witness :
    firstStructural "ab*/c".toList = some (2, star) ∧ "ab*/c".toList.drop (2 + 1) ≠ [] ∧
    add "ab*/c".toList 0 Node.empty = ⟨Node.empty, 0, .panicked .charAfterStar⟩ :=
  ⟨by decide, by decide,
    char_after_star_panics "ab*/c".toList 0 Node.empty 2 (by decide) (by decide)⟩

set_option maxRecDepth 100000 in
/-- C13 at its failing input: the pattern of 128 segments `abc:d:e`, each one
followed by `'/'`, has 128 separators, and already on one such segment `add`
makes two parameter edges and leaves the counter at 2; on the whole pattern
`add`, started on the empty root with its counter at 0, returns a route of 256
parameter edges and leaves the counter at 0, the `uint8` having wrapped; on
that trie a lookup of `x/` with the capacity 0 of that counter panics on the
slice extension, and a lookup of `x` with room for one binding appends one. -/
theorem counter_wraps :
    wrapPattern.count slash = 128 ∧
    (add "abc:d:e/".toList 0 Node.empty).status = .returned [.params, .params] ∧
    (add "abc:d:e/".toList 0 Node.empty).pCount = 2 ∧
    (add wrapPattern 0 Node.empty).status = .returned (List.replicate 256 Step.params) ∧
    (add wrapPattern 0 Node.empty).pCount = 0 ∧
    findRoute ⟨[], 0, []⟩ (add wrapPattern 0 Node.empty).node "GET".toList "x/".toList
      = .panicked ∧
    findRoute ⟨[], 1, []⟩ (add wrapPattern 0 Node.empty).node "GET".toList "x".toList
      = .returned ⟨[⟨[], "x".toList⟩], 1, []⟩ := by
  refine ⟨by decide, by decide, by decide, by decide, by decide, by decide, by decide⟩

/-- C14 at its failing input: on the empty node, `add` of `ab:id/x`, whose first
structural byte is the `':'` at offset 2, names the param child with the empty
string, not `id`, and goes on with `d/x`, not `x`; `add` of `abcd:/x` panics on
the slice `path[start : end+1]`. The offset of the `'/'` found by the inner
loop counts from `start`, and is used as if it counted from the start of the
path. -/
theorem param_name_misread :
    (add "ab:id/x".toList 0 Node.empty).status
      = .returned [.params, .static "d/".toList, .static "x".toList] ∧
    (add "ab:id/x".toList 0 Node.empty).node.params.map Node.param = some [] ∧
    (add "abcd:/x".toList 0 Node.empty).status = .panicked .sliceBounds := by
  decide

/-- C15 (no match leaves the chain untouched): when the walk dead-ends at a node
(no static child for the next chunk, no param child, no wild child, and a
remaining path that is not empty), `findRoute` returns the context as it was;
and whenever a lookup returns without having read the chain table of any node,
the chain of the context is the one it had on entry. -/
theorem dead_end_keeps_chain (context : Ctx) (n : Node) (method path : Str) :
    (∀ e, indexWhere (· = slash) path = some e → mapGet (path.take (e + 1)) n.static = none →
      n.params = none → n.wild = none →
      findRoute context n method path = .returned context) ∧
    (indexWhere (· = slash) path = none → mapGet path n.static = none →
      n.params = none → n.wild = none → path ≠ [] →
      findRoute context n method path = .returned context) ∧
    (∀ ctx1, findRoute context n method path = .returned ctx1 → findNode n path = none →
      ctx1.handlers = context.handlers) := by
  refine ⟨?_, ?_, ?_⟩
  · intro e he hs hp hw
    rw [findRoute_eq]
    simp only [he, hs, hp, hw]
  · intro he hs hp hw hne
    rw [findRoute_eq]
    simp only [he, hs, hp, hw, blank, if_neg hne]
  · intro ctx1 h hq
    exact findRouteAux_dead_end _ _ _ _ _ _ h hq

/-- Witness of C15: `/users/42` on the trie of `/users/:id/profile` dead-ends
after the binding, and `/x` dead-ends at the root. -/
theorem dead_end_keeps_chain_witness :
    (indexWhere (· = slash) "x".toList = none ∧ mapGet "x".toList Node.empty.static = none ∧
      findRoute ⟨[], 0, [9]⟩ Node.empty "GET".toList "x".toList = .returned ⟨[], 0, [9]⟩) ∧
    (findNode (add "/a/:id/b".toList 0 Node.empty).node "/a/7/c".toList = none ∧
      findRoute ⟨[], 1, [9]⟩ (add "/a/:id/b".toList 0 Node.empty).node "GET".toList
        "/a/7/c".toList = .returned ⟨[⟨"id".toList, "7".toList⟩], 1, [9]⟩ ∧
      (⟨[⟨"id".toList, "7".toList⟩], 1, [9]⟩ : Ctx).handlers = [9]) :=
  ⟨⟨rfl, rfl, (dead_end_keeps_chain ⟨[], 0, [9]⟩ Node.empty "GET".toList "x".toList).2.1
      rfl rfl rfl rfl (by decide)⟩,
    ⟨by decide, by decide,
      (dead_end_keeps_chain ⟨[], 1, [9]⟩ (add "/a/:id/b".toList 0 Node.empty).node "GET".toList
        "/a/7/c".toList).2.2 ⟨[⟨"id".toList, "7".toList⟩], 1, [9]⟩ (by decide) (by decide)⟩⟩

/-- C16 (the lookup terminates without backtracking): `findRoute` never runs out
of passes through `START`, and as many passes as the path has `'/'`, plus one,
are enough; each restart goes on with the text after the `'/'` just
found, a strictly shorter suffix of the path with one `'/'` less; with room
for one binding per `'/'` and one more the lookup returns, having appended no
more bindings than that; and the node whose chain is read is that many edges
below the start at most. -/
theorem lookup_terminates (context : Ctx) (n : Node) (method path : Str) :
    findRoute context n method path ≠ .outOfFuel ∧
    findRouteAux (path.count slash + 1) context n method path
      = findRoute context n method path ∧
    (∀ e, indexWhere (· = slash) path = some e →
      path.drop (e + 1) <:+ path ∧ (path.drop (e + 1)).length < path.length ∧
      (path.drop (e + 1)).count slash + 1 = path.count slash ∧
      (∀ node, mapGet (path.take (e + 1)) n.static = some node →
        findRoute context n method path = findRoute context node method (path.drop (e + 1))) ∧
      (∀ pn, mapGet (path.take (e + 1)) n.static = none → n.params = some pn →
        context.params.length + 1 ≤ context.cap →
        findRoute context n method path =
          findRoute (context.bind pn.param (path.take e)) pn method (path.drop (e + 1)))) ∧
    (context.params.length + path.count slash + 1 ≤ context.cap →
      ∃ ctx1, findRoute context n method path = .returned ctx1 ∧
        ctx1.params.length ≤ context.params.length + path.count slash + 1) ∧
    (∀ q, findNode n path = some q → q.length ≤ path.count slash + 1) := by
  have hlen : path.count slash < path.length + 1 := by
    have := count_slash_le_length path; omega
  have hp := findRouteAux_passes (path.count slash + 1) (path.length + 1) context n method path
    (Nat.lt_succ_self _) hlen
  refine ⟨?_, hp.1, ?_, ?_, ?_⟩
  · have := hp.2
    rw [hp.1] at this
    exact this
  · intro e he
    obtain ⟨h1, h2, h3⟩ := restart_path he
    refine ⟨h1, h2, h3, ?_, ?_⟩
    · intro node hs
      rw [findRoute_eq context n]
      simp only [he, hs]
    · intro pn hs hpar hcap
      rw [findRoute_eq context n]
      simp only [he, hs, hpar]
      rw [if_neg (by omega)]
  · intro hcap
    obtain ⟨ctx1, h1, h2, -⟩ := findRouteAux_returns (path.length + 1) context n method path
      hlen hcap
    exact ⟨ctx1, h1, h2⟩
  · intro q hq
    exact findNodeAux_length _ _ _ _ hq

/-- Witness of C16: `/a/7/c` on the trie of `/a/:id/b`, a path with three `'/'`. -/
theorem lookup_terminates_witness :
    findRoute ⟨[], 4, []⟩ (add "/a/:id/b".toList 0 Node.empty).node "GET".toList
      "/a/7/c".toList ≠ .outOfFuel ∧
    indexWhere (· = slash) "/a/7/c".toList = some 0 ∧
    "/a/7/c".toList.drop (0 + 1) <:+ "/a/7/c".toList ∧
    ((⟨[], 4, []⟩ : Ctx).params.length + "/a/7/c".toList.count slash + 1
        ≤ (⟨[], 4, []⟩ : Ctx).cap) ∧
    ∃ ctx1, findRoute ⟨[], 4, []⟩ (add "/a/:id/b".toList 0 Node.empty).node "GET".toList
        "/a/7/c".toList = .returned ctx1 ∧
      ctx1.params.length ≤ (⟨[], 4, []⟩ : Ctx).params.length + "/a/7/c".toList.count slash + 1 :=
  ⟨(lookup_terminates ⟨[], 4, []⟩ (add "/a/:id/b".toList 0 Node.empty).node "GET".toList
      "/a/7/c".toList).1,
    by decide,
    ((lookup_terminates ⟨[], 4, []⟩ (add "/a/:id/b".toList 0 Node.empty).node "GET".toList
      "/a/7/c".toList).2.2.1 0 (by decide)).1,
    by decide,
    (lookup_terminates ⟨[], 4, []⟩ (add "/a/:id/b".toList 0 Node.empty).node "GET".toList
      "/a/7/c".toList).2.2.2.1 (by decide)⟩

/-- C17 (a lookup that stops on an interior parameter): on the trie that holds
only the route `S:p/t` (`S` without sigil and ending in `'/'`, `p` without
`'/'`, `t` not empty and without structural byte), `findRoute` on `Sv`, for
any value `v` without `'/'` and a context with room for one binding, leaves
the empty chain and appends the binding `(p, v)`. -/
theorem interior_param_binds_only (S p t v method : Str) (chain : HandlersChain)
    (context : Ctx) (hS : SigilFree S) (hend : S.getLast? = some slash) (hp : SlashFree p)
    (ht : Plain t) (hne : t ≠ []) (hv : SlashFree v)
    (hcap : context.params.length + 1 ≤ context.cap) :
    ∃ root, register Node.empty ⟨method, S ++ colon :: (p ++ slash :: t), chain⟩ = some root ∧
      findRoute context root method (S ++ v) =
        .returned ⟨context.params ++ [⟨p, v⟩], context.cap, []⟩ := by
  obtain ⟨ds, hds, rfl⟩ := split_prefix hS hend
  refine ⟨_, register_param_route ds p t method chain hds hp ht hne, ?_⟩
  rw [findRoute_dirs ds v context _ _ method (fun d hd => (hds d hd).slashFree)
    (Node.at?_graft _ _ _), findRoute_last _ _ _ hv]
  have hs : mapGet v (Node.empty.setParams
      ((Node.newParam p).setStatic t (Node.empty.addChain method chain))).static = none := rfl
  have hpar : (Node.empty.setParams
      ((Node.newParam p).setStatic t (Node.empty.addChain method chain))).params
      = some ((Node.newParam p).setStatic t (Node.empty.addChain method chain)) := rfl
  simp only [hs, hpar]
  rw [if_neg (by omega)]
  simp [Ctx.bind, Node.chainFor, Node.setStatic, Node.chains, Node.newParam, Node.param, mapGet]

/-- Witness of C17: `/users/:id/profile` looked up with `/users/42`. -/
theorem interior_param_binds_only_witness :
    ∃ root, register Node.empty
        ⟨"GET".toList, "/users/".toList ++ colon :: ("id".toList ++ slash :: "profile".toList),
          [1]⟩ = some root ∧
      findRoute ⟨[], 1, []⟩ root "GET".toList ("/users/".toList ++ "42".toList) =
        .returned ⟨[] ++ [⟨"id".toList, "42".toList⟩], 1, []⟩ :=
  interior_param_binds_only "/users/".toList "id".toList "profile".toList "42".toList
    "GET".toList [1] ⟨[], 1, []⟩ (by decide) (by decide) (by decide) (by decide) (by decide)
    (by decide) (by decide)

/-- C18 (static keys are well formed): in every trie reachable from the empty
root by calls of `add`, every key of the static map of every node is not empty,
holds neither `':'` nor `'*'`, and holds `'/'` at most once, as its last byte. -/
theorem static_keys_well_formed (root : Node) (h : Reachable root) (p : Ptr) (x c : Node)
    (k : Str) (hx : root.at? p = some x) (hk : mapGet k x.static = some c) :
    k ≠ [] ∧ (∀ b ∈ k, b ≠ colon ∧ b ≠ star) ∧ (∀ b ∈ k.dropLast, b ≠ slash) :=
  (reachable_sound h p x hx).2 k c hk

/-- Witness of C18: the key `users/` of the node of `/` after `add` of
`/users/:id`. -/
theorem static_keys_well_formed_witness :
    Reachable (add "/users/:id".toList 0 Node.empty).node ∧
    (add "/users/:id".toList 0 Node.empty).node.at? [.static "/".toList]
      = some (Node.mk [("users/".toList,
          Node.mk [] (some (Node.newParam "id".toList)) none [] [])] none none [] []) ∧
    ("users/".toList ≠ [] ∧ (∀ b ∈ "users/".toList, b ≠ colon ∧ b ≠ star) ∧
      (∀ b ∈ "users/".toList.dropLast, b ≠ slash)) :=
  ⟨Reachable.add _ _ Reachable.empty, rfl,
    static_keys_well_formed (add "/users/:id".toList 0 Node.empty).node
      (Reachable.add "/users/:id".toList 0 Reachable.empty) [.static "/".toList]
      (Node.mk [("users/".toList,
          Node.mk [] (some (Node.newParam "id".toList)) none [] [])] none none [] [])
      (Node.mk [] (some (Node.newParam "id".toList)) none [] []) "users/".toList rfl rfl⟩

/-- Counterexample to C19 as stated: on the trie of `GET /u/:p` and
`GET /u/:p/:q`, `add` of `/u/:p` and of `/u/:p/` return the same node, yet
`/u/7` resolves to the chain of `/u/:p` with the binding of `p`, and `/u/7/`
to the chain of `/u/:p/:q` with a second binding, of `q` to the empty string;
and on the trie of `GET /u/:p` and `GET /u/x`, `/u/x` resolves to the static
route without binding and `/u/x/` to the chain of `/u/:p`. -/
theorem trailing_slash_distinguished :
    (∃ root, registerAll Node.empty
        [⟨"GET".toList, "/u/:p".toList, [1]⟩, ⟨"GET".toList, "/u/:p/:q".toList, [2]⟩]
        = some root ∧
      (add "/u/:p".toList 0 root).status
        = .returned [.static "/".toList, .static "u/".toList, .params] ∧
      (add "/u/:p/".toList 0 root).status
        = .returned [.static "/".toList, .static "u/".toList, .params] ∧
      findRoute ⟨[], 2, []⟩ root "GET".toList "/u/7".toList
        = .returned ⟨[⟨"p".toList, "7".toList⟩], 2, [1]⟩ ∧
      findRoute ⟨[], 2, []⟩ root "GET".toList "/u/7/".toList
        = .returned ⟨[⟨"p".toList, "7".toList⟩, ⟨"q".toList, []⟩], 2, [2]⟩) ∧
    (∃ root, registerAll Node.empty
        [⟨"GET".toList, "/u/:p".toList, [1]⟩, ⟨"GET".toList, "/u/x".toList, [3]⟩]
        = some root ∧
      findRoute ⟨[], 2, []⟩ root "GET".toList "/u/x".toList = .returned ⟨[], 2, [3]⟩ ∧
      findRoute ⟨[], 2, []⟩ root "GET".toList "/u/x/".toList
        = .returned ⟨[⟨"p".toList, "x".toList⟩], 2, [1]⟩) :=
  ⟨⟨_, rfl, by decide, by decide, by decide, by decide⟩, ⟨_, rfl, by decide, by decide⟩⟩

/-- C19, amended (a trailing separator after a final parameter is not
distinguished by `add`, and by `findRoute` where nothing shadows it): on every
reachable trie, for a prefix `S` without sigil ending in `'/'` and a name `p`
without `'/'`, successful calls of `add` on `S:p` and on `S:p/` return the
same node and leave the same trie, so the two patterns share one chain table;
and where the node `X` under `S` has no static child keyed `v` or `v/` and the
param node `P` has neither a param child nor a wild child, `findRoute` on `Sv`
and on `Sv/` leaves the same chain, the one of `P`, with the same one binding
`(p, v)` appended. -/
theorem trailing_slash_param_shared (root : Node) (hroot : Reachable root) (S p : Str)
    (pCount pCount' : Nat) (a1 a2 : Ptr) (hS : SigilFree S) (hend : S.getLast? = some slash)
    (hp : SlashFree p)
    (h1 : (add (S ++ colon :: p) pCount root).status = .returned a1)
    (h2 : (add (S ++ colon :: (p ++ [slash])) pCount' root).status = .returned a2) :
    a1 = a2 ∧
    (add (S ++ colon :: p) pCount root).node
      = (add (S ++ colon :: (p ++ [slash])) pCount' root).node ∧
    ∀ (X P : Node) (v method : Str) (context : Ctx),
      root.at? a1.dropLast = some X → root.at? a1 = some P → SlashFree v →
      mapGet v X.static = none → mapGet (v ++ [slash]) X.static = none →
      P.params = none → P.wild = none → context.params.length + 1 ≤ context.cap →
      findRoute context root method (S ++ v) =
        .returned ⟨context.params ++ [⟨p, v⟩], context.cap, P.chainFor method⟩ ∧
      findRoute context root method (S ++ (v ++ [slash])) =
        .returned ⟨context.params ++ [⟨p, v⟩], context.cap, P.chainFor method⟩ := by
  obtain ⟨ds, hds, rfl⟩ := split_prefix hS hend
  have hdsS : ∀ d ∈ ds, SlashFree d := fun d hd => (hds d hd).slashFree
  have e1 := add_dirs ds (colon :: p) pCount root hds
  have e2 := add_dirs ds (colon :: (p ++ [slash])) pCount' root hds
  rw [e1] at h1
  rw [e2] at h2
  obtain ⟨q1, hq1, rfl⟩ := AddResult.lift_returned h1
  obtain ⟨q2, hq2, rfl⟩ := AddResult.lift_returned h2
  obtain ⟨rfl, hn1, hname⟩ := add_param_end_returned hp hq1
  obtain ⟨rfl, hn2⟩ := add_param_slash_end_returned hp hq2
  refine ⟨rfl, ?_, ?_⟩
  · rw [e1, e2, AddResult.lift_node, AddResult.lift_node, hn1, hn2]
  · intro X P v method context hX hP hv hv1 hv2 hPp hPw hcap
    rw [List.dropLast_concat] at hX
    rw [Node.at?_append, hX] at hP
    simp only [Option.some_bind, Node.at?, Node.child] at hP
    have hXP : X.params = some P := by
      cases hpar : X.params with
      | none => simp [hpar] at hP
      | some pn => simpa [hpar] using hP
    have hPname : P.param = p := by
      have := hname P
      rw [Node.descend_of_at? hX] at this
      exact this hXP
    have hPsound := reachable_sound hroot (dirPtr ds ++ [.params]) P (by
      rw [Node.at?_append, hX]; simp [Node.at?, Node.child, hXP])
    have hPk : mapGet [] P.static = none := by
      cases hc : mapGet [] P.static with
      | none => rfl
      | some c => exact absurd rfl (hPsound.2 [] c hc).1
    have hc : ¬ (context.params.length + 1 > context.cap) := by omega
    constructor
    · rw [findRoute_dirs ds v context root X method hdsS hX, findRoute_last _ _ _ hv]
      simp only [hv1, hXP, if_neg hc, hPname]
      simp [Ctx.bind]
    · rw [findRoute_dirs ds (v ++ [slash]) context root X method hdsS hX,
        show v ++ [slash] = v ++ slash :: [] from rfl, findRoute_slash [] context X method hv]
      simp only [hv2, hXP, if_neg hc, hPname]
      rw [findRoute_last _ _ _ (by simp [SlashFree])]
      simp [hPk, hPp, hPw, blank, Ctx.bind]

/-- Witness of C19, amended: `/u/:p` and `/u/:p/` on the trie of `GET /u/:p`,
looked up with `/u/7` and `/u/7/`. -/
theorem trailing_slash_param_shared_witness :
    Reachable ((add "/u/:p".toList 0 Node.empty).node.addChainAt
      [.static "/".toList, .static "u/".toList, .params] "GET".toList [1]) ∧
    findRoute ⟨[], 1, []⟩ ((add "/u/:p".toList 0 Node.empty).node.addChainAt
      [.static "/".toList, .static "u/".toList, .params] "GET".toList [1]) "GET".toList
      ("/u/".toList ++ "7".toList) = .returned ⟨[] ++ [⟨"p".toList, "7".toList⟩], 1, [1]⟩ ∧
    findRoute ⟨[], 1, []⟩ ((add "/u/:p".toList 0 Node.empty).node.addChainAt
      [.static "/".toList, .static "u/".toList, .params] "GET".toList [1]) "GET".toList
      ("/u/".toList ++ ("7".toList ++ [slash]))
      = .returned ⟨[] ++ [⟨"p".toList, "7".toList⟩], 1, [1]⟩ :=
  ⟨Reachable.addChain _ _ _ (Reachable.add _ _ Reachable.empty),
    (trailing_slash_param_shared
      ((add "/u/:p".toList 0 Node.empty).node.addChainAt
        [.static "/".toList, .static "u/".toList, .params] "GET".toList [1])
      (Reachable.addChain _ _ _ (Reachable.add _ _ Reachable.empty))
      "/u/".toList "p".toList 0 0
      [.static "/".toList, .static "u/".toList, .params]
      [.static "/".toList, .static "u/".toList, .params]
      (by decide) (by decide) (by decide) (by decide) (by decide)).2.2
      (Node.mk [] (some (Node.mk [] none none [("GET".toList, [1])] "p".toList)) none [] [])
      (Node.mk [] none none [("GET".toList, [1])] "p".toList)
      "7".toList "GET".toList ⟨[], 1, []⟩ rfl rfl (by decide) rfl rfl rfl rfl (by decide)⟩

/-- C20 (rejected registrations are not atomic): `add` of `/a/b/*x` on the empty
root panics after it has stored the static nodes of `/`, `a/` and `b/`, and
`add` of `/a/:b/*x` panics after it has also stored a param node and advanced
the counter; the trie after the failed call is not the trie before it. -/
theorem failed_add_leaves_nodes :
    (add "/a/b/*x".toList 0 Node.empty).status = .panicked .charAfterStar ∧
    (add "/a/b/*x".toList 0 Node.empty).node.at?
      [.static "/".toList, .static "a/".toList, .static "b/".toList] = some Node.empty ∧
    Node.empty.at? [.static "/".toList, .static "a/".toList, .static "b/".toList] = none ∧
    (add "/a/b/*x".toList 0 Node.empty).node ≠ Node.empty ∧
    (add "/a/:b/*x".toList 0 Node.empty).status = .panicked .charAfterStar ∧
    (add "/a/:b/*x".toList 0 Node.empty).pCount = 1 ∧
    (add "/a/:b/*x".toList 0 Node.empty).node.at?
      [.static "/".toList, .static "a/".toList, .params] = some (Node.newParam "b".toList) ∧
    (add "/a/:b/*x".toList 0 Node.empty).node ≠ Node.empty := by
  refine ⟨by decide, rfl, rfl, ?_, by decide, by decide, rfl, ?_⟩
  · intro h
    have := congrArg (fun n => n.static.length) h
    revert this
    decide
  · intro h
    have := congrArg (fun n => n.static.length) h
    revert this
    decide

end Lars
